import Mathlib

/-!
# A fixed-arena allocator (`mem.c`): model and verification

The arena is a static byte buffer of `MEMORY_SIZE` bytes.  Block headers live inside the
arena, each immediately before the payload it describes, and are linked into a doubly-linked
list in address order.

## Memory model

Addresses are offsets (in bytes, as integers) from the first byte of the arena, so that a
pointer below the arena is a negative offset; `none` is the null pointer.  Memory is seen
through two views that are kept consistent by the store primitives:

* `hdr o` is the header stored at offset `o`, when the `BLOCK_SIZE` bytes starting at `o`
  currently hold a header written by the allocator and no later store touched any of them;
* `data a` is the byte at offset `a`.

Storing a header at `o` overwrites the bytes `[o, o + BLOCK_SIZE)` (with the byte image of the
header, `enc`, whose layout is left as a parameter) and invalidates every other header that
overlaps that range.  Storing bytes invalidates every header that overlaps them.  Reading a
header from a place that holds none is stuck (`none`), as is running a loop out of fuel.

`size_t` arithmetic is arithmetic modulo `2 ^ 64`.
-/

namespace HeapMem

set_option maxRecDepth 100000

/-! ## Constants and macros -/

/-- `#define MEMORY_SIZE (1024 * 1024*30)` -/
def MEMORY_SIZE : Nat := 1024 * 1024 * 30

/-- `#define ALIGNMENT 8` -/
def ALIGNMENT : Nat := 8

/-- The modulus of `size_t` arithmetic (64-bit target). -/
def SIZE_MOD : Nat := 2 ^ 64

/-- `#define ALIGN(size) (((size) + (ALIGNMENT - 1)) & ~(ALIGNMENT - 1))` on `size_t`:
the sum wraps modulo `2 ^ 64`, and `~(ALIGNMENT - 1)` converted to `size_t` is
`2 ^ 64 - 1 - (ALIGNMENT - 1)`. -/
def ALIGN (size : Nat) : Nat :=
  ((size + (ALIGNMENT - 1)) % SIZE_MOD) &&& (SIZE_MOD - 1 - (ALIGNMENT - 1))

/-- `sizeof(Block)` on an LP64 target: `size_t` (8), `int` (4, padded to 8), two pointers. -/
def sizeof_Block : Nat := 32

/-- `#define BLOCK_SIZE (ALIGN(sizeof(Block)))` -/
def BLOCK_SIZE : Nat := ALIGN sizeof_Block

/-- `#define MIN_BLOCK_SIZE (ALIGN(sizeof(Block) + 16))` -/
def MIN_BLOCK_SIZE : Nat := ALIGN (sizeof_Block + 16)

/-- Addition of two `size_t` values. -/
def addSz (a b : Nat) : Nat := (a + b) % SIZE_MOD

/-- Subtraction of two `size_t` values (both below `2 ^ 64`). -/
def subSz (a b : Nat) : Nat := (a + SIZE_MOD - b) % SIZE_MOD

/-! ## Data model -/

/-- `struct Block`: the header stored in front of every payload. -/
structure Block where
  size : Nat
  is_free : Bool
  next : Option Int
  prev : Option Int
deriving DecidableEq, Repr

/-- The global state: the arena seen as headers and as bytes, `free_list`, `MemInitialized`. -/
structure Heap where
  hdr : Int → Option Block
  data : Int → Nat
  free_list : Option Int
  MemInitialized : Bool

/-- The state at program start: static storage is zeroed, `free_list = NULL`,
`MemInitialized = 0`; no header has been written yet. -/
def zeroHeap : Heap := ⟨fun _ => none, fun _ => 0, none, false⟩

/-- Store a whole header at offset `o`. -/
def storeHdr (enc : Block → Int → Nat) (h : Heap) (o : Int) (b : Block) : Heap :=
  { h with
    hdr := fun x =>
      if x = o then some b
      else if o - (BLOCK_SIZE : Int) < x ∧ x < o + (BLOCK_SIZE : Int) then none
      else h.hdr x
    data := fun a =>
      if o ≤ a ∧ a < o + (BLOCK_SIZE : Int) then enc b (a - o) else h.data a }

/-- Assign to fields of the header at offset `o` (`blk->field = v`). -/
def updHdr (enc : Block → Int → Nat) (h : Heap) (o : Int) (f : Block → Block) : Option Heap :=
  match h.hdr o with
  | none => none
  | some b => some (storeHdr enc h o (f b))

/-- Store one byte of user data at offset `a`. -/
def storeByte (h : Heap) (a : Int) (v : Nat) : Heap :=
  { h with
    hdr := fun x => if x ≤ a ∧ a < x + (BLOCK_SIZE : Int) then none else h.hdr x
    data := fun x => if x = a then v else h.data x }

/-- `memcpy(dst, src, n)` for non-overlapping ranges: the `n` bytes at `src` are copied to
`dst`; every header overlapping the destination is overwritten. -/
def memcpy (h : Heap) (dst src : Int) (n : Nat) : Heap :=
  { h with
    hdr := fun x =>
      if dst < x + (BLOCK_SIZE : Int) ∧ x < dst + (n : Int) then none else h.hdr x
    data := fun a =>
      if dst ≤ a ∧ a < dst + (n : Int) then h.data (src + (a - dst)) else h.data a }

/-! ## The allocator -/

/-- `MEM_init`: one free block spanning the arena minus one header. -/
def MEM_init (enc : Block → Int → Nat) (h : Heap) : Heap :=
  { storeHdr enc h 0 ⟨subSz MEMORY_SIZE BLOCK_SIZE, true, none, none⟩ with
    free_list := some 0
    MemInitialized := true }

/-- `if (!MemInitialized) MEM_init();` -/
def ensure_initialized (enc : Block → Int → Nat) (h : Heap) : Heap :=
  if h.MemInitialized then h else MEM_init enc h

/-- The loop of `delayed_merge`, started at `current`. -/
def delayed_merge_loop (enc : Block → Int → Nat) : Nat → Heap → Option Int → Option Heap
  | _, h, none => some h
  | 0, _, some _ => none
  | fuel + 1, h, some cur =>
    match h.hdr cur with
    | none => none
    | some c =>
      match c.is_free, c.next with
      | true, some nx =>
        match h.hdr nx with
        | none => none
        | some n =>
          if n.is_free then
            -- current->size += BLOCK_SIZE + current->next->size;
            let h1 := storeHdr enc h cur { c with size := addSz c.size (addSz BLOCK_SIZE n.size) }
            -- current->next = current->next->next;
            match h1.hdr cur with
            | none => none
            | some c1 =>
              match c1.next with
              | none => none
              | some nx1 =>
                match h1.hdr nx1 with
                | none => none
                | some n1 =>
                  let h2 := storeHdr enc h1 cur { c1 with next := n1.next }
                  -- if (current->next) current->next->prev = current;
                  match h2.hdr cur with
                  | none => none
                  | some c2 =>
                    match c2.next with
                    | none => delayed_merge_loop enc fuel h2 (some cur)
                    | some nn =>
                      match updHdr enc h2 nn (fun b => { b with prev := some cur }) with
                      | none => none
                      | some h3 => delayed_merge_loop enc fuel h3 (some cur)
          else delayed_merge_loop enc fuel h c.next
      | _, _ => delayed_merge_loop enc fuel h c.next

/-- `delayed_merge`: merge adjacent free blocks, from `free_list` to the end of the chain. -/
def delayed_merge (enc : Block → Int → Nat) (h : Heap) : Option Heap :=
  delayed_merge_loop enc MEMORY_SIZE h h.free_list

/-- The first loop of `_malloc` (best fit), with `current` and `best_fit` as loop state. -/
def malloc_best_fit (h : Heap) (size : Nat) : Nat → Option Int → Option Int → Option (Option Int)
  | _, none, best => some best
  | 0, some _, _ => none
  | fuel + 1, some cur, best =>
    match h.hdr cur with
    | none => none
    | some c =>
      if c.is_free && decide (c.size ≥ size) then
        match best with
        | none => malloc_best_fit h size fuel c.next (some cur)
        | some bf =>
          match h.hdr bf with
          | none => none
          | some b =>
            if c.size < b.size then malloc_best_fit h size fuel c.next (some cur)
            else malloc_best_fit h size fuel c.next (some bf)
      else malloc_best_fit h size fuel c.next best

/-- The second loop of `_malloc` (first fit, after the merge). -/
def malloc_first_fit (h : Heap) (size : Nat) : Nat → Option Int → Option (Option Int)
  | _, none => some none
  | 0, some _ => none
  | fuel + 1, some cur =>
    match h.hdr cur with
    | none => none
    | some c =>
      if c.is_free && decide (c.size ≥ size) then some (some cur)
      else malloc_first_fit h size fuel c.next

/-- The tail of `_malloc` once `best_fit` is found: split when the block is large enough,
mark it allocated, return the payload pointer. -/
def malloc_take (enc : Block → Int → Nat) (h : Heap) (size : Nat) (best_fit : Int) :
    Option (Heap × Option Int) :=
  match h.hdr best_fit with
  | none => none
  | some bf =>
    let split : Option Heap :=
      if bf.size ≥ addSz (addSz size BLOCK_SIZE) MIN_BLOCK_SIZE then
        let new_block : Int := best_fit + (BLOCK_SIZE : Int) + (size : Int)
        let h1 := storeHdr enc h new_block
          ⟨subSz (subSz bf.size size) BLOCK_SIZE, true, bf.next, some best_fit⟩
        -- if (best_fit->next) best_fit->next->prev = new_block;
        match h1.hdr best_fit with
        | none => none
        | some bf1 =>
          let linked : Option Heap :=
            match bf1.next with
            | none => some h1
            | some nx => updHdr enc h1 nx (fun b => { b with prev := some new_block })
          match linked with
          | none => none
          | some h2 =>
            -- best_fit->next = new_block; best_fit->size = size;
            updHdr enc h2 best_fit (fun b => { b with next := some new_block, size := size })
      else some h
    match split with
    | none => none
    | some h3 =>
      match updHdr enc h3 best_fit (fun b => { b with is_free := false }) with
      | none => none
      | some h4 => some (h4, some (best_fit + (BLOCK_SIZE : Int)))

/-- `_malloc(size)`. -/
def _malloc (enc : Block → Int → Nat) (h0 : Heap) (n : Nat) : Option (Heap × Option Int) :=
  let h := ensure_initialized enc h0
  let size := ALIGN n
  match malloc_best_fit h size MEMORY_SIZE h.free_list none with
  | none => none
  | some (some best_fit) => malloc_take enc h size best_fit
  | some none =>
    match delayed_merge enc h with
    | none => none
    | some h1 =>
      match malloc_first_fit h1 size MEMORY_SIZE h1.free_list with
      | none => none
      | some none => some (h1, none)
      | some (some best_fit) => malloc_take enc h1 size best_fit

/-- The validation of `_free`: the pointer is inside the arena and aligned relative to its
start (`true` when the pointer is accepted). -/
def ptr_in_pool (d : Int) : Bool :=
  !(decide (d < 0) || decide (d ≥ (MEMORY_SIZE : Int)) || decide (d.tmod (ALIGNMENT : Int) ≠ 0))

/-- `(Block*)((char*)ptr - BLOCK_SIZE)` -/
def block_of (d : Int) : Int := d - (BLOCK_SIZE : Int)

/-- `_free(ptr)`. -/
def _free (enc : Block → Int → Nat) (h0 : Heap) (ptr : Option Int) : Option Heap :=
  let h := ensure_initialized enc h0
  match ptr with
  | none => some h
  | some d =>
    if ptr_in_pool d then updHdr enc h (block_of d) (fun b => { b with is_free := true })
    else some h

/-- `_realloc(ptr, size)`. -/
def _realloc (enc : Block → Int → Nat) (h0 : Heap) (ptr : Option Int) (n : Nat) :
    Option (Heap × Option Int) :=
  let h := ensure_initialized enc h0
  match ptr with
  | none => _malloc enc h n
  | some d =>
    let size := ALIGN n
    match h.hdr (block_of d) with
    | none => none
    | some b =>
      if b.size ≥ size then some (h, some d)
      else
        match _malloc enc h size with
        | none => none
        | some (h1, none) => some (h1, none)
        | some (h1, some q) =>
          -- memcpy(new_ptr, ptr, block->size); _free(ptr);
          match h1.hdr (block_of d) with
          | none => none
          | some b1 =>
            match _free enc (memcpy h1 q d b1.size) (some d) with
            | none => none
            | some h3 => some (h3, some q)

/-- `my_alloc(ud, ptr, osize, nsize)`; the unused `ud` is omitted. -/
def my_alloc (enc : Block → Int → Nat) (h : Heap) (ptr : Option Int) (osize nsize : Nat) :
    Option (Heap × Option Int) :=
  if nsize = 0 then
    match _free enc h ptr with
    | none => none
    | some h1 => some (h1, none)
  else
    match _realloc enc h ptr nsize with
    | none => none
    | some (h1, newptr) =>
      if newptr = none ∧ ptr ≠ none ∧ nsize ≤ osize then some (h1, ptr)
      else some (h1, newptr)

/-- The traversal of `print_memory_state`: the blocks of the chain, in order, each with the
offset of its header. -/
def walk (h : Heap) : Nat → Option Int → Option (List (Int × Block))
  | _, none => some []
  | 0, some _ => none
  | fuel + 1, some cur =>
    match h.hdr cur with
    | none => none
    | some b =>
      match walk h fuel b.next with
      | none => none
      | some rest => some ((cur, b) :: rest)

/-- The ledger: every block reachable from `free_list`, in chain order. -/
def ledger (h : Heap) : Option (List (Int × Block)) :=
  walk h MEMORY_SIZE h.free_list

/-! ## The ledger as a list of regions -/

/-- What the ledger says about one block: where its header is, its payload size, its state. -/
structure Region where
  off : Int
  size : Nat
  free : Bool
deriving DecidableEq, Repr

/-- Forget the links of a traversal. -/
def regions (l : List (Int × Block)) : List Region :=
  l.map fun ob => ⟨ob.1, ob.2.size, ob.2.is_free⟩

/-- Offset of the first region of `l`, or `e` when `l` is empty. -/
def headOff : List Region → Option Int → Option Int
  | [], e => e
  | r :: _, _ => some r.off

/-- Offset of the last region of `l`, or `p` when `l` is empty. -/
def lastOff : List Region → Option Int → Option Int
  | [], p => p
  | r :: l, _ => lastOff l (some r.off)

/-- The headers of a chain with regions `l`, whose first block has `prev = p` and whose last
block has `next = e`. -/
def hdrs : Option Int → List Region → Option Int → List (Int × Block)
  | _, [], _ => []
  | p, r :: l, e => (r.off, ⟨r.size, r.free, headOff l e, p⟩) :: hdrs (some r.off) l e

/-- The heap stores the chain `l` (linked to `p` before and `e` after). -/
def Chain (h : Heap) (p : Option Int) (l : List Region) (e : Option Int) : Prop :=
  ∀ ob ∈ hdrs p l e, h.hdr ob.1 = some ob.2

/-- The regions of `l` tile `[s, t)`: each header is followed by its payload and then by the
next header; every size is a multiple of the alignment unit. -/
def Adj : Int → List Region → Int → Prop
  | s, [], t => s = t
  | s, r :: l, t =>
    r.off = s ∧ r.size % ALIGNMENT = 0 ∧ Adj (s + (BLOCK_SIZE : Int) + (r.size : Int)) l t

/-- The heap is initialised and its chain, starting at offset 0, stores the regions `l`, which
tile the arena; the last block is at least `MIN_BLOCK_SIZE` bytes. -/
structure Repr (h : Heap) (l : List Region) : Prop where
  init : h.MemInitialized = true
  head : h.free_list = some 0
  adj : Adj 0 l (MEMORY_SIZE : Int)
  chain : Chain h none l none
  last : ∀ r, l.getLast? = some r → MIN_BLOCK_SIZE ≤ r.size

/-- A free region with room for `size` bytes. -/
def fits (size : Nat) (r : Region) : Bool := r.free && decide (size ≤ r.size)

/-- Best fit over a list of regions, with the best candidate so far. -/
def bestFitA (size : Nat) : List Region → Option Region → Option Region
  | [], best => best
  | c :: l, best =>
    if fits size c then
      match best with
      | none => bestFitA size l (some c)
      | some b => if c.size < b.size then bestFitA size l (some c) else bestFitA size l (some b)
    else bestFitA size l best

/-- The ledger obtained by merging every run of adjacent free blocks into one block. -/
def coalesce : List Region → List Region
  | [] => []
  | a :: l =>
    match coalesce l with
    | [] => [a]
    | b :: l1 =>
      if a.free && b.free then ⟨a.off, a.size + BLOCK_SIZE + b.size, true⟩ :: l1
      else a :: b :: l1

/-- What becomes of the chosen region `b` when `size` bytes are taken from it. -/
def takeA (size : Nat) (b : Region) : List Region :=
  if size + BLOCK_SIZE + MIN_BLOCK_SIZE ≤ b.size then
    [⟨b.off, size, false⟩,
     ⟨b.off + (BLOCK_SIZE : Int) + (size : Int), b.size - size - BLOCK_SIZE, true⟩]
  else [⟨b.off, b.size, false⟩]

/-- The ledger in which `_malloc` finds its block: the current one when some free block fits,
its coalesced form otherwise. -/
def searchLedger (size : Nat) (l : List Region) : List Region :=
  if l.any (fits size) then l else coalesce l

/-- The block `_malloc` chooses: best fit when some free block fits, otherwise first fit in the
coalesced ledger. -/
def chooseA (size : Nat) (l : List Region) : Option Region :=
  if l.any (fits size) then bestFitA size l none else (coalesce l).find? (fits size)

/-- How one call `_malloc` with aligned request `size` changes the ledger `l` into `l1` and
what pointer `p` it returns: nothing fits even after coalescing and the call fails, or the
chosen block is replaced, in the ledger it was found in, by what `takeA` makes of it. -/
def MallocStep (size : Nat) (l l1 : List Region) (p : Option Int) : Prop :=
  match chooseA size l with
  | none => l1 = searchLedger size l ∧ p = none
  | some b =>
    ∃ l2 l3, searchLedger size l = l2 ++ b :: l3 ∧ l1 = l2 ++ takeA size b ++ l3 ∧
      p = some (b.off + (BLOCK_SIZE : Int))

/-- Offset `a` lies in the payload of region `r`. -/
def inPayload (r : Region) (a : Int) : Prop :=
  r.off + (BLOCK_SIZE : Int) ≤ a ∧ a < r.off + (BLOCK_SIZE : Int) + (r.size : Int)

instance (r : Region) (a : Int) : Decidable (inPayload r a) := by
  unfold inPayload; infer_instance

/-- Offset `a` lies in no header of the ledger and in no free block. -/
def Untouched (l : List Region) (a : Int) : Prop :=
  ∀ r ∈ l, (a < r.off ∨ r.off + (BLOCK_SIZE : Int) ≤ a) ∧
    (r.free = true → a < r.off ∨ r.off + (BLOCK_SIZE : Int) + (r.size : Int) ≤ a)

/-! ## Reachable states -/

/-- The pointer `d` is live: it is the payload pointer of an allocated block of the ledger. -/
def Live (h : Heap) (d : Int) : Prop :=
  ∃ l, ledger h = some l ∧ ∃ ob ∈ l, ob.2.is_free = false ∧ d = ob.1 + (BLOCK_SIZE : Int)

/-- A null pointer or a live one. -/
def NullOrLive (h : Heap) : Option Int → Prop
  | none => True
  | some d => Live h d

/-- Offset `a` is a payload byte of an allocated block of the ledger. -/
def LiveByte (h : Heap) (a : Int) : Prop :=
  ∃ l, ledger h = some l ∧ ∃ r ∈ regions l, r.free = false ∧ inPayload r a

/-- The states the allocator can be in: from the initial ledger, any sequence of calls whose
non-null pointer arguments are live (or, where the call only frees, rejected by the validation
of `_free`), interleaved with the caller writing bytes into payloads it owns.  A pointer is
live when it was returned by an earlier call and not freed since, which is the case exactly
when it is the payload pointer of an allocated block of the ledger (`Live`). -/
inductive Reachable (enc : Block → Int → Nat) : Heap → Prop
  | init : Reachable enc (MEM_init enc zeroHeap)
  | malloc (h h1 : Heap) (n : Nat) (p : Option Int) :
      Reachable enc h → n < SIZE_MOD → _malloc enc h n = some (h1, p) → Reachable enc h1
  | free (h h1 : Heap) (ptr : Option Int) :
      Reachable enc h → (NullOrLive h ptr ∨ ∃ d, ptr = some d ∧ ptr_in_pool d = false) →
      _free enc h ptr = some h1 → Reachable enc h1
  | realloc (h h1 : Heap) (ptr : Option Int) (n : Nat) (q : Option Int) :
      Reachable enc h → n < SIZE_MOD → NullOrLive h ptr →
      _realloc enc h ptr n = some (h1, q) → Reachable enc h1
  | my_alloc (h h1 : Heap) (ptr : Option Int) (osize nsize : Nat) (q : Option Int) :
      Reachable enc h → osize < SIZE_MOD → nsize < SIZE_MOD →
      (NullOrLive h ptr ∨ (nsize = 0 ∧ ∃ d, ptr = some d ∧ ptr_in_pool d = false)) →
      my_alloc enc h ptr osize nsize = some (h1, q) → Reachable enc h1
  | write (h : Heap) (a : Int) (v : Nat) :
      Reachable enc h → LiveByte h a → v < 256 → Reachable enc (storeByte h a v)

/-! ## Properties stated by the specification -/

/-- The links of a traversal whose first block has `prev = p`: every block's `next` is the
header that follows it in the traversal, that header sits right after the block's payload and
its `prev` points back; the last block has `next = NULL` and ends where the arena ends. -/
def Linked : Option Int → List (Int × Block) → Prop
  | _, [] => True
  | p, [ob] =>
    ob.2.prev = p ∧ ob.2.next = none ∧
      ob.1 + (BLOCK_SIZE : Int) + (ob.2.size : Int) = (MEMORY_SIZE : Int)
  | p, ob :: ob2 :: rest =>
    ob.2.prev = p ∧ ob.2.next = some ob2.1 ∧
      ob2.1 = ob.1 + (BLOCK_SIZE : Int) + (ob.2.size : Int) ∧ Linked (some ob.1) (ob2 :: rest)

/-- On the blocks of a traversal, `prev` and `next` are inverse to each other: `y` is the
successor of `x` exactly when `x` is the predecessor of `y`. -/
def MutualInverse (L : List (Int × Block)) : Prop :=
  ∀ x ∈ L, ∀ y ∈ L, x.2.next = some y.1 ↔ y.2.prev = some x.1

/-- Chain integrity of a ledger: it starts at offset 0 with a block that has no predecessor,
it is linked in both directions without gaps up to the end of the arena, `prev` and `next`
are mutual inverses, and the footprints `size + BLOCK_SIZE` add up to the arena size. -/
def ChainIntegrity (L : List (Int × Block)) : Prop :=
  (∃ b rest, L = (0, b) :: rest) ∧ Linked none L ∧ MutualInverse L ∧
    (L.map fun ob => ob.2.size + BLOCK_SIZE).sum = MEMORY_SIZE

/-- The size stored in the header in front of the payload pointer `d` (`block->size`). -/
def stored_size (h : Heap) (d : Int) : Option Nat :=
  (h.hdr (block_of d)).map fun b => b.size

/-- The regions of `l` tile `[s, t)`: each header is followed by its payload and then by the
next header (nothing is asked of the sizes). -/
def Tile : Int → List Region → Int → Prop
  | s, [], t => s = t
  | s, r :: l, t => r.off = s ∧ Tile (s + (BLOCK_SIZE : Int) + (r.size : Int)) l t

/-- No block and its immediate successor are both free. -/
def NoAdjFree : List Region → Prop
  | a :: b :: l => ¬ (a.free = true ∧ b.free = true) ∧ NoAdjFree (b :: l)
  | _ => True

/-- `Merged l l1`: `l1` is `l` with every maximal run of consecutive free blocks replaced by
one free block at the run's first offset, of size the sum of the sizes of the run plus one
`BLOCK_SIZE` for every block of the run but the first; allocated blocks are kept as they are,
in their place. -/
inductive Merged : List Region → List Region → Prop
  | nil : Merged [] []
  | alloc (a : Region) (l l1 : List Region) :
      a.free = false → Merged l l1 → Merged (a :: l) (a :: l1)
  | run (a : Region) (run rest l1 : List Region) :
      a.free = true → (∀ r ∈ run, r.free = true) → (∀ c ∈ rest.head?, c.free = false) →
      Merged rest l1 →
      Merged (a :: run ++ rest)
        (⟨a.off, a.size + (run.map fun r => r.size).sum + run.length * BLOCK_SIZE, true⟩ :: l1)

/-- The total free footprint of a ledger: the sum of `size + BLOCK_SIZE` over its free
blocks. -/
def freeFootprint (l : List Region) : Nat :=
  ((l.filter fun r => r.free).map fun r => r.size + BLOCK_SIZE).sum

/-- A sequence of `_malloc` calls, one for each requested size, with nothing in between: the
final heap and the number of calls that returned a non-null pointer. -/
def malloc_seq (enc : Block → Int → Nat) : Heap → List Nat → Option (Heap × Nat)
  | h, [] => some (h, 0)
  | h, n :: ns =>
    match _malloc enc h n with
    | none => none
    | some (h1, p) =>
      match malloc_seq enc h1 ns with
      | none => none
      | some (h2, k) =>
        match p with
        | none => some (h2, k)
        | some _ => some (h2, k + 1)

/-! ## Concrete runs -/

/-- A header image used in concrete runs. -/
def enc0 : Block → Int → Nat := fun _ _ => 0

/-- The heap after `_malloc(n)`. -/
def exec_malloc (enc : Block → Int → Nat) (h : Heap) (n : Nat) : Heap :=
  match _malloc enc h n with
  | some (h1, _) => h1
  | none => h

/-- The heap after `_free` of the pointer at offset `d`. -/
def exec_free (enc : Block → Int → Nat) (h : Heap) (d : Int) : Heap :=
  match _free enc h (some d) with
  | some h1 => h1
  | none => h

/-- Decision procedure for `Live`. -/
def isLive (h : Heap) (d : Int) : Bool :=
  match ledger h with
  | some l => l.any fun ob => !ob.2.is_free && decide (d = ob.1 + (BLOCK_SIZE : Int))
  | none => false

/-- The initial ledger. -/
def demo0 : Heap := MEM_init enc0 zeroHeap

/-- Six allocations: 40, 8, 64, 8, 128 and 8 bytes. -/
def demo6 : Heap :=
  exec_malloc enc0 (exec_malloc enc0 (exec_malloc enc0 (exec_malloc enc0
    (exec_malloc enc0 (exec_malloc enc0 demo0 40) 8) 64) 8) 128) 8

/-- The 40-, 64- and 128-byte blocks of `demo6` freed again: three free blocks kept apart by
allocated ones, and the free tail of the arena. -/
def demo9 : Heap := exec_free enc0 (exec_free enc0 (exec_free enc0 demo6 32) 144) 280

/-- The heap after `_realloc` of the pointer at offset `d` to `n` bytes. -/
def exec_realloc (enc : Block → Int → Nat) (h : Heap) (d : Int) (n : Nat) : Heap :=
  match _realloc enc h (some d) n with
  | some (h1, _) => h1
  | none => h

/-- One allocation of 128 bytes. -/
def demoA : Heap := exec_malloc enc0 demo0 128

/-- An exhausted arena: 40 bytes allocated at the start, then all the rest. -/
def demoFull : Heap := exec_malloc enc0 (exec_malloc enc0 demo0 40) 31457176

/-- An exhausted arena with two runs of adjacent free blocks: blocks of 40, 40, 40, 8, 40, 40
and 8 bytes are allocated, then all the rest, and the five 40-byte blocks are freed. -/
def demoRuns : Heap :=
  exec_free enc0 (exec_free enc0 (exec_free enc0 (exec_free enc0 (exec_free enc0
    (exec_malloc enc0 (exec_malloc enc0 (exec_malloc enc0 (exec_malloc enc0 (exec_malloc enc0
      (exec_malloc enc0 (exec_malloc enc0 (exec_malloc enc0 demo0 40) 40) 40) 8) 40) 40) 8)
      31456808) 32) 104) 176) 288) 360

/-! ## Arithmetic of the macros -/

theorem BLOCK_SIZE_eq : BLOCK_SIZE = 32 := by decide
theorem MIN_BLOCK_SIZE_eq : MIN_BLOCK_SIZE = 48 := by decide
theorem MEMORY_SIZE_eq : MEMORY_SIZE = 31457280 := by decide
theorem SIZE_MOD_eq : SIZE_MOD = 18446744073709551616 := by decide

theorem testBit_mask (i : Nat) : (18446744073709551608 : Nat).testBit i = (decide (3 ≤ i) && decide (i < 64)) := by
  by_cases h : i < 64
  · interval_cases i <;> decide
  · have : (18446744073709551608 : Nat) < 2 ^ i := by
      calc (18446744073709551608 : Nat) < 2 ^ 64 := by norm_num
        _ ≤ 2 ^ i := Nat.pow_le_pow_right (by norm_num) (by omega)
    rw [Nat.testBit_lt_two_pow this]
    simp [h]

theorem land_mask (x : Nat) (hx : x < 2 ^ 64) : x &&& 18446744073709551608 = x / 8 * 8 := by
  apply Nat.eq_of_testBit_eq
  intro i
  rw [Nat.testBit_and, testBit_mask]
  have h8 : x / 8 * 8 = (x >>> 3) <<< 3 := by
    rw [Nat.shiftLeft_eq, Nat.shiftRight_eq_div_pow]
  rw [h8, Nat.testBit_shiftLeft, Nat.testBit_shiftRight]
  by_cases h3 : 3 ≤ i
  · by_cases h64 : i < 64
    · simp [h3, h64]
    · have : x < 2 ^ i := lt_of_lt_of_le hx (Nat.pow_le_pow_right (by norm_num) (by omega))
      have e : 3 + (i - 3) = i := by omega
      simp [h3, h64, e, Nat.testBit_lt_two_pow this]
  · simp [h3]

theorem ALIGN_eq (n : Nat) : ALIGN n = (n + 7) % 2 ^ 64 / 8 * 8 := by
  unfold ALIGN
  have : (SIZE_MOD - 1 - (ALIGNMENT - 1)) = 18446744073709551608 := by decide
  rw [this]
  have h2 : (n + (ALIGNMENT - 1)) % SIZE_MOD = (n + 7) % 2 ^ 64 := by
    simp [ALIGNMENT, SIZE_MOD]
  rw [h2]
  exact land_mask _ (Nat.mod_lt _ (by norm_num))

theorem ALIGN_mod (n : Nat) : ALIGN n % 8 = 0 := by
  rw [ALIGN_eq]; omega

theorem ALIGN_lt (n : Nat) : ALIGN n < 2 ^ 64 := by
  rw [ALIGN_eq]
  have := Nat.mod_lt (n + 7) (show 0 < 2 ^ 64 by norm_num)
  omega

theorem ALIGN_ge (n : Nat) (hn : n ≤ 2 ^ 64 - 8) : n ≤ ALIGN n ∧ ALIGN n < n + 8 := by
  rw [ALIGN_eq]
  have : (n + 7) % 2 ^ 64 = n + 7 := Nat.mod_eq_of_lt (by omega)
  rw [this]; omega

theorem ALIGN_idem (x : Nat) (h8 : x % 8 = 0) (hx : x < 2 ^ 64) : ALIGN x = x := by
  rw [ALIGN_eq]
  have : (x + 7) % 2 ^ 64 = x + 7 := Nat.mod_eq_of_lt (by omega)
  rw [this]; omega

/-! ### Stores -/

theorem storeHdr_self (enc : Block → Int → Nat) (h : Heap) (o : Int) (b : Block) :
    (storeHdr enc h o b).hdr o = some b := by
  simp [storeHdr]

theorem storeHdr_far (enc : Block → Int → Nat) (h : Heap) (o x : Int) (b : Block)
    (hx : x + 32 ≤ o ∨ o + 32 ≤ x) : (storeHdr enc h o b).hdr x = h.hdr x := by
  have hB := BLOCK_SIZE_eq
  simp only [storeHdr]
  rw [if_neg (by omega), if_neg (by omega)]

theorem storeHdr_data (enc : Block → Int → Nat) (h : Heap) (o a : Int) (b : Block)
    (ha : a < o ∨ o + 32 ≤ a) : (storeHdr enc h o b).data a = h.data a := by
  have hB := BLOCK_SIZE_eq
  simp only [storeHdr]
  rw [if_neg (by omega)]

theorem storeHdr_free_list (enc : Block → Int → Nat) (h : Heap) (o : Int) (b : Block) :
    (storeHdr enc h o b).free_list = h.free_list := rfl

theorem storeHdr_init (enc : Block → Int → Nat) (h : Heap) (o : Int) (b : Block) :
    (storeHdr enc h o b).MemInitialized = h.MemInitialized := rfl

/-! ### Lists of regions -/

@[simp] theorem headOff_nil (e : Option Int) : headOff [] e = e := rfl

@[simp] theorem headOff_cons (r : Region) (l : List Region) (e : Option Int) :
    headOff (r :: l) e = some r.off := rfl

@[simp] theorem lastOff_nil (p : Option Int) : lastOff [] p = p := rfl

@[simp] theorem lastOff_cons (r : Region) (l : List Region) (p : Option Int) :
    lastOff (r :: l) p = lastOff l (some r.off) := rfl

@[simp] theorem hdrs_nil (p e : Option Int) : hdrs p [] e = [] := rfl

@[simp] theorem hdrs_cons (p : Option Int) (r : Region) (l : List Region) (e : Option Int) :
    hdrs p (r :: l) e = (r.off, ⟨r.size, r.free, headOff l e, p⟩) :: hdrs (some r.off) l e := rfl

theorem headOff_append (l1 l2 : List Region) (e : Option Int) :
    headOff (l1 ++ l2) e = headOff l1 (headOff l2 e) := by
  cases l1 <;> simp

theorem hdrs_append (p : Option Int) (l1 l2 : List Region) (e : Option Int) :
    hdrs p (l1 ++ l2) e = hdrs p l1 (headOff l2 e) ++ hdrs (lastOff l1 p) l2 e := by
  induction l1 generalizing p with
  | nil => simp
  | cons r l ih => simp [ih, headOff_append]

theorem adj_nil (s t : Int) : Adj s [] t ↔ s = t := Iff.rfl

theorem adj_cons (s t : Int) (r : Region) (l : List Region) :
    Adj s (r :: l) t ↔ r.off = s ∧ r.size % 8 = 0 ∧ Adj (s + 32 + (r.size : Int)) l t := Iff.rfl

theorem regions_hdrs (p : Option Int) (l : List Region) (e : Option Int) :
    regions (hdrs p l e) = l := by
  induction l generalizing p with
  | nil => rfl
  | cons r l ih =>
    have := ih (some r.off)
    simp only [regions] at this
    simp [regions, this]

theorem mem_hdrs_off (p : Option Int) (l : List Region) (e : Option Int) (ob : Int × Block)
    (h : ob ∈ hdrs p l e) : ∃ r ∈ l, r.off = ob.1 ∧ r.size = ob.2.size ∧ r.free = ob.2.is_free := by
  induction l generalizing p with
  | nil => simp at h
  | cons r l ih =>
    simp only [hdrs_cons, List.mem_cons] at h
    rcases h with h | h
    · exact ⟨r, by simp, by simp [h]⟩
    · obtain ⟨r2, h2, h3⟩ := ih _ h
      exact ⟨r2, by simp [h2], h3⟩

theorem adj_append (s t : Int) (l1 l2 : List Region) :
    Adj s (l1 ++ l2) t ↔ ∃ m, Adj s l1 m ∧ Adj m l2 t := by
  induction l1 generalizing s with
  | nil => simp [adj_nil]
  | cons r l ih =>
    simp only [List.cons_append, adj_cons, ih]
    constructor
    · rintro ⟨a, b, m, c, d⟩; exact ⟨m, ⟨a, b, c⟩, d⟩
    · rintro ⟨m, ⟨a, b, c⟩, d⟩; exact ⟨a, b, m, c, d⟩

theorem adj_le (s t : Int) (l : List Region) (h : Adj s l t) : s + 32 * (l.length : Int) ≤ t := by
  induction l generalizing s with
  | nil => simp [adj_nil] at h; simp [h]
  | cons r l ih =>
    obtain ⟨_, _, h3⟩ := (adj_cons _ _ _ _).1 h
    have := ih _ h3
    simp only [List.length_cons]
    push_cast
    omega

theorem adj_mem (s t : Int) (l : List Region) (h : Adj s l t) (r : Region) (hr : r ∈ l) :
    s ≤ r.off ∧ r.off + 32 + (r.size : Int) ≤ t ∧ r.size % 8 = 0 := by
  induction l generalizing s with
  | nil => simp at hr
  | cons r2 l ih =>
    obtain ⟨h1, h2, h3⟩ := (adj_cons _ _ _ _).1 h
    rcases List.mem_cons.1 hr with rfl | hr
    · have := adj_le _ _ _ h3
      refine ⟨by omega, by omega, by omega⟩
    · have := ih _ h3 hr
      omega

/-! ### Traversal -/

theorem chain_cons (h : Heap) (p : Option Int) (r : Region) (l : List Region) (e : Option Int) :
    Chain h p (r :: l) e ↔
      h.hdr r.off = some ⟨r.size, r.free, headOff l e, p⟩ ∧ Chain h (some r.off) l e := by
  simp [Chain]

theorem walk_chain (h : Heap) (p : Option Int) (l : List Region) (fuel : Nat)
    (hc : Chain h p l none) (hf : l.length ≤ fuel) :
    walk h fuel (headOff l none) = some (hdrs p l none) := by
  induction l generalizing p fuel with
  | nil => cases fuel <;> simp [walk]
  | cons r l ih =>
    rw [chain_cons] at hc
    cases fuel with
    | zero => simp at hf
    | succ fuel =>
      simp only [List.length_cons, Nat.add_le_add_iff_right] at hf
      simp only [headOff_cons, walk, hc.1, ih _ _ hc.2 hf, hdrs_cons]

theorem repr_length (h : Heap) (l : List Region) (hr : Repr h l) : l.length ≤ MEMORY_SIZE := by
  have := adj_le _ _ _ hr.adj
  have hM := MEMORY_SIZE_eq
  omega

theorem repr_ledger (h : Heap) (l : List Region) (hr : Repr h l) :
    ledger h = some (hdrs none l none) := by
  unfold ledger
  have hne : l ≠ [] := by
    rintro rfl
    have := hr.adj
    simp [adj_nil, MEMORY_SIZE_eq] at this
  have : h.free_list = headOff l none := by
    rw [hr.head]
    cases l with
    | nil => exact absurd rfl hne
    | cons r l => have := ((adj_cons _ _ _ _).1 hr.adj).1; simp [this]
  rw [this]
  exact walk_chain h none l _ hr.chain (repr_length h l hr)

/-! ### The search loops -/

theorem best_fit_chain (h : Heap) (size : Nat) (p : Option Int) (l : List Region) (fuel : Nat)
    (best : Option Region) (hc : Chain h p l none) (hf : l.length ≤ fuel)
    (hb : ∀ b, best = some b → ∃ x, h.hdr b.off = some x ∧ x.size = b.size) :
    malloc_best_fit h size fuel (headOff l none) (best.map (fun r => r.off)) =
      some ((bestFitA size l best).map (fun r => r.off)) := by
  induction l generalizing p fuel best with
  | nil => cases fuel <;> simp [malloc_best_fit, bestFitA]
  | cons r l ih =>
    rw [chain_cons] at hc
    cases fuel with
    | zero => simp at hf
    | succ fuel =>
      simp only [List.length_cons, Nat.add_le_add_iff_right] at hf
      have hr : h.hdr r.off = some ⟨r.size, r.free, headOff l none, p⟩ := hc.1
      have hself : ∀ b, some r = some b → ∃ x, h.hdr b.off = some x ∧ x.size = b.size := by
        intro b hb2
        cases hb2
        exact ⟨_, hr, rfl⟩
      simp only [headOff_cons, malloc_best_fit, hr, bestFitA, fits, ge_iff_le]
      by_cases hfit : (r.free && decide (size ≤ r.size)) = true
      · simp only [hfit, if_true]
        cases best with
        | none => exact ih _ _ (some r) hc.2 hf hself
        | some b =>
          obtain ⟨x, hx1, hx2⟩ := hb b rfl
          simp only [Option.map_some', hx1, hx2]
          by_cases hlt : r.size < b.size
          · simp only [hlt, if_true]
            exact ih _ _ (some r) hc.2 hf hself
          · simp only [hlt, if_false]
            exact ih _ _ (some b) hc.2 hf hb
      · simp only [hfit, if_false]
        exact ih _ _ best hc.2 hf hb

theorem first_fit_chain (h : Heap) (size : Nat) (p : Option Int) (l : List Region) (fuel : Nat)
    (hc : Chain h p l none) (hf : l.length ≤ fuel) :
    malloc_first_fit h size fuel (headOff l none) =
      some ((l.find? (fits size)).map (fun r => r.off)) := by
  induction l generalizing p fuel with
  | nil => cases fuel <;> simp [malloc_first_fit]
  | cons r l ih =>
    rw [chain_cons] at hc
    cases fuel with
    | zero => simp at hf
    | succ fuel =>
      simp only [List.length_cons, Nat.add_le_add_iff_right] at hf
      simp only [headOff_cons, malloc_first_fit, hc.1, ge_iff_le]
      by_cases hfit : fits size r = true
      · have h2 : (r.free && decide (size ≤ r.size)) = true := hfit
        simp [h2, List.find?_cons_of_pos _ hfit]
      · have h2 : ¬ (r.free && decide (size ≤ r.size)) = true := hfit
        rw [if_neg h2, List.find?_cons_of_neg _ hfit]
        exact ih _ _ hc.2 hf

/-- What best fit returns: the running candidate if nothing in `l` beats it, otherwise the
first region of `l` of least size among those that fit. -/
theorem bestFitA_spec (size : Nat) (l : List Region) (best : Option Region) (b : Region)
    (h : bestFitA size l best = some b) :
    (best = some b ∧ ∀ r ∈ l, fits size r = true → b.size ≤ r.size) ∨
    (∃ l1 l2, l = l1 ++ b :: l2 ∧ fits size b = true ∧
      (∀ r ∈ l1, fits size r = true → b.size < r.size) ∧
      (∀ r ∈ l2, fits size r = true → b.size ≤ r.size) ∧
      (∀ b0, best = some b0 → b.size < b0.size)) := by
  induction l generalizing best with
  | nil => left; simpa [bestFitA] using h
  | cons c l ih =>
    simp only [bestFitA] at h
    by_cases hfit : fits size c = true
    · simp only [hfit, if_true] at h
      have key : ∀ best1 : Option Region, bestFitA size l (some c) = some b →
          (∀ b0, best1 = some b0 → c.size < b0.size) →
          (∃ l1 l2, c :: l = l1 ++ b :: l2 ∧ fits size b = true ∧
            (∀ r ∈ l1, fits size r = true → b.size < r.size) ∧
            (∀ r ∈ l2, fits size r = true → b.size ≤ r.size) ∧
            (∀ b0, best1 = some b0 → b.size < b0.size)) := by
        intro best1 h1 hlt
        rcases ih _ h1 with ⟨h2, h3⟩ | ⟨l1, l2, e, f, g1, g2, g3⟩
        · cases h2
          exact ⟨[], l, rfl, hfit, by simp, h3, hlt⟩
        · refine ⟨c :: l1, l2, by simp [e], f, ?_, g2, ?_⟩
          · intro r hr hrf
            rcases List.mem_cons.1 hr with rfl | hr
            · exact g3 _ rfl
            · exact g1 r hr hrf
          · intro b0 hb0
            exact lt_trans (g3 _ rfl) (hlt b0 hb0)
      cases best with
      | none => right; exact key none h (by simp)
      | some b0 =>
        simp only at h
        by_cases hlt : c.size < b0.size
        · simp only [hlt, if_true] at h
          right; exact key (some b0) h (by intro b1 hb1; cases hb1; exact hlt)
        · simp only [hlt, if_false] at h
          rcases ih _ h with ⟨h2, h3⟩ | ⟨l1, l2, e, f, g1, g2, g3⟩
          · left
            refine ⟨h2, ?_⟩
            cases h2
            intro r hr hrf
            rcases List.mem_cons.1 hr with rfl | hr
            · omega
            · exact h3 r hr hrf
          · right
            refine ⟨c :: l1, l2, by simp [e], f, ?_, g2, g3⟩
            intro r hr hrf
            rcases List.mem_cons.1 hr with rfl | hr
            · have := g3 _ rfl; omega
            · exact g1 r hr hrf
    · simp only [hfit] at h
      rcases ih _ h with ⟨h2, h3⟩ | ⟨l1, l2, e, f, g1, g2, g3⟩
      · left
        refine ⟨h2, ?_⟩
        intro r hr hrf
        rcases List.mem_cons.1 hr with rfl | hr
        · exact absurd hrf hfit
        · exact h3 r hr hrf
      · right
        refine ⟨c :: l1, l2, by simp [e], f, ?_, g2, g3⟩
        intro r hr hrf
        rcases List.mem_cons.1 hr with rfl | hr
        · exact absurd hrf hfit
        · exact g1 r hr hrf

theorem bestFitA_none (size : Nat) (l : List Region) (best : Option Region) :
    bestFitA size l best = none ↔ best = none ∧ ∀ r ∈ l, fits size r = false := by
  induction l generalizing best with
  | nil => simp [bestFitA]
  | cons c l ih =>
    simp only [bestFitA]
    by_cases hfit : fits size c = true
    · simp only [hfit, if_true]
      cases best with
      | none => simp [ih, hfit]
      | some b0 =>
        by_cases hlt : c.size < b0.size <;> simp [hlt, ih]
    · simp only [hfit]
      simp only [Bool.not_eq_true] at hfit
      simp [ih, hfit]

/-! ### Chains under stores -/

theorem updHdr_some (enc : Block → Int → Nat) (h : Heap) (o : Int) (f : Block → Block)
    (b : Block) (hb : h.hdr o = some b) : updHdr enc h o f = some (storeHdr enc h o (f b)) := by
  simp [updHdr, hb]

theorem chain_store_far (enc : Block → Int → Nat) (h : Heap) (p e : Option Int)
    (l : List Region) (o : Int) (x : Block) (hc : Chain h p l e)
    (hfar : ∀ r ∈ l, r.off + 32 ≤ o ∨ o + 32 ≤ r.off) : Chain (storeHdr enc h o x) p l e := by
  intro ob hob
  obtain ⟨r, hr, h1, _⟩ := mem_hdrs_off _ _ _ _ hob
  rw [storeHdr_far _ _ _ _ _ (by have := hfar r hr; omega)]
  exact hc ob hob

theorem chain_append_cons (h : Heap) (p e : Option Int) (l1 l2 : List Region) (b : Region) :
    Chain h p (l1 ++ b :: l2) e ↔
      Chain h p l1 (some b.off) ∧
      h.hdr b.off = some ⟨b.size, b.free, headOff l2 e, lastOff l1 p⟩ ∧
      Chain h (some b.off) l2 e := by
  simp only [Chain, hdrs_append, List.mem_append, hdrs_cons, headOff_cons, List.mem_cons]
  constructor
  · intro H
    exact ⟨fun ob hob => H ob (Or.inl hob), H (_, _) (Or.inr (Or.inl rfl)),
      fun ob hob => H ob (Or.inr (Or.inr hob))⟩
  · rintro ⟨H1, H2, H3⟩ ob (hob | rfl | hob)
    · exact H1 ob hob
    · exact H2
    · exact H3 ob hob

theorem adj_append_cons (s t : Int) (l1 l2 : List Region) (b : Region) :
    Adj s (l1 ++ b :: l2) t ↔
      Adj s l1 b.off ∧ b.size % 8 = 0 ∧ Adj (b.off + 32 + (b.size : Int)) l2 t := by
  rw [adj_append]
  constructor
  · rintro ⟨m, h1, h2⟩
    obtain ⟨h3, h4, h5⟩ := (adj_cons _ _ _ _).1 h2
    subst h3
    exact ⟨h1, h4, h5⟩
  · rintro ⟨h1, h4, h5⟩
    exact ⟨b.off, h1, (adj_cons _ _ _ _).2 ⟨rfl, h4, h5⟩⟩

theorem getLast_append_cons (l1 l2 : List Region) (b r : Region)
    (h : (l1 ++ b :: l2).getLast? = some r) :
    (l2 = [] ∧ r = b) ∨ (l2 ≠ [] ∧ l2.getLast? = some r) := by
  rw [List.getLast?_append] at h
  cases l2 with
  | nil => left; simp at h; exact ⟨rfl, h.symm⟩
  | cons c l2 =>
    right
    rw [List.getLast?_cons_cons] at h
    have : (c :: l2).getLast? ≠ none := by simp
    cases hx : (c :: l2).getLast? with
    | none => exact absurd hx this
    | some y => rw [hx] at h; simp at h; exact ⟨by simp, by rw [h]⟩

theorem split_cond (size : Nat) (hs : size < 2 ^ 63) :
    addSz (addSz size BLOCK_SIZE) MIN_BLOCK_SIZE = size + 80 := by
  simp only [addSz, BLOCK_SIZE_eq, MIN_BLOCK_SIZE_eq, SIZE_MOD_eq]
  omega

theorem split_size (s size : Nat) (hs : s < 2 ^ 63) (h : size + 80 ≤ s) :
    subSz (subSz s size) BLOCK_SIZE = s - size - 32 := by
  simp only [subSz, BLOCK_SIZE_eq, SIZE_MOD_eq]
  omega

/-- Geometry of a ledger split around one of its regions. -/
theorem repr_geom (h : Heap) (l1 l2 : List Region) (b : Region) (hr : Repr h (l1 ++ b :: l2)) :
    0 ≤ b.off ∧ b.off + 32 + (b.size : Int) ≤ 31457280 ∧ b.size % 8 = 0 ∧
    (∀ r ∈ l1, 0 ≤ r.off ∧ r.off + 32 + (r.size : Int) ≤ b.off) ∧
    (∀ r ∈ l2, b.off + 32 + (b.size : Int) ≤ r.off ∧ r.off + 32 + (r.size : Int) ≤ 31457280) ∧
    (l2 = [] → 48 ≤ b.size) := by
  have hadj := hr.adj
  rw [adj_append_cons, MEMORY_SIZE_eq] at hadj
  obtain ⟨h1, h2, h3⟩ := hadj
  have a1 := adj_le _ _ _ h1
  have a3 := adj_le _ _ _ h3
  refine ⟨by omega, by push_cast at a3 ⊢; omega, h2, ?_, ?_, ?_⟩
  · intro r hr1
    have := adj_mem _ _ _ h1 r hr1
    omega
  · intro r hr1
    have := adj_mem _ _ _ h3 r hr1
    push_cast at this ⊢
    omega
  · rintro rfl
    have := hr.last b (by simp)
    rw [MIN_BLOCK_SIZE_eq] at this
    exact this

/-! ### Taking a block -/

theorem take_nosplit (enc : Block → Int → Nat) (h : Heap) (l1 l2 : List Region) (b : Region)
    (size : Nat) (hr : Repr h (l1 ++ b :: l2)) (hsz : size ≤ b.size)
    (hns : ¬ size + 80 ≤ b.size) :
    ∃ h1, malloc_take enc h size b.off = some (h1, some (b.off + 32)) ∧
      Repr h1 (l1 ++ ⟨b.off, b.size, false⟩ :: l2) ∧
      (∀ a, Untouched (l1 ++ b :: l2) a → h1.data a = h.data a) := by
  obtain ⟨g1, g2, g3, g4, g5, g6⟩ := repr_geom h l1 l2 b hr
  have hc := hr.chain
  rw [chain_append_cons] at hc
  obtain ⟨c1, c2, c3⟩ := hc
  have hcond : ¬ (b.size ≥ addSz (addSz size BLOCK_SIZE) MIN_BLOCK_SIZE) := by
    rw [split_cond size (by omega)]; omega
  refine ⟨storeHdr enc h b.off ⟨b.size, false, headOff l2 none, lastOff l1 none⟩, ?_, ?_, ?_⟩
  · simp only [malloc_take, c2, hcond, if_false, updHdr]
    rw [BLOCK_SIZE_eq]
    rfl
  · refine ⟨hr.init, hr.head, ?_, ?_, ?_⟩
    · have hadj := hr.adj
      rw [adj_append_cons] at hadj ⊢
      exact hadj
    · rw [chain_append_cons]
      refine ⟨chain_store_far _ _ _ _ _ _ _ c1 ?_, storeHdr_self _ _ _ _, 
        chain_store_far _ _ _ _ _ _ _ c3 ?_⟩
      · intro r hr1; have := g4 r hr1; omega
      · intro r hr1; have := g5 r hr1; omega
    · intro r hlast
      rcases getLast_append_cons _ _ _ _ hlast with ⟨e1, e2⟩ | ⟨e1, e2⟩
      · subst e2; rw [MIN_BLOCK_SIZE_eq]; exact g6 e1
      · apply hr.last
        rw [List.getLast?_append]
        cases l2 with
        | nil => exact absurd rfl e1
        | cons c l2 => rw [List.getLast?_cons_cons, e2]; rfl
  · intro a ha
    have := (ha b (by simp)).1
    rw [BLOCK_SIZE_eq] at this
    exact storeHdr_data _ _ _ _ _ (by push_cast at this; omega)

theorem take_split (enc : Block → Int → Nat) (h : Heap) (l1 l2 : List Region) (b : Region)
    (size : Nat) (hr : Repr h (l1 ++ b :: l2)) (hfree : b.free = true) (h8 : size % 8 = 0)
    (hs : size + 80 ≤ b.size) :
    ∃ h1, malloc_take enc h size b.off = some (h1, some (b.off + 32)) ∧
      Repr h1 (l1 ++ ⟨b.off, size, false⟩ ::
        ⟨b.off + 32 + (size : Int), b.size - size - 32, true⟩ :: l2) ∧
      (∀ a, Untouched (l1 ++ b :: l2) a → h1.data a = h.data a) := by
  obtain ⟨g1, g2, g3, g4, g5, g6⟩ := repr_geom h l1 l2 b hr
  have hB := BLOCK_SIZE_eq
  have hc := hr.chain
  rw [chain_append_cons] at hc
  obtain ⟨c1, c2, c3⟩ := hc
  have hcond : addSz (addSz size 32) MIN_BLOCK_SIZE = size + 80 := by
    have := split_cond size (by omega); rwa [hB] at this
  have hsub : subSz (subSz b.size size) 32 = b.size - size - 32 := by
    have := split_size b.size size (by omega) hs; rwa [hB] at this
  have hadj := hr.adj
  rw [adj_append_cons] at hadj
  cases l2 with
  | nil =>
    simp only [headOff_nil] at c2
    refine ⟨storeHdr enc (storeHdr enc (storeHdr enc h (b.off + 32 + (size : Int))
        ⟨b.size - size - 32, true, none, some b.off⟩) b.off
        ⟨size, b.free, some (b.off + 32 + (size : Int)), lastOff l1 none⟩) b.off
        ⟨size, false, some (b.off + 32 + (size : Int)), lastOff l1 none⟩, ?_, ?_, ?_⟩
    · simp (disch := omega) only [malloc_take, updHdr, c2, hcond, if_true, hsub, hB,
        Nat.cast_ofNat, storeHdr_far, storeHdr_self, ge_iff_le, hs]
    · refine ⟨hr.init, hr.head, ?_, ?_, ?_⟩
      · rw [adj_append_cons, adj_cons, adj_nil]
        have := (adj_nil _ _).1 hadj.2.2
        refine ⟨hadj.1, h8, rfl, ?_, ?_⟩
        · simp only; omega
        · simp only; omega
      · rw [chain_append_cons, chain_cons]
        refine ⟨?_, storeHdr_self _ _ _ _, ?_, ?_⟩
        · refine chain_store_far _ _ _ _ _ _ _ (chain_store_far _ _ _ _ _ _ _
            (chain_store_far _ _ _ _ _ _ _ c1 ?_) ?_) ?_ <;>
          · intro r hr1; have := g4 r hr1; omega
        · simp (disch := omega) only [storeHdr_far, storeHdr_self, headOff_nil]
        · intro ob hob; simp at hob
      · intro r hlast
        simp at hlast
        subst hlast
        rw [MIN_BLOCK_SIZE_eq]
        simp only
        omega
    · intro a ha
      have := ha b (by simp)
      rw [hB, hfree] at this
      simp only [Nat.cast_ofNat, true_implies] at this
      simp (disch := omega) only [storeHdr_data]
  | cons c l2 =>
    simp only [headOff_cons] at c2
    rw [chain_cons] at c3
    obtain ⟨c3, c4⟩ := c3
    obtain ⟨a1, a2, a3⟩ := hadj
    rw [adj_cons] at a3
    obtain ⟨a3, a4, a5⟩ := a3
    have g7 : ∀ r ∈ l2, c.off + 32 + (c.size : Int) ≤ r.off := by
      intro r hr1
      have := adj_mem _ _ _ a5 r hr1
      omega
    refine ⟨storeHdr enc (storeHdr enc (storeHdr enc (storeHdr enc h (b.off + 32 + (size : Int))
        ⟨b.size - size - 32, true, some c.off, some b.off⟩) c.off
        ⟨c.size, c.free, headOff l2 none, some (b.off + 32 + (size : Int))⟩) b.off
        ⟨size, b.free, some (b.off + 32 + (size : Int)), lastOff l1 none⟩) b.off
        ⟨size, false, some (b.off + 32 + (size : Int)), lastOff l1 none⟩, ?_, ?_, ?_⟩
    · simp (disch := omega) only [malloc_take, updHdr, c2, c3, hcond, if_true, hsub, hB,
        Nat.cast_ofNat, storeHdr_far, storeHdr_self, ge_iff_le, hs]
    · refine ⟨hr.init, hr.head, ?_, ?_, ?_⟩
      · rw [adj_append_cons, adj_cons, adj_cons]
        refine ⟨a1, h8, rfl, ?_, ?_, a4, ?_⟩
        · simp only; omega
        · simp only; omega
        · have e : b.off + 32 + (size : Int) + 32 + ((b.size - size - 32 : Nat) : Int)
              = b.off + 32 + (b.size : Int) := by omega
          simp only
          rw [e]
          exact a5
      · rw [chain_append_cons, chain_cons, chain_cons]
        refine ⟨?_, storeHdr_self _ _ _ _, ?_, ?_, ?_⟩
        · refine chain_store_far _ _ _ _ _ _ _ (chain_store_far _ _ _ _ _ _ _
            (chain_store_far _ _ _ _ _ _ _ (chain_store_far _ _ _ _ _ _ _ c1 ?_) ?_) ?_) ?_ <;>
          · intro r hr1; have := g4 r hr1; omega
        · simp (disch := omega) only [storeHdr_far, storeHdr_self, headOff_cons]
        · simp (disch := omega) only [storeHdr_far, storeHdr_self]
        · refine chain_store_far _ _ _ _ _ _ _ (chain_store_far _ _ _ _ _ _ _
            (chain_store_far _ _ _ _ _ _ _ (chain_store_far _ _ _ _ _ _ _ c4 ?_) ?_) ?_) ?_ <;>
          · intro r hr1; have := g7 r hr1; omega
      · intro r hlast
        apply hr.last
        rw [List.getLast?_append] at hlast ⊢
        simpa using hlast
    · intro a ha
      have hb1 := ha b (by simp)
      have hc1 := (ha c (by simp)).1
      rw [hB, hfree] at hb1
      rw [hB] at hc1
      simp only [Nat.cast_ofNat, true_implies] at hb1 hc1
      simp (disch := omega) only [storeHdr_data]

theorem malloc_take_spec (enc : Block → Int → Nat) (h : Heap) (l1 l2 : List Region) (b : Region)
    (size : Nat) (hr : Repr h (l1 ++ b :: l2)) (hfree : b.free = true) (h8 : size % 8 = 0)
    (hsz : size ≤ b.size) :
    ∃ h1, malloc_take enc h size b.off = some (h1, some (b.off + 32)) ∧
      Repr h1 (l1 ++ takeA size b ++ l2) ∧
      (∀ a, Untouched (l1 ++ b :: l2) a → h1.data a = h.data a) := by
  by_cases hs : size + 80 ≤ b.size
  · have e : takeA size b =
        [⟨b.off, size, false⟩, ⟨b.off + 32 + (size : Int), b.size - size - 32, true⟩] := by
      have : size + 32 + 48 ≤ b.size := by omega
      simp only [takeA, BLOCK_SIZE_eq, MIN_BLOCK_SIZE_eq, this, if_true, Nat.cast_ofNat]
    rw [e]
    simpa using take_split enc h l1 l2 b size hr hfree h8 hs
  · have e : takeA size b = [⟨b.off, b.size, false⟩] := by
      have : ¬ size + 32 + 48 ≤ b.size := by omega
      simp only [takeA, BLOCK_SIZE_eq, MIN_BLOCK_SIZE_eq, this, if_false]
    rw [e]
    simpa using take_nosplit enc h l1 l2 b size hr hsz hs

/-! ### Coalescing -/

theorem coalesce_nil : coalesce [] = [] := rfl

theorem coalesce_single (a : Region) : coalesce [a] = [a] := rfl

theorem coalesce_cons (a : Region) (l : List Region) :
    coalesce (a :: l) =
      match coalesce l with
      | [] => [a]
      | b :: l1 =>
        if a.free && b.free then ⟨a.off, a.size + 32 + b.size, true⟩ :: l1 else a :: b :: l1 := by
  rw [coalesce]
  rfl

theorem coalesce_head (b : Region) (l : List Region) :
    ∃ s l1, coalesce (b :: l) = ⟨b.off, s, b.free⟩ :: l1 ∧ b.size ≤ s := by
  rw [coalesce_cons]
  cases coalesce l with
  | nil => exact ⟨b.size, [], rfl, le_refl _⟩
  | cons c l1 =>
    by_cases hf : (b.free && c.free) = true
    · simp only [hf, if_true]
      simp only [Bool.and_eq_true] at hf
      exact ⟨_, l1, by rw [hf.1], by omega⟩
    · simp only [hf]
      exact ⟨b.size, c :: l1, rfl, le_refl _⟩

theorem coalesce_merge (a b : Region) (l : List Region) (ha : a.free = true)
    (hb : b.free = true) :
    coalesce (a :: b :: l) = coalesce (⟨a.off, a.size + 32 + b.size, true⟩ :: l) := by
  rw [coalesce_cons a, coalesce_cons b, coalesce_cons ⟨a.off, a.size + 32 + b.size, true⟩]
  cases coalesce l with
  | nil => simp [ha, hb]
  | cons c l1 =>
    by_cases hc : c.free = true
    · simp [ha, hb, hc]; omega
    · simp [ha, hb, hc]

theorem coalesce_skip (a b : Region) (l : List Region) (hn : ¬ (a.free = true ∧ b.free = true)) :
    coalesce (a :: b :: l) = a :: coalesce (b :: l) := by
  rw [coalesce_cons a]
  obtain ⟨s, l1, e, _⟩ := coalesce_head b l
  rw [e]
  have : ¬ (a.free && b.free) = true := by simpa using hn
  simp only [this]
  rfl

/-! ### Tilings without a condition on sizes -/

theorem tile_nil (s t : Int) : Tile s [] t ↔ s = t := Iff.rfl

theorem tile_cons (s t : Int) (r : Region) (l : List Region) :
    Tile s (r :: l) t ↔ r.off = s ∧ Tile (s + 32 + (r.size : Int)) l t := Iff.rfl

theorem tile_of_adj (s t : Int) (l : List Region) (h : Adj s l t) : Tile s l t := by
  induction l generalizing s with
  | nil => exact h
  | cons r l ih =>
    rw [adj_cons] at h
    rw [tile_cons]
    exact ⟨h.1, ih _ h.2.2⟩

theorem tile_append_cons (s t : Int) (l1 l2 : List Region) (b : Region) :
    Tile s (l1 ++ b :: l2) t ↔ Tile s l1 b.off ∧ Tile (b.off + 32 + (b.size : Int)) l2 t := by
  induction l1 generalizing s with
  | nil =>
    simp only [List.nil_append, tile_cons, tile_nil]
    constructor
    · rintro ⟨h1, h2⟩; subst h1; exact ⟨rfl, h2⟩
    · rintro ⟨h1, h2⟩; subst h1; exact ⟨rfl, h2⟩
  | cons r l ih =>
    simp only [List.cons_append, tile_cons, ih]
    constructor
    · rintro ⟨a, b1, c⟩; exact ⟨⟨a, b1⟩, c⟩
    · rintro ⟨⟨a, b1⟩, c⟩; exact ⟨a, b1, c⟩

theorem tile_le (s t : Int) (l : List Region) (h : Tile s l t) :
    s + 32 * (l.length : Int) ≤ t := by
  induction l generalizing s with
  | nil => rw [tile_nil] at h; simp [h]
  | cons r l ih =>
    obtain ⟨_, h3⟩ := (tile_cons _ _ _ _).1 h
    have := ih _ h3
    simp only [List.length_cons]
    push_cast
    omega

theorem tile_mem (s t : Int) (l : List Region) (h : Tile s l t) (r : Region) (hr : r ∈ l) :
    s ≤ r.off ∧ r.off + 32 + (r.size : Int) ≤ t := by
  induction l generalizing s with
  | nil => simp at hr
  | cons r2 l ih =>
    obtain ⟨h1, h3⟩ := (tile_cons _ _ _ _).1 h
    rcases List.mem_cons.1 hr with rfl | hr
    · have := tile_le _ _ _ h3
      omega
    · have := ih _ h3 hr
      omega

theorem merge_loop_tile (enc : Block → Int → Nat) (fuel : Nat) :
    ∀ (h : Heap) (l1 l2 : List Region),
    Tile 0 (l1 ++ l2) (MEMORY_SIZE : Int) → Chain h none (l1 ++ l2) none → l2.length ≤ fuel →
    ∃ h1, delayed_merge_loop enc fuel h (headOff l2 none) = some h1 ∧
      Chain h1 none (l1 ++ coalesce l2) none ∧ h1.free_list = h.free_list ∧
      h1.MemInitialized = h.MemInitialized ∧
      (∀ a, Untouched (l1 ++ l2) a → h1.data a = h.data a) := by
  induction fuel with
  | zero =>
    intro h l1 l2 hadj hc hf
    have : l2 = [] := List.length_eq_zero.1 (by omega)
    subst this
    exact ⟨h, by simp [delayed_merge_loop], by simpa [coalesce_nil] using hc, rfl, rfl,
      fun _ _ => rfl⟩
  | succ fuel ih =>
    intro h l1 l2 hadj hc hf
    cases l2 with
    | nil =>
      exact ⟨h, by simp [delayed_merge_loop], by simpa [coalesce_nil] using hc, rfl, rfl,
        fun _ _ => rfl⟩
    | cons a rest =>
      simp only [List.length_cons, Nat.add_le_add_iff_right] at hf
      have hc0 := hc
      rw [chain_append_cons] at hc
      obtain ⟨c1, c2, c3⟩ := hc
      cases rest with
      | nil =>
        refine ⟨h, ?_, by simpa [coalesce_single] using hc0, rfl, rfl, fun _ _ => rfl⟩
        simp only [headOff_cons, delayed_merge_loop, c2, headOff_nil]
        cases a.free <;> simp [delayed_merge_loop]
      | cons b l =>
        have hadj0 := hadj
        rw [tile_append_cons, tile_cons, MEMORY_SIZE_eq] at hadj
        obtain ⟨a1, a3, a5⟩ := hadj
        rw [chain_cons] at c3
        obtain ⟨c3, c4⟩ := c3
        simp only [headOff_cons] at c2
        by_cases hab : a.free = true ∧ b.free = true
        · obtain ⟨hfa, hfb⟩ := hab
          have b1 := tile_le _ _ _ a1
          have b5 := tile_le _ _ _ a5
          have hB := BLOCK_SIZE_eq
          have hsz : addSz a.size (addSz 32 b.size) = a.size + 32 + b.size := by
            simp only [addSz, SIZE_MOD_eq]; omega
          have hfar1 : ∀ r ∈ l1, r.off + 32 ≤ a.off := by
            intro r hr1; have := tile_mem _ _ _ a1 r hr1; omega
          have hfar2 : ∀ r ∈ l, b.off + 32 + (b.size : Int) ≤ r.off := by
            intro r hr1; have := tile_mem _ _ _ a5 r hr1; omega
          have eadj : Tile 0 (l1 ++ ⟨a.off, a.size + 32 + b.size, true⟩ :: l)
              (MEMORY_SIZE : Int) := by
            rw [tile_append_cons, MEMORY_SIZE_eq]
            refine ⟨a1, ?_⟩
            have e : a.off + 32 + ((a.size + 32 + b.size : Nat) : Int)
                = a.off + 32 + (a.size : Int) + 32 + (b.size : Int) := by push_cast; omega
            simp only
            rw [e]; exact a5
          have hunt : ∀ x, Untouched (l1 ++ a :: b :: l) x →
              Untouched (l1 ++ ⟨a.off, a.size + 32 + b.size, true⟩ :: l) x := by
            intro x hx r hr1
            simp only [List.mem_append, List.mem_cons] at hr1
            rcases hr1 with hr1 | rfl | hr1
            · exact hx r (by simp [hr1])
            · have ha := hx a (by simp)
              have hb := hx b (by simp)
              rw [hB, hfa] at ha
              rw [hB, hfb] at hb
              rw [hB]
              simp only [Nat.cast_ofNat, true_implies] at ha hb ⊢
              push_cast
              omega
            · exact hx r (by simp [hr1])
          cases l with
          | nil =>
            simp only [headOff_nil] at c3
            obtain ⟨h1, e1, e2, e3, e4, e5⟩ := ih
              (storeHdr enc (storeHdr enc h a.off ⟨a.size + 32 + b.size, true, some b.off,
                lastOff l1 none⟩) a.off ⟨a.size + 32 + b.size, true, none, lastOff l1 none⟩)
              l1 [⟨a.off, a.size + 32 + b.size, true⟩] eadj
              (by
                rw [chain_append_cons]
                refine ⟨?_, storeHdr_self _ _ _ _, by intro ob hob; simp at hob⟩
                refine chain_store_far _ _ _ _ _ _ _ (chain_store_far _ _ _ _ _ _ _ c1 ?_) ?_ <;>
                · intro r hr1; have := hfar1 r hr1; omega)
              (by simpa using hf)
            refine ⟨h1, ?_, ?_, e3, e4, ?_⟩
            · rw [← e1]
              simp (disch := omega) only [headOff_cons, delayed_merge_loop, c2, c3, hfa, hfb,
                hB, hsz, if_true, storeHdr_self, storeHdr_far]
            · rw [coalesce_merge a b [] hfa hfb]; exact e2
            · intro x hx
              rw [e5 x (hunt x hx)]
              have ha := (hx a (by simp)).1
              rw [hB] at ha
              simp only [Nat.cast_ofNat] at ha
              simp (disch := omega) only [storeHdr_data]
          | cons c l =>
            rw [chain_cons] at c4
            obtain ⟨c4, c5⟩ := c4
            simp only [headOff_cons] at c3
            rw [tile_cons] at a5
            obtain ⟨a5, a7⟩ := a5
            have hfar3 : ∀ r ∈ l, c.off + 32 ≤ r.off := by
              intro r hr1; have := tile_mem _ _ _ a7 r hr1; omega
            obtain ⟨h1, e1, e2, e3, e4, e5⟩ := ih
              (storeHdr enc (storeHdr enc (storeHdr enc h a.off ⟨a.size + 32 + b.size, true,
                some b.off, lastOff l1 none⟩) a.off ⟨a.size + 32 + b.size, true, some c.off,
                lastOff l1 none⟩) c.off ⟨c.size, c.free, headOff l none, some a.off⟩)
              l1 (⟨a.off, a.size + 32 + b.size, true⟩ :: c :: l) eadj
              (by
                rw [chain_append_cons, chain_cons]
                refine ⟨?_, ?_, storeHdr_self _ _ _ _, ?_⟩
                · refine chain_store_far _ _ _ _ _ _ _ (chain_store_far _ _ _ _ _ _ _
                    (chain_store_far _ _ _ _ _ _ _ c1 ?_) ?_) ?_ <;>
                  · intro r hr1; have := hfar1 r hr1; omega
                · simp (disch := omega) only [storeHdr_far, storeHdr_self, headOff_cons]
                · refine chain_store_far _ _ _ _ _ _ _ (chain_store_far _ _ _ _ _ _ _
                    (chain_store_far _ _ _ _ _ _ _ c5 ?_) ?_) ?_ <;>
                  · intro r hr1; have := hfar3 r hr1; omega)
              (by simpa using hf)
            refine ⟨h1, ?_, ?_, e3, e4, ?_⟩
            · rw [← e1]
              simp (disch := omega) only [headOff_cons, delayed_merge_loop, c2, c3, c4, hfa,
                hfb, hB, hsz, if_true, storeHdr_self, storeHdr_far, updHdr]
            · rw [coalesce_merge a b _ hfa hfb]; exact e2
            · intro x hx
              rw [e5 x (hunt x hx)]
              have ha := (hx a (by simp)).1
              have hc := (hx c (by simp)).1
              rw [hB] at ha hc
              simp only [Nat.cast_ofNat] at ha hc
              simp (disch := omega) only [storeHdr_data]
        · have e : delayed_merge_loop enc (fuel + 1) h (headOff (a :: b :: l) none) =
              delayed_merge_loop enc fuel h (headOff (b :: l) none) := by
            simp only [headOff_cons, delayed_merge_loop, c2]
            cases hfa : a.free with
            | false => simp
            | true =>
              have hfb : b.free = false := by
                cases hfb : b.free with
                | false => rfl
                | true => exact absurd ⟨hfa, hfb⟩ hab
              simp [c3, hfb]
          have hl : l1 ++ a :: b :: l = (l1 ++ [a]) ++ b :: l := by simp
          obtain ⟨h1, e1, e2, e3, e4, e5⟩ := ih h (l1 ++ [a]) (b :: l)
            (by rw [← hl]; exact hadj0) (by rw [← hl]; exact hc0) hf
          refine ⟨h1, by rw [e, e1], ?_, e3, e4, ?_⟩
          · rw [coalesce_skip a b l hab]
            simpa using e2
          · intro x hx
            exact e5 x (by rw [← hl]; exact hx)

theorem merge_loop_spec (enc : Block → Int → Nat) (fuel : Nat) :
    ∀ (h : Heap) (l1 l2 : List Region),
    Adj 0 (l1 ++ l2) (MEMORY_SIZE : Int) → Chain h none (l1 ++ l2) none → l2.length ≤ fuel →
    ∃ h1, delayed_merge_loop enc fuel h (headOff l2 none) = some h1 ∧
      Chain h1 none (l1 ++ coalesce l2) none ∧ h1.free_list = h.free_list ∧
      h1.MemInitialized = h.MemInitialized ∧
      (∀ a, Untouched (l1 ++ l2) a → h1.data a = h.data a) :=
  fun h l1 l2 hadj hc hf => merge_loop_tile enc fuel h l1 l2 (tile_of_adj _ _ _ hadj) hc hf

theorem adj_coalesce (s t : Int) (l : List Region) (h : Adj s l t) : Adj s (coalesce l) t := by
  induction l generalizing s with
  | nil => exact h
  | cons a l ih =>
    rw [adj_cons] at h
    obtain ⟨h1, h2, h3⟩ := h
    have := ih _ h3
    rw [coalesce_cons]
    cases hc : coalesce l with
    | nil =>
      rw [hc] at this
      simp only
      rw [adj_cons]
      exact ⟨h1, h2, this⟩
    | cons b l1 =>
      rw [hc, adj_cons] at this
      obtain ⟨g1, g2, g3⟩ := this
      by_cases hf : (a.free && b.free) = true
      · simp only [hf, if_true]
        rw [adj_cons]
        refine ⟨h1, by simp only; omega, ?_⟩
        have e : s + 32 + ((a.size + 32 + b.size : Nat) : Int)
            = s + 32 + (a.size : Int) + 32 + (b.size : Int) := by push_cast; omega
        simp only
        rw [e]; exact g3
      · simp only [hf, Bool.false_eq_true, if_false]
        rw [adj_cons, adj_cons]
        exact ⟨h1, h2, g1, g2, g3⟩

theorem last_coalesce (l : List Region) (r : Region) (h : (coalesce l).getLast? = some r) :
    ∃ r0, l.getLast? = some r0 ∧ r0.size ≤ r.size := by
  induction l generalizing r with
  | nil => simp [coalesce_nil] at h
  | cons a l ih =>
    rw [coalesce_cons] at h
    cases hc : coalesce l with
    | nil =>
      have hl : l = [] := by
        cases l with
        | nil => rfl
        | cons b l =>
          obtain ⟨s, l1, e, _⟩ := coalesce_head b l
          rw [e] at hc; cases hc
      subst hl
      rw [hc] at h
      simp at h
      exact ⟨a, by simp, by rw [h]⟩
    | cons b l1 =>
      rw [hc] at h ih
      cases l with
      | nil => simp [coalesce_nil] at hc
      | cons b0 l0 =>
        rw [List.getLast?_cons_cons]
        by_cases hf : (a.free && b.free) = true
        · simp only [hf, if_true] at h
          cases l1 with
          | nil =>
            simp at h
            obtain ⟨r0, e1, e2⟩ := ih b (by simp)
            refine ⟨r0, e1, ?_⟩
            rw [← h]; simp only; omega
          | cons c l1 =>
            rw [List.getLast?_cons_cons] at h
            exact ih r (by rw [List.getLast?_cons_cons]; exact h)
        · simp only [hf, Bool.false_eq_true, if_false] at h
          rw [List.getLast?_cons_cons] at h
          exact ih r h

theorem alloc_mem_coalesce (l : List Region) (r : Region) (hr : r ∈ l) (hf : r.free = false) :
    r ∈ coalesce l := by
  induction l with
  | nil => simp at hr
  | cons a l ih =>
    rw [coalesce_cons]
    rcases List.mem_cons.1 hr with rfl | hr
    · cases coalesce l with
      | nil => simp
      | cons b l1 => simp [hf]
    · have := ih hr
      cases hc : coalesce l with
      | nil => rw [hc] at this; simp at this
      | cons b l1 =>
        rw [hc] at this
        by_cases hab : (a.free && b.free) = true
        · simp only [hab, if_true]
          rcases List.mem_cons.1 this with rfl | h2
          · simp only [Bool.and_eq_true] at hab
            rw [hf] at hab
            exact absurd hab.2 (by simp)
          · simp [h2]
        · simp only [hab]
          exact List.mem_cons_of_mem _ this

/-- Merging only makes free blocks larger. -/
theorem free_mem_coalesce (l : List Region) (r : Region) (hr : r ∈ l) (hf : r.free = true) :
    ∃ r1 ∈ coalesce l, r1.free = true ∧ r.size ≤ r1.size := by
  induction l with
  | nil => simp at hr
  | cons a l ih =>
    rw [coalesce_cons]
    rcases List.mem_cons.1 hr with rfl | hr
    · cases coalesce l with
      | nil => exact ⟨r, by simp, hf, le_refl _⟩
      | cons b l1 =>
        by_cases hab : (r.free && b.free) = true
        · simp only [hab, if_true]
          exact ⟨_, List.mem_cons_self _ _, rfl, by simp only; omega⟩
        · simp only [hab]
          exact ⟨r, by simp, hf, le_refl _⟩
    · obtain ⟨r1, h1, h2, h3⟩ := ih hr
      cases hc : coalesce l with
      | nil => rw [hc] at h1; simp at h1
      | cons b l1 =>
        rw [hc] at h1
        by_cases hab : (a.free && b.free) = true
        · simp only [hab, if_true]
          rcases List.mem_cons.1 h1 with rfl | h4
          · exact ⟨_, List.mem_cons_self _ _, rfl, by simp only; omega⟩
          · exact ⟨r1, List.mem_cons_of_mem _ h4, h2, h3⟩
        · simp only [hab]
          exact ⟨r1, List.mem_cons_of_mem _ h1, h2, h3⟩

theorem untouched_of_alloc (s t : Int) (l : List Region) (h : Adj s l t) (r : Region)
    (hr : r ∈ l) (hf : r.free = false) (a : Int) (ha : inPayload r a) : Untouched l a := by
  have hB := BLOCK_SIZE_eq
  unfold inPayload at ha
  rw [hB] at ha
  simp only [Nat.cast_ofNat] at ha
  induction l generalizing s with
  | nil => simp at hr
  | cons x l ih =>
    rw [adj_cons] at h
    obtain ⟨h1, h2, h3⟩ := h
    intro r1 hr1
    rw [hB]
    simp only [Nat.cast_ofNat]
    rcases List.mem_cons.1 hr with e | hrl
    · subst e
      rcases List.mem_cons.1 hr1 with e1 | hr2
      · subst e1; rw [hf]; simp; omega
      · have := adj_mem _ _ _ h3 r1 hr2
        constructor
        · omega
        · intro _; omega
    · rcases List.mem_cons.1 hr1 with e1 | hr2
      · subst e1
        have := adj_mem _ _ _ h3 r hrl
        constructor
        · omega
        · intro _; omega
      · have := ih _ h3 hrl r1 hr2
        rw [hB] at this
        simpa using this

theorem delayed_merge_spec (enc : Block → Int → Nat) (h : Heap) (l : List Region)
    (hr : Repr h l) :
    ∃ h1, delayed_merge enc h = some h1 ∧ Repr h1 (coalesce l) ∧
      (∀ a, Untouched l a → h1.data a = h.data a) := by
  have hne : l ≠ [] := by
    rintro rfl
    have := hr.adj
    simp [adj_nil, MEMORY_SIZE_eq] at this
  have hfl : h.free_list = headOff l none := by
    rw [hr.head]
    cases l with
    | nil => exact absurd rfl hne
    | cons r l => have := ((adj_cons _ _ _ _).1 hr.adj).1; simp [this]
  obtain ⟨h1, e1, e2, e3, e4, e5⟩ := merge_loop_spec enc MEMORY_SIZE h [] l
    (by simpa using hr.adj) (by simpa using hr.chain) (repr_length h l hr)
  refine ⟨h1, by rw [delayed_merge, hfl]; exact e1, ⟨by rw [e4]; exact hr.init,
    by rw [e3]; exact hr.head, adj_coalesce _ _ _ hr.adj, by simpa using e2, ?_⟩,
    by simpa using e5⟩
  intro r hlast
  obtain ⟨r0, g1, g2⟩ := last_coalesce l r hlast
  have := hr.last r0 g1
  omega

/-! ### `_malloc` -/

theorem repr_head (h : Heap) (l : List Region) (hr : Repr h l) :
    h.free_list = headOff l none := by
  rw [hr.head]
  cases l with
  | nil =>
    have := hr.adj
    simp [adj_nil, MEMORY_SIZE_eq] at this
  | cons r l => have := ((adj_cons _ _ _ _).1 hr.adj).1; simp [this]

theorem ensure_initialized_repr (enc : Block → Int → Nat) (h : Heap) (l : List Region)
    (hr : Repr h l) : ensure_initialized enc h = h := by
  simp [ensure_initialized, hr.init]

theorem any_fits_false (size : Nat) (l : List Region) :
    l.any (fits size) = false ↔ ∀ r ∈ l, fits size r = false := by
  simp

theorem malloc_spec (enc : Block → Int → Nat) (h : Heap) (l : List Region) (n : Nat)
    (hr : Repr h l) :
    ∃ h1 l1 p, _malloc enc h n = some (h1, p) ∧ Repr h1 l1 ∧ MallocStep (ALIGN n) l l1 p ∧
      (∀ a r, r ∈ l → r.free = false → inPayload r a → h1.data a = h.data a) := by
  have h8 := ALIGN_mod n
  have hbf := best_fit_chain h (ALIGN n) none l MEMORY_SIZE none hr.chain (repr_length h l hr)
    (by simp)
  rw [← repr_head h l hr] at hbf
  simp only [Option.map_none'] at hbf
  cases hb : bestFitA (ALIGN n) l none with
  | some b =>
    rcases bestFitA_spec _ _ _ _ hb with ⟨h2, _⟩ | ⟨l2, l3, e, f, _⟩
    · cases h2
    · subst e
      have hfit := f
      simp only [fits, Bool.and_eq_true, decide_eq_true_eq] at f
      obtain ⟨h1, e1, e2, e3⟩ := malloc_take_spec enc h l2 l3 b (ALIGN n) hr f.1 h8 f.2
      have hany : (l2 ++ b :: l3).any (fits (ALIGN n)) = true := by
        simp only [List.any_eq_true]
        exact ⟨b, by simp, hfit⟩
      refine ⟨h1, l2 ++ takeA (ALIGN n) b ++ l3, some (b.off + 32), ?_, e2, ?_, ?_⟩
      · simp only [_malloc, ensure_initialized_repr enc h _ hr, hbf, hb, Option.map_some', e1]
      · simp only [MallocStep, chooseA, searchLedger, hany, if_true, hb, BLOCK_SIZE_eq]
        exact ⟨l2, l3, rfl, rfl, rfl⟩
      · intro a r hr1 hr2 hr3
        exact e3 a (untouched_of_alloc _ _ _ hr.adj r hr1 hr2 a hr3)
  | none =>
    have hnf := ((bestFitA_none _ _ _).1 hb).2
    have hany : l.any (fits (ALIGN n)) = false := (any_fits_false _ _).2 hnf
    obtain ⟨h1, e1, e2, e3⟩ := delayed_merge_spec enc h l hr
    have hff := first_fit_chain h1 (ALIGN n) none (coalesce l) MEMORY_SIZE e2.chain
      (repr_length h1 _ e2)
    rw [← repr_head h1 _ e2] at hff
    have hfr1 : ∀ a r, r ∈ l → r.free = false → inPayload r a → h1.data a = h.data a := by
      intro a r hr1 hr2 hr3
      exact e3 a (untouched_of_alloc _ _ _ hr.adj r hr1 hr2 a hr3)
    cases hf : (coalesce l).find? (fits (ALIGN n)) with
    | none =>
      refine ⟨h1, coalesce l, none, ?_, e2, ?_, hfr1⟩
      · simp only [_malloc, ensure_initialized_repr enc h _ hr, hbf, hb, Option.map_none', e1,
          hff, hf]
      · simp only [MallocStep, chooseA, searchLedger, hany, hf]
        simp
    | some b =>
      obtain ⟨f, l2, l3, e, _⟩ := List.find?_eq_some.1 hf
      have hfit := f
      simp only [fits, Bool.and_eq_true, decide_eq_true_eq] at f
      rw [e] at e2
      obtain ⟨h2, g1, g2, g3⟩ := malloc_take_spec enc h1 l2 l3 b (ALIGN n) e2 f.1 h8 f.2
      refine ⟨h2, l2 ++ takeA (ALIGN n) b ++ l3, some (b.off + 32), ?_, g2, ?_, ?_⟩
      · simp only [_malloc, ensure_initialized_repr enc h _ hr, hbf, hb, Option.map_none', e1,
          hff, hf, Option.map_some', g1]
      · simp only [MallocStep, chooseA, searchLedger, hany, hf, BLOCK_SIZE_eq]
        exact ⟨l2, l3, by simpa using e, rfl, rfl⟩
      · intro a r hr1 hr2 hr3
        rw [g3 a (untouched_of_alloc _ _ _ e2.adj r
          (by rw [← e]; exact alloc_mem_coalesce l r hr1 hr2) hr2 a hr3)]
        exact hfr1 a r hr1 hr2 hr3

/-! ### `_free` -/

theorem adj_off_mod (s t : Int) (l : List Region) (h : Adj s l t) (hs : s % 8 = 0) :
    t % 8 = 0 := by
  induction l generalizing s with
  | nil => rw [adj_nil] at h; rw [← h]; exact hs
  | cons r l ih =>
    rw [adj_cons] at h
    exact ih _ h.2.2 (by have := h.2.1; omega)

theorem ptr_in_pool_iff (d : Int) :
    ptr_in_pool d = true ↔ 0 ≤ d ∧ d < 31457280 ∧ d % 8 = 0 := by
  simp only [ptr_in_pool, MEMORY_SIZE_eq, ALIGNMENT, Bool.not_eq_true', Bool.or_eq_false_iff,
    decide_eq_false_iff_not, Nat.cast_ofNat, not_lt, ge_iff_le, not_le, ne_eq, not_not]
  constructor
  · rintro ⟨⟨h1, h2⟩, h3⟩
    rw [Int.tmod_eq_emod h1 (by norm_num)] at h3
    exact ⟨h1, h2, h3⟩
  · rintro ⟨h1, h2, h3⟩
    rw [Int.tmod_eq_emod h1 (by norm_num)]
    exact ⟨⟨h1, h2⟩, h3⟩

/-- The payload pointer of every block of the ledger passes the validation of `_free`. -/
theorem ptr_in_pool_block (h : Heap) (l1 l2 : List Region) (b : Region)
    (hr : Repr h (l1 ++ b :: l2)) : ptr_in_pool (b.off + 32) = true := by
  obtain ⟨g1, g2, g3, g4, g5, g6⟩ := repr_geom h l1 l2 b hr
  have hadj := hr.adj
  rw [adj_append_cons] at hadj
  have hm := adj_off_mod _ _ _ hadj.1 (by norm_num)
  rw [ptr_in_pool_iff]
  refine ⟨by omega, ?_, by omega⟩
  cases l2 with
  | nil => have := g6 rfl; omega
  | cons c l2 => have := g5 c (by simp); omega

theorem free_null (enc : Block → Int → Nat) (h : Heap) (l : List Region) (hr : Repr h l) :
    _free enc h none = some h := by
  simp [_free, ensure_initialized_repr enc h l hr]

theorem free_rejected (enc : Block → Int → Nat) (h : Heap) (l : List Region) (hr : Repr h l)
    (d : Int) (hd : ptr_in_pool d = false) : _free enc h (some d) = some h := by
  simp [_free, ensure_initialized_repr enc h l hr, hd]

theorem free_block (enc : Block → Int → Nat) (h : Heap) (l1 l2 : List Region) (b : Region)
    (hr : Repr h (l1 ++ b :: l2)) :
    ∃ h1, _free enc h (some (b.off + 32)) = some h1 ∧
      Repr h1 (l1 ++ ⟨b.off, b.size, true⟩ :: l2) ∧
      h1.hdr b.off = some ⟨b.size, true, headOff l2 none, lastOff l1 none⟩ ∧
      (∀ x, x + 32 ≤ b.off ∨ b.off + 32 ≤ x → h1.hdr x = h.hdr x) ∧
      (∀ a, a < b.off ∨ b.off + 32 ≤ a → h1.data a = h.data a) := by
  obtain ⟨g1, g2, g3, g4, g5, g6⟩ := repr_geom h l1 l2 b hr
  have hc := hr.chain
  rw [chain_append_cons] at hc
  obtain ⟨c1, c2, c3⟩ := hc
  have hp := ptr_in_pool_block h l1 l2 b hr
  have hB := BLOCK_SIZE_eq
  refine ⟨storeHdr enc h b.off ⟨b.size, true, headOff l2 none, lastOff l1 none⟩, ?_, ?_,
    storeHdr_self _ _ _ _, fun x hx => storeHdr_far _ _ _ _ _ hx,
    fun a ha => storeHdr_data _ _ _ _ _ ha⟩
  · have e : block_of (b.off + 32) = b.off := by simp [block_of, hB]
    simp only [_free, ensure_initialized_repr enc h _ hr, hp, if_true, e, updHdr, c2]
  · refine ⟨hr.init, hr.head, ?_, ?_, ?_⟩
    · have hadj := hr.adj
      rw [adj_append_cons] at hadj ⊢
      exact hadj
    · rw [chain_append_cons]
      refine ⟨chain_store_far _ _ _ _ _ _ _ c1 ?_, storeHdr_self _ _ _ _,
        chain_store_far _ _ _ _ _ _ _ c3 ?_⟩
      · intro r hr1; have := g4 r hr1; omega
      · intro r hr1; have := g5 r hr1; omega
    · intro r hlast
      rcases getLast_append_cons _ _ _ _ hlast with ⟨e1, e2⟩ | ⟨e1, e2⟩
      · subst e2; rw [MIN_BLOCK_SIZE_eq]; exact g6 e1
      · apply hr.last
        rw [List.getLast?_append]
        cases l2 with
        | nil => exact absurd rfl e1
        | cons c l2 => rw [List.getLast?_cons_cons, e2]; rfl

/-! ### Live pointers -/

theorem mem_regions (l : List (Int × Block)) (r : Region) :
    r ∈ regions l ↔ ∃ ob ∈ l, r = ⟨ob.1, ob.2.size, ob.2.is_free⟩ := by
  simp only [regions, List.mem_map]
  constructor
  · rintro ⟨ob, h1, h2⟩; exact ⟨ob, h1, h2.symm⟩
  · rintro ⟨ob, h1, h2⟩; exact ⟨ob, h1, h2.symm⟩

theorem live_iff (h : Heap) (l : List Region) (hr : Repr h l) (d : Int) :
    Live h d ↔ ∃ b ∈ l, b.free = false ∧ d = b.off + 32 := by
  have hl := repr_ledger h l hr
  have hB := BLOCK_SIZE_eq
  constructor
  · rintro ⟨l0, e, ob, h1, h2, h3⟩
    rw [hl] at e
    cases e
    obtain ⟨r, g1, g2, g3, g4⟩ := mem_hdrs_off _ _ _ _ h1
    exact ⟨r, g1, by rw [g4, h2], by rw [g2, h3, hB]; rfl⟩
  · rintro ⟨b, h1, h2, h3⟩
    refine ⟨_, hl, ?_⟩
    have : b ∈ regions (hdrs none l none) := by rw [regions_hdrs]; exact h1
    obtain ⟨ob, g1, g2⟩ := (mem_regions _ _).1 this
    refine ⟨ob, g1, ?_, ?_⟩
    · rw [g2] at h2; exact h2
    · rw [h3, g2, hB]; rfl

theorem liveByte_iff (h : Heap) (l : List Region) (hr : Repr h l) (a : Int) :
    LiveByte h a ↔ ∃ b ∈ l, b.free = false ∧ inPayload b a := by
  have hl := repr_ledger h l hr
  constructor
  · rintro ⟨l0, e, r, h1, h2⟩
    rw [hl] at e
    cases e
    rw [regions_hdrs] at h1
    exact ⟨r, h1, h2⟩
  · rintro ⟨b, h1, h2⟩
    exact ⟨_, hl, b, by rw [regions_hdrs]; exact h1, h2⟩

/-! ### Byte stores -/

theorem chain_hdr_eq (h h1 : Heap) (p e : Option Int) (l : List Region) (hc : Chain h p l e)
    (heq : ∀ r ∈ l, h1.hdr r.off = h.hdr r.off) : Chain h1 p l e := by
  intro ob hob
  obtain ⟨r, hr, g1, _⟩ := mem_hdrs_off _ _ _ _ hob
  rw [← g1, heq r hr, g1]
  exact hc ob hob

theorem repr_memcpy (h : Heap) (l : List Region) (hr : Repr h l) (c : Region) (hc : c ∈ l)
    (src : Int) (n : Nat) (hn : n ≤ c.size) : Repr (memcpy h (c.off + 32) src n) l := by
  obtain ⟨l1, l2, rfl⟩ := List.append_of_mem hc
  obtain ⟨g1, g2, g3, g4, g5, g6⟩ := repr_geom h l1 l2 c hr
  have hB := BLOCK_SIZE_eq
  refine ⟨hr.init, hr.head, hr.adj, chain_hdr_eq h _ _ _ _ hr.chain ?_, hr.last⟩
  intro r hr1
  simp only [memcpy]
  rw [if_neg]
  simp only [List.mem_append, List.mem_cons] at hr1
  rcases hr1 with hr1 | rfl | hr1
  · have := g4 r hr1; omega
  · omega
  · have := g5 r hr1; omega

theorem repr_storeByte (h : Heap) (l : List Region) (hr : Repr h l) (c : Region) (hc : c ∈ l)
    (a : Int) (ha : inPayload c a) (v : Nat) : Repr (storeByte h a v) l := by
  obtain ⟨l1, l2, rfl⟩ := List.append_of_mem hc
  obtain ⟨g1, g2, g3, g4, g5, g6⟩ := repr_geom h l1 l2 c hr
  have hB := BLOCK_SIZE_eq
  unfold inPayload at ha
  refine ⟨hr.init, hr.head, hr.adj, chain_hdr_eq h _ _ _ _ hr.chain ?_, hr.last⟩
  intro r hr1
  simp only [storeByte]
  rw [if_neg]
  simp only [List.mem_append, List.mem_cons] at hr1
  rcases hr1 with hr1 | rfl | hr1
  · have := g4 r hr1; omega
  · omega
  · have := g5 r hr1; omega

/-! ### Consequences of `MallocStep` -/

theorem chooseA_fits (size : Nat) (l : List Region) (b : Region) (h : chooseA size l = some b) :
    fits size b = true := by
  unfold chooseA at h
  by_cases hany : l.any (fits size) = true
  · rw [if_pos hany] at h
    rcases bestFitA_spec _ _ _ _ h with ⟨h2, _⟩ | ⟨_, _, _, f, _⟩
    · cases h2
    · exact f
  · rw [if_neg hany] at h
    exact (List.find?_eq_some.1 h).1

theorem takeA_head (size : Nat) (b : Region) (hs : size ≤ b.size) :
    ∃ c t, takeA size b = c :: t ∧ c.off = b.off ∧ c.free = false ∧ size ≤ c.size ∧
      (∀ r ∈ t, r.free = true) := by
  unfold takeA
  by_cases h : size + BLOCK_SIZE + MIN_BLOCK_SIZE ≤ b.size
  · rw [if_pos h]
    exact ⟨_, _, rfl, rfl, rfl, le_refl _, by simp⟩
  · rw [if_neg h]
    exact ⟨_, _, rfl, rfl, rfl, hs, by simp⟩

theorem mem_searchLedger_alloc (size : Nat) (l : List Region) (r : Region) (hr : r ∈ l)
    (hf : r.free = false) : r ∈ searchLedger size l := by
  unfold searchLedger
  split
  · exact hr
  · exact alloc_mem_coalesce l r hr hf

/-- Allocated blocks survive `_malloc`. -/
theorem mallocStep_alloc (size : Nat) (l l1 : List Region) (p : Option Int)
    (h : MallocStep size l l1 p) (r : Region) (hr : r ∈ l) (hf : r.free = false) : r ∈ l1 := by
  have hs := mem_searchLedger_alloc size l r hr hf
  unfold MallocStep at h
  cases hc : chooseA size l with
  | none =>
    rw [hc] at h
    rw [h.1]; exact hs
  | some b =>
    rw [hc] at h
    obtain ⟨l2, l3, e1, e2, _⟩ := h
    have hb := chooseA_fits size l b hc
    simp only [fits, Bool.and_eq_true] at hb
    rw [e1] at hs
    rw [e2]
    simp only [List.mem_append, List.mem_cons] at hs ⊢
    rcases hs with hs | rfl | hs
    · exact Or.inl (Or.inl hs)
    · rw [hf] at hb; exact absurd hb.1 (by simp)
    · exact Or.inr hs

/-- The pointer `_malloc` returns is the payload of an allocated block of the new ledger,
at least as large as the aligned request. -/
theorem mallocStep_ptr (size : Nat) (l l1 : List Region) (q : Int)
    (h : MallocStep size l l1 (some q)) :
    ∃ c ∈ l1, c.free = false ∧ q = c.off + 32 ∧ size ≤ c.size := by
  unfold MallocStep at h
  cases hc : chooseA size l with
  | none =>
    rw [hc] at h
    exact absurd h.2 (by simp)
  | some b =>
    rw [hc] at h
    obtain ⟨l2, l3, e1, e2, e3⟩ := h
    have hb := chooseA_fits size l b hc
    simp only [fits, Bool.and_eq_true, decide_eq_true_eq] at hb
    obtain ⟨c, t, g1, g2, g3, g4, _⟩ := takeA_head size b hb.2
    refine ⟨c, ?_, g3, ?_, g4⟩
    · rw [e2, g1]; simp
    · rw [BLOCK_SIZE_eq] at e3
      simp only [Option.some.injEq] at e3
      rw [e3, g2]; rfl

/-! ### `_realloc` and `my_alloc` -/

theorem realloc_spec (enc : Block → Int → Nat) (h : Heap) (l : List Region) (hr : Repr h l)
    (ptr : Option Int) (n : Nat) (hp : NullOrLive h ptr) :
    ∃ h1 l1 q, _realloc enc h ptr n = some (h1, q) ∧ Repr h1 l1 ∧
      (∀ d, q = some d → ∃ c ∈ l1, c.free = false ∧ d = c.off + 32) := by
  cases ptr with
  | none =>
    obtain ⟨h1, l1, p, e1, e2, e3, _⟩ := malloc_spec enc h l n hr
    refine ⟨h1, l1, p, ?_, e2, ?_⟩
    · simp only [_realloc, ensure_initialized_repr enc h l hr, e1]
    · rintro d rfl
      obtain ⟨c, g1, g2, g3, _⟩ := mallocStep_ptr _ _ _ _ e3
      exact ⟨c, g1, g2, g3⟩
  | some d =>
    obtain ⟨b, hb1, hb2, hb3⟩ := (live_iff h l hr d).1 hp
    subst hb3
    obtain ⟨l2, l3, rfl⟩ := List.append_of_mem hb1
    have hc := hr.chain
    rw [chain_append_cons] at hc
    have hB := BLOCK_SIZE_eq
    have eb : block_of (b.off + 32) = b.off := by simp [block_of, hB]
    by_cases hsz : b.size ≥ ALIGN n
    · refine ⟨h, _, some (b.off + 32), ?_, hr, ?_⟩
      · simp only [_realloc, ensure_initialized_repr enc h _ hr, eb, hc.2.1, hsz, if_true]
      · rintro d1 e
        cases e
        exact ⟨b, hb1, hb2, rfl⟩
    · obtain ⟨h1, l1, p, e1, e2, e3, _⟩ := malloc_spec enc h _ (ALIGN n) hr
      rw [ALIGN_idem _ (ALIGN_mod n) (ALIGN_lt n)] at e3
      have hbl : b ∈ l1 := mallocStep_alloc _ _ _ _ e3 b hb1 hb2
      cases p with
      | none =>
        refine ⟨h1, l1, none, ?_, e2, by simp⟩
        simp only [_realloc, ensure_initialized_repr enc h _ hr, eb, hc.2.1, hsz, if_false, e1]
      | some q =>
        obtain ⟨c, g1, g2, g3, g4⟩ := mallocStep_ptr _ _ _ _ e3
        obtain ⟨m2, m3, rfl⟩ := List.append_of_mem hbl
        have hc1 := e2.chain
        rw [chain_append_cons] at hc1
        have hm := repr_memcpy h1 _ e2 c g1 (b.off + 32) b.size (by omega)
        obtain ⟨h3, f1, f2, _⟩ := free_block enc _ m2 m3 b hm
        refine ⟨h3, _, some q, ?_, f2, ?_⟩
        · simp only [_realloc, ensure_initialized_repr enc h _ hr, eb, hc.2.1, hsz, if_false, e1,
            hc1.2.1]
          rw [g3, f1]
        · rintro d1 e
          cases e
          refine ⟨c, ?_, g2, g3⟩
          simp only [List.mem_append, List.mem_cons] at g1 ⊢
          rcases g1 with g1 | rfl | g1
          · exact Or.inl g1
          · omega
          · exact Or.inr (Or.inr g1)

theorem free_spec (enc : Block → Int → Nat) (h : Heap) (l : List Region) (hr : Repr h l)
    (ptr : Option Int)
    (hp : NullOrLive h ptr ∨ ∃ d, ptr = some d ∧ ptr_in_pool d = false) :
    ∃ h1 l1, _free enc h ptr = some h1 ∧ Repr h1 l1 := by
  rcases hp with hp | ⟨d, rfl, hd⟩
  · cases ptr with
    | none => exact ⟨h, l, free_null enc h l hr, hr⟩
    | some d =>
      obtain ⟨b, hb1, hb2, hb3⟩ := (live_iff h l hr d).1 hp
      obtain ⟨l2, l3, rfl⟩ := List.append_of_mem hb1
      obtain ⟨h1, e1, e2, _⟩ := free_block enc h l2 l3 b hr
      exact ⟨h1, _, by rw [hb3]; exact e1, e2⟩
  · exact ⟨h, l, free_rejected enc h l hr d hd, hr⟩

theorem my_alloc_spec (enc : Block → Int → Nat) (h : Heap) (l : List Region) (hr : Repr h l)
    (ptr : Option Int) (osize nsize : Nat)
    (hp : NullOrLive h ptr ∨ (nsize = 0 ∧ ∃ d, ptr = some d ∧ ptr_in_pool d = false)) :
    ∃ h1 l1 q, my_alloc enc h ptr osize nsize = some (h1, q) ∧ Repr h1 l1 := by
  by_cases hn : nsize = 0
  · obtain ⟨h1, l1, e1, e2⟩ := free_spec enc h l hr ptr (hp.imp id fun x => x.2)
    exact ⟨h1, l1, none, by simp [my_alloc, hn, e1], e2⟩
  · have hp1 : NullOrLive h ptr := hp.resolve_right fun x => hn x.1
    obtain ⟨h1, l1, q, e1, e2, _⟩ := realloc_spec enc h l hr ptr nsize hp1
    by_cases hc : q = none ∧ ptr ≠ none ∧ nsize ≤ osize
    · exact ⟨h1, l1, ptr, by simp only [my_alloc, hn, if_false, e1]; rw [if_pos hc], e2⟩
    · exact ⟨h1, l1, q, by simp only [my_alloc, hn, if_false, e1]; rw [if_neg hc], e2⟩

/-! ### The invariant -/

theorem repr_init (enc : Block → Int → Nat) :
    Repr (MEM_init enc zeroHeap) [⟨0, MEMORY_SIZE - BLOCK_SIZE, true⟩] := by
  have e : subSz MEMORY_SIZE BLOCK_SIZE = MEMORY_SIZE - BLOCK_SIZE := by decide
  refine ⟨rfl, rfl, ?_, ?_, ?_⟩
  · rw [adj_cons, adj_nil]
    refine ⟨rfl, by decide, by decide⟩
  · rw [chain_cons]
    refine ⟨?_, by intro ob hob; simp at hob⟩
    simp only [MEM_init, e, headOff_nil]
    exact storeHdr_self _ _ _ _
  · intro r hlast
    simp at hlast
    subst hlast
    decide

theorem reachable_repr (enc : Block → Int → Nat) (h : Heap) (hr : Reachable enc h) :
    ∃ l, Repr h l := by
  induction hr with
  | init => exact ⟨_, repr_init enc⟩
  | malloc h h1 n p _ _ e ih =>
    obtain ⟨l, hl⟩ := ih
    obtain ⟨h2, l1, p1, e1, e2, _⟩ := malloc_spec enc h l n hl
    rw [e1] at e; cases e
    exact ⟨l1, e2⟩
  | free h h1 ptr _ hp e ih =>
    obtain ⟨l, hl⟩ := ih
    obtain ⟨h2, l1, e1, e2⟩ := free_spec enc h l hl ptr hp
    rw [e1] at e; cases e
    exact ⟨l1, e2⟩
  | realloc h h1 ptr n q _ _ hp e ih =>
    obtain ⟨l, hl⟩ := ih
    obtain ⟨h2, l1, q1, e1, e2, _⟩ := realloc_spec enc h l hl ptr n hp
    rw [e1] at e; cases e
    exact ⟨l1, e2⟩
  | my_alloc h h1 ptr osize nsize q _ _ _ hp e ih =>
    obtain ⟨l, hl⟩ := ih
    obtain ⟨h2, l1, q1, e1, e2⟩ := my_alloc_spec enc h l hl ptr osize nsize hp
    rw [e1] at e; cases e
    exact ⟨l1, e2⟩
  | write h a v _ hb _ ih =>
    obtain ⟨l, hl⟩ := ih
    obtain ⟨b, h1, h2, h3⟩ := (liveByte_iff h l hl a).1 hb
    exact ⟨l, repr_storeByte h l hl b h1 a h3 v⟩

/-! ### Concrete runs and further facts about ledgers -/

theorem repr_ledger_regions (h : Heap) (l : List Region) (hr : Repr h l) :
    ∃ L, ledger h = some L ∧ regions L = l :=
  ⟨_, repr_ledger h l hr, regions_hdrs _ _ _⟩

theorem ledger_repr (h : Heap) (l : List Region) (hr : Repr h l) (L : List (Int × Block))
    (hL : ledger h = some L) : regions L = l := by
  rw [repr_ledger h l hr] at hL
  cases hL
  exact regions_hdrs _ _ _

theorem isLive_live (h : Heap) (d : Int) (hl : isLive h d = true) : Live h d := by
  unfold isLive at hl
  cases e : ledger h with
  | none => rw [e] at hl; cases hl
  | some l =>
    rw [e] at hl
    simp only [List.any_eq_true, Bool.and_eq_true, Bool.not_eq_true', decide_eq_true_eq] at hl
    obtain ⟨ob, h1, h2, h3⟩ := hl
    exact ⟨l, e, ob, h1, h2, h3⟩

theorem reachable_exec_malloc (enc : Block → Int → Nat) (h : Heap) (n : Nat)
    (hr : Reachable enc h) (hn : n < SIZE_MOD) : Reachable enc (exec_malloc enc h n) := by
  unfold exec_malloc
  cases e : _malloc enc h n with
  | none => exact hr
  | some r => exact Reachable.malloc h r.1 n r.2 hr hn e

theorem reachable_exec_free (enc : Block → Int → Nat) (h : Heap) (d : Int)
    (hr : Reachable enc h) (hl : isLive h d = true) : Reachable enc (exec_free enc h d) := by
  unfold exec_free
  cases e : _free enc h (some d) with
  | none => exact hr
  | some h1 => exact Reachable.free h h1 (some d) hr (Or.inl (isLive_live h d hl)) e

theorem demo6_reachable : Reachable enc0 demo6 := by
  unfold demo6
  have hn : ∀ n, n < 1000 → n < SIZE_MOD := by
    intro n hn; rw [SIZE_MOD_eq]; omega
  exact reachable_exec_malloc _ _ _ (reachable_exec_malloc _ _ _ (reachable_exec_malloc _ _ _
    (reachable_exec_malloc _ _ _ (reachable_exec_malloc _ _ _ (reachable_exec_malloc _ _ _
    Reachable.init (hn _ (by norm_num))) (hn _ (by norm_num))) (hn _ (by norm_num)))
    (hn _ (by norm_num))) (hn _ (by norm_num))) (hn _ (by norm_num))

theorem demo9_reachable : Reachable enc0 demo9 := by
  unfold demo9
  exact reachable_exec_free _ _ _ (reachable_exec_free _ _ _ (reachable_exec_free _ _ _
    demo6_reachable (by decide)) (by decide)) (by decide)

theorem adj_pairwise (s t : Int) (l : List Region) (h : Adj s l t) (x y : Region)
    (hx : x ∈ l) (hy : y ∈ l) :
    x = y ∨ x.off + 32 + (x.size : Int) ≤ y.off ∨ y.off + 32 + (y.size : Int) ≤ x.off := by
  induction l generalizing s with
  | nil => simp at hx
  | cons r l ih =>
    rw [adj_cons] at h
    obtain ⟨h1, h2, h3⟩ := h
    rcases List.mem_cons.1 hx with ex | hx1
    · rcases List.mem_cons.1 hy with ey | hy1
      · left; rw [ex, ey]
      · right; left
        have := adj_mem _ _ _ h3 y hy1
        rw [ex]; omega
    · rcases List.mem_cons.1 hy with ey | hy1
      · right; right
        have := adj_mem _ _ _ h3 x hx1
        rw [ey]; omega
      · exact ih _ h3 hx1 hy1

theorem adj_mem_off_mod (s t : Int) (l : List Region) (h : Adj s l t) (hs : s % 8 = 0)
    (r : Region) (hr : r ∈ l) : r.off % 8 = 0 := by
  obtain ⟨l1, l2, rfl⟩ := List.append_of_mem hr
  rw [adj_append_cons] at h
  exact adj_off_mod _ _ _ h.1 hs

theorem coalesce_cons_mono (x : Region) (l : List Region) (k : Nat)
    (h : ∃ r ∈ coalesce l, r.free = true ∧ k ≤ r.size) :
    ∃ r ∈ coalesce (x :: l), r.free = true ∧ k ≤ r.size := by
  obtain ⟨r1, h1, h2, h3⟩ := h
  rw [coalesce_cons]
  cases hc : coalesce l with
  | nil => rw [hc] at h1; simp at h1
  | cons b l1 =>
    rw [hc] at h1
    by_cases hab : (x.free && b.free) = true
    · simp only [hab, if_true]
      rcases List.mem_cons.1 h1 with rfl | h4
      · exact ⟨_, List.mem_cons_self _ _, rfl, by simp only; omega⟩
      · exact ⟨r1, List.mem_cons_of_mem _ h4, h2, h3⟩
    · simp only [hab, Bool.false_eq_true, if_false]
      exact ⟨r1, List.mem_cons_of_mem _ h1, h2, h3⟩

theorem coalesce_run_head (run : List Region) :
    ∀ (a : Region) (l2 : List Region), a.free = true → (∀ r ∈ run, r.free = true) →
    ∃ s t, coalesce (a :: run ++ l2) = ⟨a.off, s, true⟩ :: t ∧
      a.size + (run.map fun r => r.size).sum + run.length * 32 ≤ s := by
  induction run with
  | nil =>
    intro a l2 ha _
    obtain ⟨s, t, e, hs⟩ := coalesce_head a l2
    exact ⟨s, t, by rw [List.cons_append, List.nil_append, e, ha], by simpa using hs⟩
  | cons b run ih =>
    intro a l2 ha hrun
    have hb := hrun b (by simp)
    obtain ⟨s, t, e, hs⟩ := ih ⟨a.off, a.size + 32 + b.size, true⟩ l2 rfl
      (fun r hr => hrun r (List.mem_cons_of_mem _ hr))
    refine ⟨s, t, ?_, ?_⟩
    · rw [List.cons_append, List.cons_append, coalesce_merge a b _ ha hb]
      exact e
    · simp only [List.map_cons, List.sum_cons, List.length_cons] at hs ⊢
      omega

/-- A run of adjacent free blocks ends up inside one free block of the coalesced ledger. -/
theorem coalesce_run (l1 run l2 : List Region) (hne : run ≠ [])
    (hfree : ∀ r ∈ run, r.free = true) :
    ∃ r ∈ coalesce (l1 ++ run ++ l2), r.free = true ∧
      (run.map fun r => r.size).sum + (run.length - 1) * 32 ≤ r.size := by
  induction l1 with
  | nil =>
    cases run with
    | nil => exact absurd rfl hne
    | cons a run =>
      obtain ⟨s, t, e, hs⟩ := coalesce_run_head run a l2 (hfree a (by simp))
        (fun r hr => hfree r (List.mem_cons_of_mem _ hr))
      refine ⟨_, by rw [List.nil_append, e]; exact List.mem_cons_self _ _, rfl, ?_⟩
      simp only [List.map_cons, List.sum_cons, List.length_cons, Nat.add_sub_cancel]
      exact hs
  | cons x l1 ih =>
    have := coalesce_cons_mono x _ _ ih
    simpa using this

theorem chooseA_none_iff (size : Nat) (l : List Region) :
    chooseA size l = none ↔ ∀ r ∈ coalesce l, r.free = true → r.size < size := by
  have hfits : ∀ r : Region, fits size r = false ↔ (r.free = true → r.size < size) := by
    intro r
    simp only [fits, Bool.and_eq_false_iff, decide_eq_false_iff_not, not_le]
    cases r.free <;> simp
  unfold chooseA
  by_cases hany : l.any (fits size) = true
  · rw [if_pos hany]
    constructor
    · intro hb
      have := ((bestFitA_none _ _ _).1 hb).2
      rw [← any_fits_false] at this
      rw [this] at hany; cases hany
    · intro hc
      simp only [List.any_eq_true] at hany
      obtain ⟨r, hr1, hr2⟩ := hany
      simp only [fits, Bool.and_eq_true, decide_eq_true_eq] at hr2
      obtain ⟨r1, g1, g2, g3⟩ := free_mem_coalesce l r hr1 hr2.1
      have := hc r1 g1 g2
      omega
  · rw [if_neg hany, List.find?_eq_none]
    constructor
    · intro hb r hr1
      have := hb r hr1
      simp only [Bool.not_eq_true] at this
      exact (hfits r).1 this
    · intro hc r hr1
      simp only [Bool.not_eq_true]
      exact (hfits r).2 (hc r hr1)

theorem mallocStep_none_iff (size : Nat) (l l1 : List Region) (p : Option Int)
    (h : MallocStep size l l1 p) : p = none ↔ chooseA size l = none := by
  unfold MallocStep at h
  cases hc : chooseA size l with
  | none => rw [hc] at h; simp [h.2]
  | some b =>
    rw [hc] at h
    obtain ⟨_, _, _, _, e⟩ := h
    simp [e]

theorem linked_hdrs (s : Int) (p : Option Int) (l : List Region)
    (h : Adj s l (MEMORY_SIZE : Int)) : Linked p (hdrs p l none) := by
  induction l generalizing s p with
  | nil => simp [Linked]
  | cons r l ih =>
    rw [adj_cons] at h
    obtain ⟨h1, h2, h3⟩ := h
    have hB := BLOCK_SIZE_eq
    cases l with
    | nil =>
      rw [adj_nil] at h3
      simp only [hdrs_cons, hdrs_nil, headOff_nil, Linked, hB, Nat.cast_ofNat, true_and]
      rw [h1]; exact h3
    | cons r2 l =>
      have := ih _ (some r.off) h3
      simp only [hdrs_cons, headOff_cons, Linked, hB, Nat.cast_ofNat, true_and] at this ⊢
      refine ⟨?_, this⟩
      have := ((adj_cons _ _ _ _).1 h3).1
      rw [this, h1]

theorem hdrs_bounds (s t : Int) (p e : Option Int) (l : List Region) (h : Adj s l t)
    (ob : Int × Block) (hob : ob ∈ hdrs p l e) :
    s ≤ ob.1 ∧ ob.1 + 32 ≤ t ∧
    (∀ o, ob.2.prev = some o → p = some o ∨ (s ≤ o ∧ o < ob.1)) ∧
    (∀ o, ob.2.next = some o → e = some o ∨ (ob.1 < o ∧ o < t)) := by
  induction l generalizing s p with
  | nil => simp at hob
  | cons r l ih =>
    rw [adj_cons] at h
    obtain ⟨h1, h2, h3⟩ := h
    have hle := adj_le _ _ _ h3
    rw [hdrs_cons] at hob
    rcases List.mem_cons.1 hob with rfl | hob
    · refine ⟨by simp only; omega, by simp only; omega, fun o ho => Or.inl ho, ?_⟩
      intro o ho
      simp only at ho
      cases l with
      | nil => left; simpa using ho
      | cons r2 l =>
        right
        rw [headOff_cons] at ho
        rw [adj_cons] at h3
        have hle2 := adj_le _ _ _ h3.2.2
        simp only [Option.some.injEq] at ho
        simp only
        omega
    · obtain ⟨g1, g2, g3, g4⟩ := ih _ (some r.off) h3 hob
      refine ⟨by omega, g2, ?_, ?_⟩
      · intro o ho
        right
        rcases g3 o ho with g | g
        · simp only [Option.some.injEq] at g
          omega
        · omega
      · intro o ho
        rcases g4 o ho with g | g
        · exact Or.inl g
        · exact Or.inr ⟨g.1, g.2⟩

theorem mutual_hdrs (s t : Int) (p e : Option Int) (l : List Region) (h : Adj s l t)
    (hp : ∀ o, p = some o → o < s) (he : ∀ o, e = some o → t ≤ o) :
    MutualInverse (hdrs p l e) := by
  induction l generalizing s p with
  | nil => intro x hx; simp at hx
  | cons r l ih =>
    have hadj := h
    rw [adj_cons] at h
    obtain ⟨h1, h2, h3⟩ := h
    have hle := adj_le _ _ _ h3
    have IH := ih _ (some r.off) h3 (by intro o ho; cases ho; omega)
    intro x hx y hy
    rw [hdrs_cons] at hx hy
    rcases List.mem_cons.1 hx with rfl | hx
    · rcases List.mem_cons.1 hy with rfl | hy
      · -- both are the first block
        simp only
        constructor
        · intro hn
          have := hdrs_bounds _ _ p e _ hadj (r.off, ⟨r.size, r.free, headOff l e, p⟩)
            (by rw [hdrs_cons]; exact List.mem_cons_self _ _)
          rcases this.2.2.2 r.off hn with g | g
          · have := he _ g; omega
          · simp only at g; omega
        · intro hn
          have := hp _ hn
          omega
      · -- the first block and a later one
        have hb := hdrs_bounds _ _ (some r.off) e _ h3 y hy
        simp only
        cases l with
        | nil => simp at hy
        | cons r2 l =>
          rw [adj_cons] at h3
          rw [hdrs_cons] at hy
          rw [headOff_cons]
          rcases List.mem_cons.1 hy with rfl | hy2
          · simp
          · have hb2 := hdrs_bounds _ _ (some r2.off) e _ h3.2.2 y hy2
            constructor
            · intro hn
              simp only [Option.some.injEq] at hn
              omega
            · intro hn
              rcases hb2.2.2.1 _ hn with g | g
              · simp only [Option.some.injEq] at g; omega
              · omega
    · have hb := hdrs_bounds _ _ (some r.off) e _ h3 x hx
      rcases List.mem_cons.1 hy with rfl | hy
      · -- a later block and the first one
        simp only
        constructor
        · intro hn
          rcases hb.2.2.2 _ hn with g | g
          · have := he _ g; omega
          · omega
        · intro hn
          have := hp _ hn
          omega
      · exact IH x hx y hy

theorem sum_hdrs (s t : Int) (p e : Option Int) (l : List Region) (h : Adj s l t) :
    s + (((hdrs p l e).map fun ob => ob.2.size + BLOCK_SIZE).sum : Nat) = t := by
  induction l generalizing s p with
  | nil => rw [adj_nil] at h; simp [h]
  | cons r l ih =>
    rw [adj_cons] at h
    have := ih _ (some r.off) h.2.2
    have hB := BLOCK_SIZE_eq
    simp only [hdrs_cons, List.map_cons, List.sum_cons]
    push_cast at this ⊢
    omega

/-- When the rounding does not wrap, the block `_malloc` returns holds the request. -/
theorem malloc_size_ok (enc : Block → Int → Nat) (h h1 : Heap) (n : Nat) (p : Int)
    (hr : Reachable enc h) (hn : n ≤ 2 ^ 64 - 8) (hm : _malloc enc h n = some (h1, some p)) :
    ∃ L1, ledger h1 = some L1 ∧
      ∃ r ∈ regions L1, p = r.off + (BLOCK_SIZE : Int) ∧ r.free = false ∧ n ≤ r.size := by
  obtain ⟨l, hl⟩ := reachable_repr enc h hr
  obtain ⟨h2, l1, p1, e1, e2, e3, _⟩ := malloc_spec enc h l n hl
  rw [e1] at hm; cases hm
  obtain ⟨c, g1, g2, g3, g4⟩ := mallocStep_ptr _ _ _ _ e3
  refine ⟨_, repr_ledger _ _ e2, c, by rw [regions_hdrs]; exact g1, ?_, g2, ?_⟩
  · rw [g3, BLOCK_SIZE_eq]; rfl
  · have := (ALIGN_ge n hn).1; omega

theorem exec_malloc_eq (enc : Block → Int → Nat) (h : Heap) (n : Nat) (p : Option Int)
    (hp : (_malloc enc h n).map Prod.snd = some p) :
    _malloc enc h n = some (exec_malloc enc h n, p) := by
  unfold exec_malloc
  cases e : _malloc enc h n with
  | none => rw [e] at hp; cases hp
  | some r =>
    rw [e] at hp
    simp only [Option.map_some', Option.some.injEq] at hp
    rw [← hp]

/-! ## The claims -/

/-- C1: chain integrity is an invariant of every reachable state. The ledger starts at offset
0 with a block without predecessor, every block's successor is the header at
`offset + BLOCK_SIZE + size` and points back to it, the last block ends at `MEMORY_SIZE`,
`prev` and `next` are mutual inverses, and the footprints `size + BLOCK_SIZE` add up to
`MEMORY_SIZE`. -/
theorem C1_chain_integrity (enc : Block → Int → Nat) (h : Heap) (hr : Reachable enc h) :
    ∃ L, ledger h = some L ∧ ChainIntegrity L := by
  obtain ⟨l, hl⟩ := reachable_repr enc h hr
  refine ⟨_, repr_ledger h l hl, ?_, linked_hdrs 0 none l hl.adj,
    mutual_hdrs 0 _ none none l hl.adj (by simp) (by simp), ?_⟩
  · cases l with
    | nil =>
      have := hl.adj
      simp [adj_nil, MEMORY_SIZE_eq] at this
    | cons r l =>
      have := ((adj_cons _ _ _ _).1 hl.adj).1
      exact ⟨_, _, by rw [hdrs_cons, this]⟩
  · have := sum_hdrs 0 _ none none l hl.adj
    omega

/-- C1, witness: the state `demo9`, after six allocations and three frees. -/
theorem C1_chain_integrity_witness :
    Reachable enc0 demo9 ∧ ∃ L, ledger demo9 = some L ∧ ChainIntegrity L :=
  ⟨demo9_reachable, C1_chain_integrity enc0 demo9 demo9_reachable⟩

/-- C2, at the failing input: on the initial ledger a request of `2 ^ 64 - 1` bytes is
rounded to 0 by `ALIGN`; `_malloc` returns the non-null pointer at offset 32, and the block it
belongs to (offset 0, allocated) has stored size 0, which is less than the request. -/
theorem C2_wrapped_request_gets_empty_block :
    ALIGN (2 ^ 64 - 1) = 0 ∧
    (_malloc enc0 (MEM_init enc0 zeroHeap) (2 ^ 64 - 1)).map Prod.snd = some (some 32) ∧
    ((_malloc enc0 (MEM_init enc0 zeroHeap) (2 ^ 64 - 1)).bind fun r => ledger r.1).map regions
      = some [⟨0, 0, false⟩, ⟨32, 31457216, true⟩] := by
  refine ⟨by decide, by decide, by decide⟩

/-- C3: `_malloc` fails exactly on out-of-memory. For a request `n ≤ 2 ^ 64 - 8` (rounded up
to `ALIGN n`, `n ≤ ALIGN n < n + 8`) in a reachable state, the call returns, and returns null
if and only if no free block of the coalesced ledger has size at least `ALIGN n`; in
particular it succeeds whenever a run of `k` adjacent free blocks has total size plus
`(k - 1) * BLOCK_SIZE` at least `ALIGN n`. -/
theorem C3_malloc_null_iff_out_of_memory (enc : Block → Int → Nat) (h : Heap) (n : Nat)
    (hr : Reachable enc h) (hn : n ≤ 2 ^ 64 - 8) :
    n ≤ ALIGN n ∧ ALIGN n < n + 8 ∧
    ∃ L h1 p, ledger h = some L ∧ _malloc enc h n = some (h1, p) ∧
      (p = none ↔ ∀ r ∈ coalesce (regions L), r.free = true → r.size < ALIGN n) ∧
      (∀ l1 run l2, regions L = l1 ++ run ++ l2 → run ≠ [] → (∀ r ∈ run, r.free = true) →
        ALIGN n ≤ (run.map fun r => r.size).sum + (run.length - 1) * BLOCK_SIZE →
        p ≠ none) := by
  obtain ⟨l, hl⟩ := reachable_repr enc h hr
  obtain ⟨h1, l1, p, e1, e2, e3, _⟩ := malloc_spec enc h l n hl
  have hiff : p = none ↔ ∀ r ∈ coalesce l, r.free = true → r.size < ALIGN n := by
    rw [mallocStep_none_iff _ _ _ _ e3, chooseA_none_iff]
  refine ⟨(ALIGN_ge n hn).1, (ALIGN_ge n hn).2, _, h1, p, repr_ledger h l hl, e1, ?_, ?_⟩
  · rw [regions_hdrs]; exact hiff
  · intro m1 run m2 hdec hne hfree hbig hp
    rw [regions_hdrs] at hdec
    obtain ⟨r, g1, g2, g3⟩ := coalesce_run m1 run m2 hne hfree
    rw [← hdec] at g1
    have := hiff.1 hp r g1 g2
    rw [BLOCK_SIZE_eq] at hbig
    omega

/-- C3, witness: a request of 50 bytes in the state `demo9`. -/
theorem C3_malloc_null_iff_out_of_memory_witness :
    Reachable enc0 demo9 ∧ 50 ≤ 2 ^ 64 - 8 ∧
    (50 ≤ ALIGN 50 ∧ ALIGN 50 < 50 + 8 ∧
    ∃ L h1 p, ledger demo9 = some L ∧ _malloc enc0 demo9 50 = some (h1, p) ∧
      (p = none ↔ ∀ r ∈ coalesce (regions L), r.free = true → r.size < ALIGN 50) ∧
      (∀ l1 run l2, regions L = l1 ++ run ++ l2 → run ≠ [] → (∀ r ∈ run, r.free = true) →
        ALIGN 50 ≤ (run.map fun r => r.size).sum + (run.length - 1) * BLOCK_SIZE →
        p ≠ none)) :=
  ⟨demo9_reachable, by norm_num,
    C3_malloc_null_iff_out_of_memory enc0 demo9 50 demo9_reachable (by norm_num)⟩

/-- C4: best fit. In a reachable state where some free block already has size at least
`ALIGN n`, `_malloc n` returns the payload pointer of a free block `b` of the ledger with
`ALIGN n ≤ b.size`, of least size among the free blocks that fit and at the lowest address
among those of that size; the other blocks of the ledger are left as they were (nothing is
merged): the new ledger is the old one with `b` replaced by `takeA (ALIGN n) b`. -/
theorem C4_best_fit (enc : Block → Int → Nat) (h : Heap) (n : Nat) (L : List (Int × Block))
    (hr : Reachable enc h) (hL : ledger h = some L)
    (hfit : ∃ r ∈ regions L, r.free = true ∧ ALIGN n ≤ r.size) :
    ∃ h1 b l1 l2 L1, _malloc enc h n = some (h1, some (b.off + (BLOCK_SIZE : Int))) ∧
      regions L = l1 ++ b :: l2 ∧ b.free = true ∧ ALIGN n ≤ b.size ∧
      (∀ r ∈ regions L, r.free = true → ALIGN n ≤ r.size →
        b.size ≤ r.size ∧ (r.size = b.size → b.off ≤ r.off)) ∧
      ledger h1 = some L1 ∧ regions L1 = l1 ++ takeA (ALIGN n) b ++ l2 := by
  obtain ⟨l, hl⟩ := reachable_repr enc h hr
  have hreg := ledger_repr h l hl L hL
  rw [hreg] at hfit ⊢
  obtain ⟨h1, l1, p, e1, e2, e3, _⟩ := malloc_spec enc h l n hl
  obtain ⟨r0, f1, f2, f3⟩ := hfit
  have hany : l.any (fits (ALIGN n)) = true := by
    simp only [List.any_eq_true]
    exact ⟨r0, f1, by simp [fits, f2, f3]⟩
  cases hb : bestFitA (ALIGN n) l none with
  | none =>
    have := ((bestFitA_none _ _ _).1 hb).2
    rw [← any_fits_false, hany] at this
    cases this
  | some b =>
    have hch : chooseA (ALIGN n) l = some b := by
      unfold chooseA; rw [if_pos hany]; exact hb
    have hsl : searchLedger (ALIGN n) l = l := by
      unfold searchLedger; rw [if_pos hany]
    unfold MallocStep at e3
    rw [hch, hsl] at e3
    obtain ⟨l2, l3, d1, d2, d3⟩ := e3
    have hbf := chooseA_fits _ _ _ hch
    simp only [fits, Bool.and_eq_true, decide_eq_true_eq] at hbf
    rcases bestFitA_spec _ _ _ _ hb with ⟨h2, _⟩ | ⟨a1, a2, ea, _, m1, m2, _⟩
    · cases h2
    · refine ⟨h1, b, l2, l3, _, by rw [e1, d3], d1, hbf.1, hbf.2, ?_, repr_ledger _ _ e2,
        by rw [regions_hdrs, d2]⟩
      intro r hr1 hr2 hr3
      have hfr : fits (ALIGN n) r = true := by simp [fits, hr2, hr3]
      subst ea
      obtain ⟨_, _, _, _, g5, _⟩ := repr_geom h a1 a2 b hl
      simp only [List.mem_append, List.mem_cons] at hr1
      rcases hr1 with hr1 | rfl | hr1
      · have := m1 r hr1 hfr
        exact ⟨by omega, by omega⟩
      · exact ⟨le_refl _, fun _ => le_refl _⟩
      · have := m2 r hr1 hfr
        have := g5 r hr1
        exact ⟨by omega, by intro _; omega⟩

/-- C4, witness: in `demo9` the free blocks have sizes 40, 64, 128 (and the tail of the
arena); a request of 50 bytes, rounded to 56, is served from the 64-byte block at offset 112,
whose payload pointer is 144. -/
theorem C4_best_fit_witness :
    (ledger demo9).map regions =
      some [⟨0, 40, true⟩, ⟨72, 8, false⟩, ⟨112, 64, true⟩, ⟨208, 8, false⟩,
        ⟨248, 128, true⟩, ⟨408, 8, false⟩, ⟨448, 31456800, true⟩] ∧
    ALIGN 50 = 56 ∧
    (_malloc enc0 demo9 50).map Prod.snd = some (some 144) ∧
    Reachable enc0 demo9 ∧ ledger demo9 = some ((ledger demo9).getD []) ∧
    (∃ r ∈ regions ((ledger demo9).getD []), r.free = true ∧ ALIGN 50 ≤ r.size) ∧
    ∃ h1 b l1 l2 L1, _malloc enc0 demo9 50 = some (h1, some (b.off + (BLOCK_SIZE : Int))) ∧
      regions ((ledger demo9).getD []) = l1 ++ b :: l2 ∧ b.free = true ∧ ALIGN 50 ≤ b.size ∧
      (∀ r ∈ regions ((ledger demo9).getD []), r.free = true → ALIGN 50 ≤ r.size →
        b.size ≤ r.size ∧ (r.size = b.size → b.off ≤ r.off)) ∧
      ledger h1 = some L1 ∧ regions L1 = l1 ++ takeA (ALIGN 50) b ++ l2 :=
  ⟨by decide, by decide, by decide, demo9_reachable, by decide,
    ⟨⟨112, 64, true⟩, by decide, by decide, by decide⟩,
    C4_best_fit enc0 demo9 50 ((ledger demo9).getD []) demo9_reachable (by decide)
      ⟨⟨112, 64, true⟩, by decide, by decide, by decide⟩⟩

/-- C5: split policy. Let `b` be the block a successful `_malloc n` chooses, in the ledger
where it is found (the current ledger when some free block fits, its coalesced form
otherwise), and `r = ALIGN n`. If `b.size ≥ r + BLOCK_SIZE + MIN_BLOCK_SIZE`, the new ledger
is that ledger with, in place of `b`, an allocated block of size exactly `r` followed by one
new free block of size `b.size - r - BLOCK_SIZE ≥ MIN_BLOCK_SIZE`, itself followed by what
followed `b`; the two sizes add up to `b.size - BLOCK_SIZE` and the block count grows by one.
Otherwise the new ledger is that ledger with `b` allocated at its full size, and the block
count is unchanged. -/
theorem C5_split_policy (enc : Block → Int → Nat) (h h1 : Heap) (n : Nat) (p : Int)
    (hr : Reachable enc h) (hm : _malloc enc h n = some (h1, some p)) :
    ∃ L L1 l1 b l2, ledger h = some L ∧ ledger h1 = some L1 ∧
      searchLedger (ALIGN n) (regions L) = l1 ++ b :: l2 ∧
      p = b.off + (BLOCK_SIZE : Int) ∧ b.free = true ∧ ALIGN n ≤ b.size ∧
      (ALIGN n + BLOCK_SIZE + MIN_BLOCK_SIZE ≤ b.size →
        regions L1 = l1 ++ ⟨b.off, ALIGN n, false⟩ ::
          ⟨b.off + (BLOCK_SIZE : Int) + (ALIGN n : Int), b.size - ALIGN n - BLOCK_SIZE, true⟩
            :: l2 ∧
        MIN_BLOCK_SIZE ≤ b.size - ALIGN n - BLOCK_SIZE ∧
        ALIGN n + (b.size - ALIGN n - BLOCK_SIZE) = b.size - BLOCK_SIZE ∧
        L1.length = (l1 ++ b :: l2).length + 1) ∧
      (b.size < ALIGN n + BLOCK_SIZE + MIN_BLOCK_SIZE →
        regions L1 = l1 ++ ⟨b.off, b.size, false⟩ :: l2 ∧
        L1.length = (l1 ++ b :: l2).length) := by
  obtain ⟨l, hl⟩ := reachable_repr enc h hr
  obtain ⟨h2, m, p1, e1, e2, e3, _⟩ := malloc_spec enc h l n hl
  rw [e1] at hm; cases hm
  have hB := BLOCK_SIZE_eq
  have hM := MIN_BLOCK_SIZE_eq
  unfold MallocStep at e3
  cases hch : chooseA (ALIGN n) l with
  | none =>
    rw [hch] at e3
    exact absurd e3.2 (by simp)
  | some b =>
    rw [hch] at e3
    obtain ⟨l2, l3, d1, d2, d3⟩ := e3
    have hbf := chooseA_fits _ _ _ hch
    simp only [fits, Bool.and_eq_true, decide_eq_true_eq] at hbf
    simp only [Option.some.injEq] at d3
    have hlen : ∀ L1 : List (Int × Block), L1.length = (regions L1).length := by
      intro L1; simp [regions]
    refine ⟨_, _, l2, b, l3, repr_ledger h l hl, repr_ledger _ _ e2,
      by rw [regions_hdrs]; exact d1, d3, hbf.1, hbf.2, ?_, ?_⟩
    · intro hs
      have ht : takeA (ALIGN n) b = [⟨b.off, ALIGN n, false⟩,
          ⟨b.off + (BLOCK_SIZE : Int) + (ALIGN n : Int), b.size - ALIGN n - BLOCK_SIZE,
            true⟩] := by
        unfold takeA; rw [if_pos hs]
      have hreg : regions (hdrs none m none) = l2 ++ ⟨b.off, ALIGN n, false⟩ ::
          ⟨b.off + (BLOCK_SIZE : Int) + (ALIGN n : Int), b.size - ALIGN n - BLOCK_SIZE, true⟩
            :: l3 := by
        rw [regions_hdrs, d2, ht]; simp
      refine ⟨hreg, by omega, by omega, ?_⟩
      rw [hlen, hreg]; simp; omega
    · intro hs
      have ht : takeA (ALIGN n) b = [⟨b.off, b.size, false⟩] := by
        unfold takeA; rw [if_neg (by omega)]
      have hreg : regions (hdrs none m none) = l2 ++ ⟨b.off, b.size, false⟩ :: l3 := by
        rw [regions_hdrs, d2, ht]; simp
      refine ⟨hreg, ?_⟩
      rw [hlen, hreg]; simp

/-- C5, witness: the request of 50 bytes in `demo9` takes the 64-byte block whole. -/
theorem C5_split_policy_witness :
    Reachable enc0 demo9 ∧
    _malloc enc0 demo9 50 = some (exec_malloc enc0 demo9 50, some 144) ∧
    ∃ L L1 l1 b l2, ledger demo9 = some L ∧ ledger (exec_malloc enc0 demo9 50) = some L1 ∧
      searchLedger (ALIGN 50) (regions L) = l1 ++ b :: l2 ∧
      (144 : Int) = b.off + (BLOCK_SIZE : Int) ∧ b.free = true ∧ ALIGN 50 ≤ b.size ∧
      (ALIGN 50 + BLOCK_SIZE + MIN_BLOCK_SIZE ≤ b.size →
        regions L1 = l1 ++ ⟨b.off, ALIGN 50, false⟩ ::
          ⟨b.off + (BLOCK_SIZE : Int) + (ALIGN 50 : Int), b.size - ALIGN 50 - BLOCK_SIZE, true⟩
            :: l2 ∧
        MIN_BLOCK_SIZE ≤ b.size - ALIGN 50 - BLOCK_SIZE ∧
        ALIGN 50 + (b.size - ALIGN 50 - BLOCK_SIZE) = b.size - BLOCK_SIZE ∧
        L1.length = (l1 ++ b :: l2).length + 1) ∧
      (b.size < ALIGN 50 + BLOCK_SIZE + MIN_BLOCK_SIZE →
        regions L1 = l1 ++ ⟨b.off, b.size, false⟩ :: l2 ∧
        L1.length = (l1 ++ b :: l2).length) :=
  ⟨demo9_reachable, exec_malloc_eq _ _ _ _ (by decide),
    C5_split_policy enc0 demo9 (exec_malloc enc0 demo9 50) 50 144 demo9_reachable
      (exec_malloc_eq _ _ _ _ (by decide))⟩

/-- C6: alignment. In every reachable state the size of every block is a multiple of
`ALIGNMENT`; the pointer returned by a successful `_malloc` or `_realloc` (called with a null
or live pointer) is a multiple of 8 and is `offset + BLOCK_SIZE` for an allocated block of the
new ledger. -/
theorem C6_alignment (enc : Block → Int → Nat) (h : Heap) (hr : Reachable enc h) :
    (∃ L, ledger h = some L ∧ ∀ r ∈ regions L, r.size % ALIGNMENT = 0) ∧
    (∀ n h1 p, _malloc enc h n = some (h1, some p) →
      p % 8 = 0 ∧ ∃ L1, ledger h1 = some L1 ∧
        ∃ r ∈ regions L1, r.free = false ∧ p = r.off + (BLOCK_SIZE : Int)) ∧
    (∀ ptr n h1 q, NullOrLive h ptr → _realloc enc h ptr n = some (h1, some q) →
      q % 8 = 0 ∧ ∃ L1, ledger h1 = some L1 ∧
        ∃ r ∈ regions L1, r.free = false ∧ q = r.off + (BLOCK_SIZE : Int)) := by
  obtain ⟨l, hl⟩ := reachable_repr enc h hr
  have hB := BLOCK_SIZE_eq
  refine ⟨⟨_, repr_ledger h l hl, ?_⟩, ?_, ?_⟩
  · intro r hr1
    rw [regions_hdrs] at hr1
    exact (adj_mem _ _ _ hl.adj r hr1).2.2
  · intro n h1 p hm
    obtain ⟨h2, l1, p1, e1, e2, e3, _⟩ := malloc_spec enc h l n hl
    rw [e1] at hm; cases hm
    obtain ⟨c, g1, g2, g3, _⟩ := mallocStep_ptr _ _ _ _ e3
    have := adj_mem_off_mod _ _ _ e2.adj (by norm_num) c g1
    refine ⟨by omega, _, repr_ledger _ _ e2, c, by rw [regions_hdrs]; exact g1, g2, ?_⟩
    rw [g3, hB]; rfl
  · intro ptr n h1 q hp hm
    obtain ⟨h2, l1, q1, e1, e2, e3⟩ := realloc_spec enc h l hl ptr n hp
    rw [e1] at hm; cases hm
    obtain ⟨c, g1, g2, g3⟩ := e3 q rfl
    have := adj_mem_off_mod _ _ _ e2.adj (by norm_num) c g1
    refine ⟨by omega, _, repr_ledger _ _ e2, c, by rw [regions_hdrs]; exact g1, g2, ?_⟩
    rw [g3, hB]; rfl

/-- C6, witness: the state `demo9`. -/
theorem C6_alignment_witness :
    Reachable enc0 demo9 ∧
    ((∃ L, ledger demo9 = some L ∧ ∀ r ∈ regions L, r.size % ALIGNMENT = 0) ∧
    (∀ n h1 p, _malloc enc0 demo9 n = some (h1, some p) →
      p % 8 = 0 ∧ ∃ L1, ledger h1 = some L1 ∧
        ∃ r ∈ regions L1, r.free = false ∧ p = r.off + (BLOCK_SIZE : Int)) ∧
    (∀ ptr n h1 q, NullOrLive demo9 ptr → _realloc enc0 demo9 ptr n = some (h1, some q) →
      q % 8 = 0 ∧ ∃ L1, ledger h1 = some L1 ∧
        ∃ r ∈ regions L1, r.free = false ∧ q = r.off + (BLOCK_SIZE : Int))) :=
  ⟨demo9_reachable, C6_alignment enc0 demo9 demo9_reachable⟩

/-- C7: no overlap. In every reachable state the payload ranges
`[offset + BLOCK_SIZE, offset + BLOCK_SIZE + size)` of two distinct allocated blocks are
disjoint, and each lies inside the arena `[0, MEMORY_SIZE)`. -/
theorem C7_no_overlap (enc : Block → Int → Nat) (h : Heap) (hr : Reachable enc h) :
    ∃ L, ledger h = some L ∧
      (∀ x ∈ regions L, x.free = false →
        0 ≤ x.off + (BLOCK_SIZE : Int) ∧
        x.off + (BLOCK_SIZE : Int) + (x.size : Int) ≤ (MEMORY_SIZE : Int)) ∧
      (∀ x ∈ regions L, ∀ y ∈ regions L, x.free = false → y.free = false → x ≠ y →
        x.off + (BLOCK_SIZE : Int) + (x.size : Int) ≤ y.off + (BLOCK_SIZE : Int) ∨
        y.off + (BLOCK_SIZE : Int) + (y.size : Int) ≤ x.off + (BLOCK_SIZE : Int)) := by
  obtain ⟨l, hl⟩ := reachable_repr enc h hr
  have hB := BLOCK_SIZE_eq
  have hM := MEMORY_SIZE_eq
  refine ⟨_, repr_ledger h l hl, ?_, ?_⟩
  · intro x hx _
    rw [regions_hdrs] at hx
    have := adj_mem _ _ _ hl.adj x hx
    omega
  · intro x hx y hy _ _ hne
    rw [regions_hdrs] at hx hy
    rcases adj_pairwise _ _ _ hl.adj x y hx hy with e | e | e
    · exact absurd e hne
    · left; omega
    · right; omega

/-- C7, witness: the state `demo9`. -/
theorem C7_no_overlap_witness :
    Reachable enc0 demo9 ∧
    ∃ L, ledger demo9 = some L ∧
      (∀ x ∈ regions L, x.free = false →
        0 ≤ x.off + (BLOCK_SIZE : Int) ∧
        x.off + (BLOCK_SIZE : Int) + (x.size : Int) ≤ (MEMORY_SIZE : Int)) ∧
      (∀ x ∈ regions L, ∀ y ∈ regions L, x.free = false → y.free = false → x ≠ y →
        x.off + (BLOCK_SIZE : Int) + (x.size : Int) ≤ y.off + (BLOCK_SIZE : Int) ∨
        y.off + (BLOCK_SIZE : Int) + (y.size : Int) ≤ x.off + (BLOCK_SIZE : Int)) :=
  ⟨demo9_reachable, C7_no_overlap enc0 demo9 demo9_reachable⟩

/-- C8: `_malloc` does not disturb live allocations. In a reachable state the call returns
(null or not), and every block that was allocated before it is in the new ledger at the same
offset, with the same size, still allocated, with every byte of its payload unchanged. -/
theorem C8_malloc_frame (enc : Block → Int → Nat) (h : Heap) (n : Nat)
    (hr : Reachable enc h) :
    ∃ L h1 p L1, ledger h = some L ∧ _malloc enc h n = some (h1, p) ∧ ledger h1 = some L1 ∧
      ∀ r ∈ regions L, r.free = false →
        r ∈ regions L1 ∧ ∀ a, inPayload r a → h1.data a = h.data a := by
  obtain ⟨l, hl⟩ := reachable_repr enc h hr
  obtain ⟨h1, l1, p, e1, e2, e3, e4⟩ := malloc_spec enc h l n hl
  refine ⟨_, h1, p, _, repr_ledger h l hl, e1, repr_ledger _ _ e2, ?_⟩
  intro r hr1 hr2
  rw [regions_hdrs] at hr1 ⊢
  exact ⟨mallocStep_alloc _ _ _ _ e3 r hr1 hr2, fun a ha => e4 a r hr1 hr2 ha⟩

/-- C8, witness: a request of 50 bytes in the state `demo9`. -/
theorem C8_malloc_frame_witness :
    Reachable enc0 demo9 ∧
    ∃ L h1 p L1, ledger demo9 = some L ∧ _malloc enc0 demo9 50 = some (h1, p) ∧
      ledger h1 = some L1 ∧
      ∀ r ∈ regions L, r.free = false →
        r ∈ regions L1 ∧ ∀ a, inPayload r a → h1.data a = demo9.data a :=
  ⟨demo9_reachable, C8_malloc_frame enc0 demo9 50 demo9_reachable⟩

/-- C9: an invalid free is a no-op. In a reachable state, `_free` of a pointer that is null,
below the arena, at or beyond its end, or not a multiple of 8 away from its start returns
with the whole state (ledger and bytes) unchanged. -/
theorem C9_invalid_free_noop (enc : Block → Int → Nat) (h : Heap) (ptr : Option Int)
    (hr : Reachable enc h)
    (hp : ptr = none ∨ ∃ d, ptr = some d ∧ (d < 0 ∨ (MEMORY_SIZE : Int) ≤ d ∨ d % 8 ≠ 0)) :
    _free enc h ptr = some h := by
  obtain ⟨l, hl⟩ := reachable_repr enc h hr
  rcases hp with rfl | ⟨d, rfl, hd⟩
  · exact free_null enc h l hl
  · apply free_rejected enc h l hl
    cases hv : ptr_in_pool d with
    | false => rfl
    | true =>
      have := (ptr_in_pool_iff d).1 hv
      rw [MEMORY_SIZE_eq] at hd
      omega

/-- C9, witness: the misaligned pointer at offset 35 in the state `demo9`. -/
theorem C9_invalid_free_noop_witness :
    Reachable enc0 demo9 ∧
    ((some 35 : Option Int) = none ∨
      ∃ d, (some 35 : Option Int) = some d ∧ (d < 0 ∨ (MEMORY_SIZE : Int) ≤ d ∨ d % 8 ≠ 0)) ∧
    _free enc0 demo9 (some 35) = some demo9 :=
  ⟨demo9_reachable, Or.inr ⟨35, rfl, Or.inr (Or.inr (by decide))⟩,
    C9_invalid_free_noop enc0 demo9 (some 35) demo9_reachable
      (Or.inr ⟨35, rfl, Or.inr (Or.inr (by decide))⟩)⟩

/-- C10: `_free` of a live pointer frees exactly that block and never merges. A live pointer
`d` passes the validation of `_free`; the call returns, and the new ledger is the old one
with the block at `d - BLOCK_SIZE` marked free: same blocks, same order, same sizes and
links, whatever the state of its neighbours. No byte outside that block's header changes. -/
theorem C10_free_marks_only_that_block (enc : Block → Int → Nat) (h : Heap) (d : Int)
    (hr : Reachable enc h) (hd : Live h d) :
    ptr_in_pool d = true ∧
    ∃ h1 l1 b l2, _free enc h (some d) = some h1 ∧
      ledger h = some (l1 ++ (d - (BLOCK_SIZE : Int), b) :: l2) ∧ b.is_free = false ∧
      ledger h1 = some (l1 ++ (d - (BLOCK_SIZE : Int), { b with is_free := true }) :: l2) ∧
      (∀ a, a < d - (BLOCK_SIZE : Int) ∨ d ≤ a → h1.data a = h.data a) := by
  obtain ⟨l, hl⟩ := reachable_repr enc h hr
  obtain ⟨r, hr1, hr2, hr3⟩ := (live_iff h l hl d).1 hd
  subst hr3
  obtain ⟨m1, m2, rfl⟩ := List.append_of_mem hr1
  obtain ⟨h1, e1, e2, _, _, e5⟩ := free_block enc h m1 m2 r hl
  have hB := BLOCK_SIZE_eq
  have hoff : r.off + 32 - (BLOCK_SIZE : Int) = r.off := by rw [hB]; norm_num
  refine ⟨ptr_in_pool_block h m1 m2 r hl, h1, hdrs none m1 (some r.off),
    ⟨r.size, r.free, headOff m2 none, lastOff m1 none⟩, hdrs (some r.off) m2 none, e1, ?_, hr2,
    ?_, ?_⟩
  · rw [repr_ledger h _ hl, hdrs_append, hoff]; rfl
  · rw [repr_ledger h1 _ e2, hdrs_append, hoff]; rfl
  · intro a ha
    rw [hoff] at ha
    exact e5 a (by omega)

/-- C10, witness: in `demo6` the pointer at offset 144 (the 64-byte block) is live. -/
theorem C10_free_marks_only_that_block_witness :
    Reachable enc0 demo6 ∧ Live demo6 144 ∧
    (ptr_in_pool 144 = true ∧
    ∃ h1 l1 b l2, _free enc0 demo6 (some 144) = some h1 ∧
      ledger demo6 = some (l1 ++ ((144 : Int) - (BLOCK_SIZE : Int), b) :: l2) ∧
      b.is_free = false ∧
      ledger h1 = some (l1 ++ ((144 : Int) - (BLOCK_SIZE : Int), { b with is_free := true })
        :: l2) ∧
      (∀ a, a < (144 : Int) - (BLOCK_SIZE : Int) ∨ 144 ≤ a → h1.data a = demo6.data a)) :=
  ⟨demo6_reachable, isLive_live demo6 144 (by decide),
    C10_free_marks_only_that_block enc0 demo6 144 demo6_reachable
      (isLive_live demo6 144 (by decide))⟩

/-! ### `_realloc` of a live pointer -/

theorem live_split (h : Heap) (l : List Region) (hr : Repr h l) (d : Int) (hd : Live h d) :
    ∃ l2 b l3, l = l2 ++ b :: l3 ∧ d = b.off + 32 ∧ b.free = false := by
  obtain ⟨b, hb1, hb2, hb3⟩ := (live_iff h l hr d).1 hd
  obtain ⟨l2, l3, e⟩ := List.append_of_mem hb1
  exact ⟨l2, b, l3, e, hb3, hb2⟩

theorem stored_size_block (h : Heap) (l2 l3 : List Region) (b : Region)
    (hr : Repr h (l2 ++ b :: l3)) : stored_size h (b.off + 32) = some b.size := by
  have hc := hr.chain
  rw [chain_append_cons] at hc
  have e : block_of (b.off + 32) = b.off := by simp [block_of, BLOCK_SIZE_eq]
  simp [stored_size, e, hc.2.1]

theorem realloc_inplace (enc : Block → Int → Nat) (h : Heap) (l2 l3 : List Region) (b : Region)
    (n : Nat) (hr : Repr h (l2 ++ b :: l3)) (hsz : ALIGN n ≤ b.size) :
    _realloc enc h (some (b.off + 32)) n = some (h, some (b.off + 32)) := by
  have hc := hr.chain
  rw [chain_append_cons] at hc
  have e : block_of (b.off + 32) = b.off := by simp [block_of, BLOCK_SIZE_eq]
  have hge : b.size ≥ ALIGN n := hsz
  simp only [_realloc, ensure_initialized_repr enc h _ hr, e, hc.2.1, hge, if_true]

theorem realloc_grow (enc : Block → Int → Nat) (h : Heap) (l2 l3 : List Region) (b : Region)
    (n : Nat) (hr : Repr h (l2 ++ b :: l3)) (hb : b.free = false) (hsz : b.size < ALIGN n) :
    ∃ h1 l1 p, _malloc enc h (ALIGN n) = some (h1, p) ∧ Repr h1 l1 ∧
      MallocStep (ALIGN n) (l2 ++ b :: l3) l1 p ∧
      (∀ a r, r ∈ l2 ++ b :: l3 → r.free = false → inPayload r a → h1.data a = h.data a) ∧
      ((p = none ∧ _realloc enc h (some (b.off + 32)) n = some (h1, none)) ∨
       (∃ q c m2 m3 h3, p = some q ∧
          _realloc enc h (some (b.off + 32)) n = some (h3, some q) ∧
          c ∈ l1 ∧ c.free = false ∧ q = c.off + 32 ∧ ALIGN n ≤ c.size ∧
          l1 = m2 ++ b :: m3 ∧ Repr h3 (m2 ++ ⟨b.off, b.size, true⟩ :: m3) ∧
          (∀ a, a < b.off ∨ b.off + 32 ≤ a →
            h3.data a = (memcpy h1 q (b.off + 32) b.size).data a))) := by
  have hc := hr.chain
  rw [chain_append_cons] at hc
  have e : block_of (b.off + 32) = b.off := by simp [block_of, BLOCK_SIZE_eq]
  have hlt : ¬ b.size ≥ ALIGN n := by omega
  obtain ⟨h1, l1, p, e1, e2, e3, e4⟩ := malloc_spec enc h _ (ALIGN n) hr
  rw [ALIGN_idem _ (ALIGN_mod n) (ALIGN_lt n)] at e3
  refine ⟨h1, l1, p, e1, e2, e3, e4, ?_⟩
  cases p with
  | none =>
    left
    refine ⟨rfl, ?_⟩
    simp only [_realloc, ensure_initialized_repr enc h _ hr, e, hc.2.1, hlt, if_false, e1]
  | some q =>
    right
    have hbl : b ∈ l1 := mallocStep_alloc _ _ _ _ e3 b (by simp) hb
    obtain ⟨c, g1, g2, g3, g4⟩ := mallocStep_ptr _ _ _ _ e3
    obtain ⟨m2, m3, em⟩ := List.append_of_mem hbl
    subst em
    have hc1 := e2.chain
    rw [chain_append_cons] at hc1
    have hm := repr_memcpy h1 _ e2 c g1 (b.off + 32) b.size (by omega)
    obtain ⟨h3, f1, f2, _, _, f5⟩ := free_block enc _ m2 m3 b hm
    refine ⟨q, c, m2, m3, h3, rfl, ?_, g1, g2, g3, g4, rfl, f2, ?_⟩
    · simp only [_realloc, ensure_initialized_repr enc h _ hr, e, hc.2.1, hlt, if_false, e1,
        hc1.2.1]
      rw [g3, f1]
    · intro a ha
      rw [g3]
      exact f5 a ha

theorem exec_realloc_eq (enc : Block → Int → Nat) (h : Heap) (d : Int) (n : Nat)
    (p : Option Int) (hp : (_realloc enc h (some d) n).map Prod.snd = some p) :
    _realloc enc h (some d) n = some (exec_realloc enc h d n, p) := by
  unfold exec_realloc
  cases e : _realloc enc h (some d) n with
  | none => rw [e] at hp; cases hp
  | some r =>
    rw [e] at hp
    simp only [Option.map_some', Option.some.injEq] at hp
    rw [← hp]

theorem demoA_reachable : Reachable enc0 demoA :=
  reachable_exec_malloc _ _ _ Reachable.init (by rw [SIZE_MOD_eq]; norm_num)

theorem demoFull_reachable : Reachable enc0 demoFull :=
  reachable_exec_malloc _ _ _ (reachable_exec_malloc _ _ _ Reachable.init
    (by rw [SIZE_MOD_eq]; norm_num)) (by rw [SIZE_MOD_eq]; norm_num)

/-- C11: `_realloc` reuses the block in place. For a live pointer `d` whose header stores
size `s` and a request with `ALIGN n ≤ s`, the call returns `d` itself and the whole state
(ledger and bytes) is unchanged. -/
theorem C11_realloc_in_place (enc : Block → Int → Nat) (h : Heap) (d : Int) (n s : Nat)
    (hr : Reachable enc h) (hd : Live h d) (hs : stored_size h d = some s)
    (hn : ALIGN n ≤ s) : _realloc enc h (some d) n = some (h, some d) := by
  obtain ⟨l, hl⟩ := reachable_repr enc h hr
  obtain ⟨l2, b, l3, rfl, rfl, _⟩ := live_split h l hl d hd
  rw [stored_size_block h l2 l3 b hl] at hs
  cases hs
  exact realloc_inplace enc h l2 l3 b n hl hn

/-- C11, witness: `_malloc(128)` on the initial ledger returns the pointer at offset 32;
reallocating it to 32 bytes returns the same pointer and the block still has size 128. -/
theorem C11_realloc_in_place_witness :
    (_malloc enc0 demo0 128).map Prod.snd = some (some 32) ∧
    Reachable enc0 demoA ∧ Live demoA 32 ∧ stored_size demoA 32 = some 128 ∧
    ALIGN 32 ≤ 128 ∧ _realloc enc0 demoA (some 32) 32 = some (demoA, some 32) :=
  ⟨by decide, demoA_reachable, isLive_live demoA 32 (by decide), by decide, by decide,
    C11_realloc_in_place enc0 demoA 32 32 128 demoA_reachable
      (isLive_live demoA 32 (by decide)) (by decide) (by decide)⟩

/-- C12: growth through `_realloc` preserves data. For a live pointer `d` whose header
stores size `s`, and a request `n ≤ 2 ^ 64 - 8` with `ALIGN n > s`: if the call returns a
non-null `q`, then `q ≠ d`; `q` is the payload pointer of an allocated block of the new
ledger whose size is at least `ALIGN n` (hence at least `n` and at least `s`, so the copy of
`s` bytes stays inside it); the first `s` bytes at `q` are the `s` bytes that were at `d`
before the call; the two ranges of `s` bytes do not overlap; and the block of `d` is in the
new ledger, with its size, marked free. -/
theorem C12_realloc_growth_preserves_data (enc : Block → Int → Nat) (h h1 : Heap)
    (d q : Int) (n s : Nat) (hr : Reachable enc h) (hd : Live h d)
    (hs : stored_size h d = some s) (hn : n ≤ 2 ^ 64 - 8) (hgrow : s < ALIGN n)
    (hre : _realloc enc h (some d) n = some (h1, some q)) :
    q ≠ d ∧ ∃ L1, ledger h1 = some L1 ∧
      (∃ c ∈ regions L1, q = c.off + (BLOCK_SIZE : Int) ∧ c.free = false ∧
        ALIGN n ≤ c.size ∧ n ≤ c.size ∧ s ≤ c.size) ∧
      (∀ i : Nat, i < s → h1.data (q + (i : Int)) = h.data (d + (i : Int))) ∧
      (q + (s : Int) ≤ d ∨ d + (s : Int) ≤ q) ∧
      (⟨d - (BLOCK_SIZE : Int), s, true⟩ : Region) ∈ regions L1 := by
  obtain ⟨l, hl⟩ := reachable_repr enc h hr
  obtain ⟨l2, b, l3, rfl, rfl, hb⟩ := live_split h l hl d hd
  rw [stored_size_block h l2 l3 b hl] at hs
  cases hs
  have hB := BLOCK_SIZE_eq
  obtain ⟨h2, l1, p, e1, e2, e3, e4, hcase⟩ := realloc_grow enc h l2 l3 b n hl hb hgrow
  rcases hcase with ⟨_, e5⟩ | ⟨q1, c, m2, m3, h3, _, e5, g1, g2, g3, g4, em, f2, f5⟩
  · rw [e5] at hre; cases hre
  · rw [e5] at hre; cases hre
    subst em
    have hne : c ≠ b := by
      intro e; rw [e] at g4; omega
    have hpw := adj_pairwise _ _ _ e2.adj c b g1 (by simp)
    have hdis : c.off + 32 + (c.size : Int) ≤ b.off ∨ b.off + 32 + (b.size : Int) ≤ c.off := by
      rcases hpw with e | e | e
      · exact absurd e hne
      · exact Or.inl e
      · exact Or.inr e
    have hcmem : c ∈ m2 ++ ⟨b.off, b.size, true⟩ :: m3 := by
      simp only [List.mem_append, List.mem_cons] at g1 ⊢
      rcases g1 with g | g | g
      · exact Or.inl g
      · exact absurd g hne
      · exact Or.inr (Or.inr g)
    have hoff : b.off + 32 - (BLOCK_SIZE : Int) = b.off := by rw [hB]; norm_num
    refine ⟨by omega, _, repr_ledger _ _ f2, ⟨c, by rw [regions_hdrs]; exact hcmem,
      by rw [g3, hB]; rfl, g2, g4, by have := (ALIGN_ge n hn).1; omega, by omega⟩, ?_,
      by omega, ?_⟩
    · intro i hi
      rw [f5 _ (by omega)]
      simp only [memcpy]
      rw [if_pos (by omega)]
      have : b.off + 32 + (q + (i : Int) - q) = b.off + 32 + (i : Int) := by omega
      rw [this]
      exact e4 _ b (by simp) hb (by unfold inPayload; rw [hB]; push_cast; omega)
    · rw [regions_hdrs, hoff]
      simp

/-- C13: `_realloc` does not free on failure. If the call on a live pointer `d` returns null,
the block of `d` and every other allocated block are in the new ledger at the same offset,
with the same size, still allocated, with every byte of their payloads unchanged. -/
theorem C13_realloc_failure_keeps_blocks (enc : Block → Int → Nat) (h h1 : Heap) (d : Int)
    (n : Nat) (hr : Reachable enc h) (hd : Live h d)
    (hre : _realloc enc h (some d) n = some (h1, none)) :
    ∃ L L1, ledger h = some L ∧ ledger h1 = some L1 ∧
      (∃ r ∈ regions L, r.off = d - (BLOCK_SIZE : Int) ∧ r.free = false) ∧
      ∀ r ∈ regions L, r.free = false →
        r ∈ regions L1 ∧ ∀ a, inPayload r a → h1.data a = h.data a := by
  obtain ⟨l, hl⟩ := reachable_repr enc h hr
  obtain ⟨l2, b, l3, rfl, rfl, hb⟩ := live_split h l hl d hd
  have hB := BLOCK_SIZE_eq
  by_cases hsz : ALIGN n ≤ b.size
  · rw [realloc_inplace enc h l2 l3 b n hl hsz] at hre
    cases hre
  · obtain ⟨h2, l1, p, e1, e2, e3, e4, hcase⟩ :=
      realloc_grow enc h l2 l3 b n hl hb (by omega)
    rcases hcase with ⟨_, e5⟩ | ⟨q1, c, m2, m3, h3, _, e5, _⟩
    · rw [e5] at hre; cases hre
      refine ⟨_, _, repr_ledger h _ hl, repr_ledger _ _ e2,
        ⟨b, by rw [regions_hdrs]; simp, by rw [hB]; norm_num, hb⟩, ?_⟩
      intro r hr1 hr2
      rw [regions_hdrs] at hr1 ⊢
      exact ⟨mallocStep_alloc _ _ _ _ e3 r hr1 hr2, fun a ha => e4 a r hr1 hr2 ha⟩
    · rw [e5] at hre; cases hre

/-- C14: a shrink or equal-size request through `my_alloc` never fails. For a live pointer
`d` and `0 < nsize ≤ osize`, the call returns a non-null pointer; if moreover `osize` is at
most the size stored in the header of `d`, it returns `d` itself and the whole state is
unchanged. -/
theorem C14_shrink_never_fails (enc : Block → Int → Nat) (h : Heap) (d : Int)
    (osize nsize : Nat) (hr : Reachable enc h) (hd : Live h d) (h0 : 0 < nsize)
    (hle : nsize ≤ osize) :
    (∃ h1 q, my_alloc enc h (some d) osize nsize = some (h1, some q)) ∧
    (∀ s, stored_size h d = some s → osize ≤ s →
      my_alloc enc h (some d) osize nsize = some (h, some d)) := by
  obtain ⟨l, hl⟩ := reachable_repr enc h hr
  have hn : ¬ nsize = 0 := by omega
  constructor
  · obtain ⟨h1, l1, q, e1, _, _⟩ := realloc_spec enc h l hl (some d) nsize hd
    cases q with
    | none =>
      refine ⟨h1, d, ?_⟩
      simp [my_alloc, hn, e1, hle]
    | some q =>
      refine ⟨h1, q, ?_⟩
      simp [my_alloc, hn, e1]
  · intro s hs hos
    obtain ⟨l2, b, l3, rfl, rfl, hb⟩ := live_split h l hl d hd
    rw [stored_size_block h l2 l3 b hl] at hs
    cases hs
    obtain ⟨_, g2, g3, _⟩ := repr_geom h l2 l3 b hl
    have ha : ALIGN nsize ≤ b.size := by
      rw [ALIGN_eq]
      have : (nsize + 7) % 2 ^ 64 = nsize + 7 := Nat.mod_eq_of_lt (by omega)
      rw [this]; omega
    simp [my_alloc, hn, realloc_inplace enc h l2 l3 b nsize hl ha]

/-- C15: freed space is reusable. For a live pointer `d` whose header stores size `s`,
`_free` returns and afterwards `_malloc m` succeeds for every `m` with `ALIGN m ≤ s`; in
particular, if `d` is what `_malloc n` just returned, then after `_free` of `d` the call
`_malloc n` succeeds again. -/
theorem C15_freed_space_reusable (enc : Block → Int → Nat) (h : Heap) (d : Int) (s : Nat)
    (hr : Reachable enc h) (hd : Live h d) (hs : stored_size h d = some s) :
    ∃ h1, _free enc h (some d) = some h1 ∧
      (∀ m, ALIGN m ≤ s → ∃ h2 q, _malloc enc h1 m = some (h2, some q)) ∧
      (∀ h0 n, Reachable enc h0 → _malloc enc h0 n = some (h, some d) →
        ∃ h2 q, _malloc enc h1 n = some (h2, some q)) := by
  obtain ⟨l, hl⟩ := reachable_repr enc h hr
  obtain ⟨l2, b, l3, rfl, rfl, hb⟩ := live_split h l hl d hd
  rw [stored_size_block h l2 l3 b hl] at hs
  cases hs
  obtain ⟨h1, e1, e2, _⟩ := free_block enc h l2 l3 b hl
  have key : ∀ m, ALIGN m ≤ b.size → ∃ h2 q, _malloc enc h1 m = some (h2, some q) := by
    intro m hm
    obtain ⟨h2, l1, p, g1, _, g3, _⟩ := malloc_spec enc h1 _ m e2
    cases p with
    | some q => exact ⟨h2, q, g1⟩
    | none =>
      have hc := (chooseA_none_iff _ _).1 ((mallocStep_none_iff _ _ _ _ g3).1 rfl)
      obtain ⟨r1, f1, f2, f3⟩ := free_mem_coalesce (l2 ++ ⟨b.off, b.size, true⟩ :: l3)
        ⟨b.off, b.size, true⟩ (by simp) rfl
      have := hc r1 f1 f2
      simp only at f3
      omega
  refine ⟨h1, e1, key, ?_⟩
  intro h0 n hr0 hm
  obtain ⟨l0, hl0⟩ := reachable_repr enc h0 hr0
  obtain ⟨h2, l1, p, g1, g2, g3, _⟩ := malloc_spec enc h0 l0 n hl0
  rw [g1] at hm; cases hm
  obtain ⟨c, c1, c2, c3, c4⟩ := mallocStep_ptr _ _ _ _ g3
  obtain ⟨k2, k3, rfl⟩ := List.append_of_mem c1
  have hs1 := stored_size_block h k2 k3 c g2
  have hs2 := stored_size_block h l2 l3 b hl
  rw [← c3, hs2] at hs1
  simp only [Option.some.injEq] at hs1
  exact key n (by omega)

/-- C12, witness: in `demo6` the 64-byte block at pointer 144 is reallocated to 100 bytes
and moves to pointer 480. -/
theorem C12_realloc_growth_preserves_data_witness :
    Reachable enc0 demo6 ∧ Live demo6 144 ∧ stored_size demo6 144 = some 64 ∧
    100 ≤ 2 ^ 64 - 8 ∧ 64 < ALIGN 100 ∧
    _realloc enc0 demo6 (some 144) 100 = some (exec_realloc enc0 demo6 144 100, some 480) ∧
    ((480 : Int) ≠ 144 ∧ ∃ L1, ledger (exec_realloc enc0 demo6 144 100) = some L1 ∧
      (∃ c ∈ regions L1, (480 : Int) = c.off + (BLOCK_SIZE : Int) ∧ c.free = false ∧
        ALIGN 100 ≤ c.size ∧ 100 ≤ c.size ∧ 64 ≤ c.size) ∧
      (∀ i : Nat, i < 64 →
        (exec_realloc enc0 demo6 144 100).data (480 + (i : Int)) = demo6.data (144 + (i : Int))) ∧
      ((480 : Int) + ((64 : Nat) : Int) ≤ 144 ∨ (144 : Int) + ((64 : Nat) : Int) ≤ 480) ∧
      (⟨(144 : Int) - (BLOCK_SIZE : Int), 64, true⟩ : Region) ∈ regions L1) :=
  ⟨demo6_reachable, isLive_live demo6 144 (by decide), by decide, by norm_num, by decide,
    exec_realloc_eq _ _ _ _ _ (by decide),
    C12_realloc_growth_preserves_data enc0 demo6 (exec_realloc enc0 demo6 144 100) 144 480
      100 64 demo6_reachable (isLive_live demo6 144 (by decide)) (by decide) (by norm_num)
      (by decide) (exec_realloc_eq _ _ _ _ _ (by decide))⟩

/-- C13, witness: in the exhausted arena `demoFull`, growing the 40-byte block at pointer 32
to 100 bytes fails. -/
theorem C13_realloc_failure_keeps_blocks_witness :
    Reachable enc0 demoFull ∧ Live demoFull 32 ∧
    _realloc enc0 demoFull (some 32) 100 = some (exec_realloc enc0 demoFull 32 100, none) ∧
    ∃ L L1, ledger demoFull = some L ∧ ledger (exec_realloc enc0 demoFull 32 100) = some L1 ∧
      (∃ r ∈ regions L, r.off = (32 : Int) - (BLOCK_SIZE : Int) ∧ r.free = false) ∧
      ∀ r ∈ regions L, r.free = false →
        r ∈ regions L1 ∧
          ∀ a, inPayload r a → (exec_realloc enc0 demoFull 32 100).data a = demoFull.data a :=
  ⟨demoFull_reachable, isLive_live demoFull 32 (by decide),
    exec_realloc_eq _ _ _ _ _ (by decide),
    C13_realloc_failure_keeps_blocks enc0 demoFull (exec_realloc enc0 demoFull 32 100) 32 100
      demoFull_reachable (isLive_live demoFull 32 (by decide))
      (exec_realloc_eq _ _ _ _ _ (by decide))⟩

/-- C14, witness: in the exhausted arena `demoFull`, the 40-byte block at pointer 32 is
shrunk to 30 bytes. -/
theorem C14_shrink_never_fails_witness :
    Reachable enc0 demoFull ∧ Live demoFull 32 ∧ 0 < 30 ∧ 30 ≤ 40 ∧
    ((∃ h1 q, my_alloc enc0 demoFull (some 32) 40 30 = some (h1, some q)) ∧
    (∀ s, stored_size demoFull 32 = some s → 40 ≤ s →
      my_alloc enc0 demoFull (some 32) 40 30 = some (demoFull, some 32))) :=
  ⟨demoFull_reachable, isLive_live demoFull 32 (by decide), by norm_num, by norm_num,
    C14_shrink_never_fails enc0 demoFull 32 40 30 demoFull_reachable
      (isLive_live demoFull 32 (by decide)) (by norm_num) (by norm_num)⟩

/-- C15, witness: the arena `demoFull` is exhausted (`_malloc(40)` returns null); once the
40-byte block at pointer 32 is freed, requests that fit in it succeed. -/
theorem C15_freed_space_reusable_witness :
    (_malloc enc0 demoFull 40).map Prod.snd = some none ∧
    Reachable enc0 demoFull ∧ Live demoFull 32 ∧ stored_size demoFull 32 = some 40 ∧
    ∃ h1, _free enc0 demoFull (some 32) = some h1 ∧
      (∀ m, ALIGN m ≤ 40 → ∃ h2 q, _malloc enc0 h1 m = some (h2, some q)) ∧
      (∀ h0 n, Reachable enc0 h0 → _malloc enc0 h0 n = some (demoFull, some 32) →
        ∃ h2 q, _malloc enc0 h1 n = some (h2, some q)) :=
  ⟨by decide, demoFull_reachable, isLive_live demoFull 32 (by decide), by decide,
    C15_freed_space_reusable enc0 demoFull 32 40 demoFull_reachable
      (isLive_live demoFull 32 (by decide)) (by decide)⟩

/-- C16, at the failing input: on the initial ledger `my_alloc(ud, NULL, 0, 2 ^ 64 - 1)`
goes through `_realloc` to `_malloc`, where `ALIGN` rounds the request to 0; the call returns
the non-null pointer at offset 32, whose block (offset 0, allocated) has stored size 0, less
than the requested size. -/
theorem C16_wrapped_request_through_my_alloc :
    ALIGN (2 ^ 64 - 1) = 0 ∧
    (my_alloc enc0 (MEM_init enc0 zeroHeap) none 0 (2 ^ 64 - 1)).map Prod.snd
      = some (some 32) ∧
    ((my_alloc enc0 (MEM_init enc0 zeroHeap) none 0 (2 ^ 64 - 1)).bind
      fun r => stored_size r.1 32) = some 0 ∧
    ((my_alloc enc0 (MEM_init enc0 zeroHeap) none 0 (2 ^ 64 - 1)).bind
      fun r => ledger r.1).map regions = some [⟨0, 0, false⟩, ⟨32, 31457216, true⟩] := by
  refine ⟨by decide, by decide, by decide, by decide⟩

/-- C20, at the failing input: the pointer 8 bytes into the arena passes the validation of
`_free` (it is inside the arena and aligned), yet the header `_free` then writes to is at
offset `8 - BLOCK_SIZE = -24`, below the first byte of the arena; so does every accepted
pointer below offset `BLOCK_SIZE`. -/
theorem C20_free_header_below_arena :
    ptr_in_pool 8 = true ∧ block_of 8 = -24 ∧ block_of 8 < 0 ∧
    (∀ d : Int, ptr_in_pool d = true → d < (BLOCK_SIZE : Int) → block_of d < 0) ∧
    (∀ d : Int, ptr_in_pool d = true → block_of d + (BLOCK_SIZE : Int) ≤ (MEMORY_SIZE : Int)) := by
  refine ⟨by decide, by decide, by decide, ?_, ?_⟩
  · intro d _ hd
    unfold block_of
    omega
  · intro d hd
    have := (ptr_in_pool_iff d).1 hd
    unfold block_of
    rw [MEMORY_SIZE_eq]
    omega

/-! ### What coalescing does to a ledger -/

theorem tile_coalesce (s t : Int) (l : List Region) (h : Tile s l t) :
    Tile s (coalesce l) t := by
  induction l generalizing s with
  | nil => exact h
  | cons a l ih =>
    rw [tile_cons] at h
    obtain ⟨h1, h3⟩ := h
    have := ih _ h3
    rw [coalesce_cons]
    cases hc : coalesce l with
    | nil =>
      rw [hc] at this
      simp only
      rw [tile_cons]
      exact ⟨h1, this⟩
    | cons b l1 =>
      rw [hc, tile_cons] at this
      obtain ⟨g1, g3⟩ := this
      by_cases hf : (a.free && b.free) = true
      · simp only [hf, if_true]
        rw [tile_cons]
        refine ⟨h1, ?_⟩
        have e : s + 32 + ((a.size + 32 + b.size : Nat) : Int)
            = s + 32 + (a.size : Int) + 32 + (b.size : Int) := by push_cast; omega
        simp only
        rw [e]; exact g3
      · simp only [hf, Bool.false_eq_true, if_false]
        rw [tile_cons, tile_cons]
        exact ⟨h1, g1, g3⟩

theorem noAdjFree_cons_cons (a b : Region) (l : List Region) :
    NoAdjFree (a :: b :: l) ↔ ¬ (a.free = true ∧ b.free = true) ∧ NoAdjFree (b :: l) := Iff.rfl

theorem noAdjFree_single (a : Region) : NoAdjFree [a] := trivial

theorem noAdjFree_coalesce (l : List Region) : NoAdjFree (coalesce l) := by
  induction l with
  | nil => trivial
  | cons a l ih =>
    rw [coalesce_cons]
    cases hc : coalesce l with
    | nil => trivial
    | cons b l1 =>
      rw [hc] at ih
      by_cases hf : (a.free && b.free) = true
      · simp only [hf, if_true]
        simp only [Bool.and_eq_true] at hf
        cases l1 with
        | nil => trivial
        | cons c l1 =>
          rw [noAdjFree_cons_cons] at ih ⊢
          refine ⟨?_, ih.2⟩
          intro hx
          exact ih.1 ⟨hf.2, hx.2⟩
      · simp only [hf, Bool.false_eq_true, if_false]
        rw [noAdjFree_cons_cons]
        exact ⟨by simpa using hf, ih⟩

theorem coalesce_of_noAdjFree (l : List Region) (h : NoAdjFree l) : coalesce l = l := by
  induction l with
  | nil => rfl
  | cons a l ih =>
    cases l with
    | nil => rfl
    | cons b l =>
      rw [noAdjFree_cons_cons] at h
      rw [coalesce_skip a b l h.1, ih h.2]

theorem coalesce_alloc_cons (a : Region) (l : List Region) (ha : a.free = false) :
    coalesce (a :: l) = a :: coalesce l := by
  cases l with
  | nil => rfl
  | cons b l => exact coalesce_skip a b l (by simp [ha])

theorem coalesce_run_eq (run : List Region) :
    ∀ (a : Region) (rest : List Region), a.free = true → (∀ r ∈ run, r.free = true) →
    (∀ c ∈ rest.head?, c.free = false) →
    coalesce (a :: run ++ rest) =
      ⟨a.off, a.size + (run.map fun r => r.size).sum + run.length * BLOCK_SIZE, true⟩ ::
        coalesce rest := by
  induction run with
  | nil =>
    intro a rest ha _ hrest
    have ea : (⟨a.off, a.size + ([].map fun r : Region => r.size).sum +
        ([] : List Region).length * BLOCK_SIZE, true⟩ : Region) = a := by
      cases a
      simp only at ha
      simp [ha]
    rw [ea]
    cases rest with
    | nil => rfl
    | cons c rest =>
      have hc := hrest c (by simp)
      exact coalesce_skip a c rest (by simp [hc])
  | cons b run ih =>
    intro a rest ha hrun hrest
    have hb := hrun b (by simp)
    have := ih ⟨a.off, a.size + 32 + b.size, true⟩ rest rfl
      (fun r hr => hrun r (List.mem_cons_of_mem _ hr)) hrest
    rw [List.cons_append] at this
    rw [List.cons_append, List.cons_append, coalesce_merge a b _ ha hb, this]
    congr 2
    simp only [List.map_cons, List.sum_cons, List.length_cons, BLOCK_SIZE_eq]
    omega

theorem merged_coalesce_aux (n : Nat) :
    ∀ l : List Region, l.length ≤ n → Merged l (coalesce l) := by
  induction n with
  | zero =>
    intro l hl
    have : l = [] := List.length_eq_zero.1 (by omega)
    subst this
    exact Merged.nil
  | succ n ih =>
    intro l hl
    cases l with
    | nil => exact Merged.nil
    | cons a l =>
      simp only [List.length_cons, Nat.add_le_add_iff_right] at hl
      cases ha : a.free with
      | false =>
        rw [coalesce_alloc_cons a l ha]
        exact Merged.alloc a l _ ha (ih l hl)
      | true =>
        have hsplit := List.takeWhile_append_dropWhile (fun r : Region => r.free) l
        have hrun : ∀ r ∈ l.takeWhile (fun r : Region => r.free), r.free = true :=
          fun r hr => List.mem_takeWhile_imp hr
        have hrest : ∀ c ∈ (l.dropWhile (fun r : Region => r.free)).head?, c.free = false := by
          intro c hc
          have := List.head?_dropWhile_not (fun r : Region => r.free) l
          rw [Option.mem_def] at hc
          rw [hc] at this
          simpa using this
        have hlen : (l.dropWhile (fun r : Region => r.free)).length ≤ n :=
          le_trans (List.dropWhile_sublist _).length_le hl
        have key := Merged.run a _ _ _ ha hrun hrest (ih _ hlen)
        rw [← coalesce_run_eq _ a _ ha hrun hrest] at key
        rw [List.cons_append, hsplit] at key
        exact key

theorem merged_coalesce (l : List Region) : Merged l (coalesce l) :=
  merged_coalesce_aux l.length l (le_refl _)

theorem sum_coalesce (l : List Region) :
    ((coalesce l).map fun r => r.size + BLOCK_SIZE).sum =
      (l.map fun r => r.size + BLOCK_SIZE).sum := by
  rw [BLOCK_SIZE_eq]
  induction l with
  | nil => rfl
  | cons a l ih =>
    rw [coalesce_cons]
    cases hc : coalesce l with
    | nil =>
      rw [hc] at ih
      simp only [List.map_cons, List.sum_cons, ← ih]
    | cons b l1 =>
      rw [hc] at ih
      by_cases hf : (a.free && b.free) = true
      · simp only [hf, if_true, List.map_cons, List.sum_cons, ← ih]
        omega
      · simp only [hf, Bool.false_eq_true, if_false, List.map_cons, List.sum_cons, ← ih]

theorem filter_alloc_coalesce (l : List Region) :
    (coalesce l).filter (fun r => !r.free) = l.filter (fun r => !r.free) := by
  induction l with
  | nil => rfl
  | cons a l ih =>
    rw [coalesce_cons]
    cases hc : coalesce l with
    | nil =>
      rw [hc] at ih
      simp only [List.filter_cons, ← ih]
    | cons b l1 =>
      rw [hc] at ih
      by_cases hf : (a.free && b.free) = true
      · simp only [hf, if_true]
        simp only [Bool.and_eq_true] at hf
        simp only [List.filter_cons, hf.1, hf.2, Bool.not_true, Bool.false_eq_true,
          if_false] at ih ⊢
        exact ih
      · simp only [hf, Bool.false_eq_true, if_false]
        rw [List.filter_cons, ih, List.filter_cons]

/-! ### From a ledger with chain integrity back to the heap -/

theorem regions_cons (ob : Int × Block) (L : List (Int × Block)) :
    regions (ob :: L) = ⟨ob.1, ob.2.size, ob.2.is_free⟩ :: regions L := rfl

theorem walk_sound (h : Heap) (fuel : Nat) :
    ∀ (cur : Option Int) (L : List (Int × Block)), walk h fuel cur = some L →
      (∀ ob ∈ L, h.hdr ob.1 = some ob.2) ∧ cur = L.head?.map Prod.fst := by
  induction fuel with
  | zero =>
    intro cur L hw
    cases cur with
    | none => simp [walk] at hw; subst hw; simp
    | some c => simp [walk] at hw
  | succ fuel ih =>
    intro cur L hw
    cases cur with
    | none => simp [walk] at hw; subst hw; simp
    | some c =>
      simp only [walk] at hw
      cases hb : h.hdr c with
      | none => rw [hb] at hw; cases hw
      | some b =>
        rw [hb] at hw
        simp only at hw
        cases hrest : walk h fuel b.next with
        | none => rw [hrest] at hw; cases hw
        | some rest =>
          rw [hrest] at hw
          simp only [Option.some.injEq] at hw
          subst hw
          obtain ⟨g1, _⟩ := ih _ _ hrest
          refine ⟨?_, by simp⟩
          intro ob hob
          rcases List.mem_cons.1 hob with rfl | hob
          · exact hb
          · exact g1 ob hob

theorem linked_hdrs_eq (L : List (Int × Block)) :
    ∀ p, Linked p L → hdrs p (regions L) none = L := by
  induction L with
  | nil => intro p _; rfl
  | cons ob rest ih =>
    intro p hl
    obtain ⟨o, b⟩ := ob
    obtain ⟨bs, bf, bn, bp⟩ := b
    cases rest with
    | nil =>
      simp only [Linked] at hl
      obtain ⟨h1, h2, _⟩ := hl
      subst h1 h2
      rfl
    | cons ob2 rest =>
      simp only [Linked] at hl
      obtain ⟨h1, h2, _, h4⟩ := hl
      subst h1 h2
      have := ih _ h4
      rw [regions_cons, hdrs_cons, this]
      rfl

theorem linked_tile (L : List (Int × Block)) :
    ∀ p ob rest, L = ob :: rest → Linked p L → Tile ob.1 (regions L) (MEMORY_SIZE : Int) := by
  induction L with
  | nil => intro p ob rest e; cases e
  | cons ob0 rest0 ih =>
    intro p ob rest e hl
    cases e
    have hB := BLOCK_SIZE_eq
    cases rest0 with
    | nil =>
      simp only [Linked] at hl
      rw [regions_cons, tile_cons]
      refine ⟨rfl, ?_⟩
      show Tile _ [] _
      rw [tile_nil]
      have := hl.2.2
      rw [hB] at this
      exact this
    | cons ob2 rest =>
      simp only [Linked] at hl
      obtain ⟨_, _, h3, h4⟩ := hl
      have := ih (some ob0.1) ob2 rest rfl h4
      rw [regions_cons, tile_cons]
      refine ⟨rfl, ?_⟩
      rw [hB] at h3
      simp only [Nat.cast_ofNat] at h3
      rw [← h3]
      exact this

/-- A heap whose ledger has chain integrity stores that ledger as a chain that tiles the
arena. -/
theorem chain_of_integrity (h : Heap) (L : List (Int × Block)) (hL : ledger h = some L)
    (hci : ChainIntegrity L) :
    Tile 0 (regions L) (MEMORY_SIZE : Int) ∧ Chain h none (regions L) none ∧
      h.free_list = headOff (regions L) none ∧ hdrs none (regions L) none = L := by
  obtain ⟨⟨b, rest, e⟩, hl, _, _⟩ := hci
  obtain ⟨g1, g2⟩ := walk_sound h _ _ _ hL
  have he := linked_hdrs_eq L none hl
  refine ⟨?_, ?_, ?_, he⟩
  · have := linked_tile L none (0, b) rest e hl
    exact this
  · intro ob hob
    rw [he] at hob
    exact g1 ob hob
  · rw [g2, e]
    rfl

theorem headOff_coalesce (l : List Region) (e : Option Int) :
    headOff (coalesce l) e = headOff l e := by
  cases l with
  | nil => rfl
  | cons a l =>
    obtain ⟨s, l1, h, _⟩ := coalesce_head a l
    rw [h]; rfl

theorem sum_regions (L : List (Int × Block)) :
    (L.map fun ob => ob.2.size + BLOCK_SIZE).sum =
      ((regions L).map fun r => r.size + BLOCK_SIZE).sum := by
  induction L with
  | nil => rfl
  | cons ob L ih =>
    rw [regions_cons]
    simp only [List.map_cons, List.sum_cons, ih]

/-- `delayed_merge` on a heap that stores a chain tiling the arena. -/
theorem merge_chain_spec (enc : Block → Int → Nat) (h : Heap) (l : List Region)
    (ht : Tile 0 l (MEMORY_SIZE : Int)) (hc : Chain h none l none)
    (hf : h.free_list = headOff l none) :
    ∃ h1, delayed_merge enc h = some h1 ∧ Tile 0 (coalesce l) (MEMORY_SIZE : Int) ∧
      Chain h1 none (coalesce l) none ∧ h1.free_list = headOff (coalesce l) none ∧
      ledger h1 = some (hdrs none (coalesce l) none) := by
  have hM := MEMORY_SIZE_eq
  have hlen : l.length ≤ MEMORY_SIZE := by
    have := tile_le _ _ _ ht
    omega
  obtain ⟨h1, e1, e2, e3, _, _⟩ := merge_loop_tile enc MEMORY_SIZE h [] l
    (by simpa using ht) (by simpa using hc) hlen
  have ht1 := tile_coalesce _ _ _ ht
  have hlen1 : (coalesce l).length ≤ MEMORY_SIZE := by
    have := tile_le _ _ _ ht1
    omega
  have hc1 : Chain h1 none (coalesce l) none := by simpa using e2
  have hf1 : h1.free_list = headOff (coalesce l) none := by
    rw [e3, hf, headOff_coalesce]
  refine ⟨h1, by rw [delayed_merge, hf]; exact e1, ht1, hc1, hf1, ?_⟩
  rw [ledger, hf1]
  exact walk_chain h1 none _ _ hc1 hlen1

theorem repr_chain_integrity (h : Heap) (l : List Region) (hr : Repr h l) :
    ChainIntegrity (hdrs none l none) := by
  refine ⟨?_, linked_hdrs 0 none l hr.adj,
    mutual_hdrs 0 _ none none l hr.adj (by simp) (by simp), ?_⟩
  · cases l with
    | nil =>
      have := hr.adj
      simp [adj_nil, MEMORY_SIZE_eq] at this
    | cons r l =>
      have := ((adj_cons _ _ _ _).1 hr.adj).1
      exact ⟨_, _, by rw [hdrs_cons, this]⟩
  · have := sum_hdrs 0 _ none none l hr.adj
    omega

theorem ledger_chain_integrity (enc : Block → Int → Nat) (h : Heap) (L : List (Int × Block))
    (hr : Reachable enc h) (hL : ledger h = some L) : ChainIntegrity L := by
  obtain ⟨l, hl⟩ := reachable_repr enc h hr
  have := repr_chain_integrity h l hl
  rw [repr_ledger h l hl] at hL
  cases hL
  exact this

theorem demoRuns_reachable : Reachable enc0 demoRuns := by
  unfold demoRuns
  have hn : ∀ n, n < 100000000 → n < SIZE_MOD := by
    intro n hn; rw [SIZE_MOD_eq]; omega
  refine reachable_exec_free _ _ _ (reachable_exec_free _ _ _ (reachable_exec_free _ _ _
    (reachable_exec_free _ _ _ (reachable_exec_free _ _ _ ?_ (by decide)) (by decide))
    (by decide)) (by decide)) (by decide)
  exact reachable_exec_malloc _ _ _ (reachable_exec_malloc _ _ _ (reachable_exec_malloc _ _ _
    (reachable_exec_malloc _ _ _ (reachable_exec_malloc _ _ _ (reachable_exec_malloc _ _ _
    (reachable_exec_malloc _ _ _ (reachable_exec_malloc _ _ _ Reachable.init
    (hn _ (by norm_num))) (hn _ (by norm_num))) (hn _ (by norm_num))) (hn _ (by norm_num)))
    (hn _ (by norm_num))) (hn _ (by norm_num))) (hn _ (by norm_num))) (hn _ (by norm_num))

/-- C17: the coalescer collapses every run of adjacent free blocks. On a heap whose ledger
`L` has chain integrity, `delayed_merge` returns, and in the new ledger `L1` no block and its
successor are both free; `L1` is `L` with every maximal run of free blocks replaced by one
free block at the run's first offset whose size is the sum of the run's sizes plus
`BLOCK_SIZE` for each block but the first (`Merged`), the allocated blocks being kept with
their offset and size, in the same order; the sum of `size + BLOCK_SIZE` is unchanged. A
ledger without adjacent free blocks is returned unchanged, and a second pass changes
nothing. -/
theorem C17_coalescer_merges_runs (enc : Block → Int → Nat) (h : Heap)
    (L : List (Int × Block)) (hL : ledger h = some L) (hci : ChainIntegrity L) :
    ∃ h1 L1, delayed_merge enc h = some h1 ∧ ledger h1 = some L1 ∧
      regions L1 = coalesce (regions L) ∧
      NoAdjFree (regions L1) ∧ Merged (regions L) (regions L1) ∧
      (regions L1).filter (fun r => !r.free) = (regions L).filter (fun r => !r.free) ∧
      (L1.map fun ob => ob.2.size + BLOCK_SIZE).sum =
        (L.map fun ob => ob.2.size + BLOCK_SIZE).sum ∧
      (NoAdjFree (regions L) → L1 = L) ∧
      (∃ h2, delayed_merge enc h1 = some h2 ∧ ledger h2 = some L1) := by
  obtain ⟨ht, hc, hf, he⟩ := chain_of_integrity h L hL hci
  obtain ⟨h1, e1, e2, e3, e4, e5⟩ := merge_chain_spec enc h _ ht hc hf
  have hreg : regions (hdrs none (coalesce (regions L)) none) = coalesce (regions L) :=
    regions_hdrs _ _ _
  refine ⟨h1, _, e1, e5, hreg, ?_, ?_, ?_, ?_, ?_, ?_⟩
  · rw [hreg]; exact noAdjFree_coalesce _
  · rw [hreg]; exact merged_coalesce _
  · rw [hreg]; exact filter_alloc_coalesce _
  · rw [sum_regions, sum_regions L, hreg, sum_coalesce]
  · intro hn
    rw [coalesce_of_noAdjFree _ hn, he]
  · obtain ⟨h2, g1, _, _, _, g5⟩ := merge_chain_spec enc h1 _ e2 e3 e4
    refine ⟨h2, g1, ?_⟩
    rw [g5, coalesce_of_noAdjFree _ (noAdjFree_coalesce _)]

/-- C17, witness: the heap `demoRuns`, whose free blocks form a run of three and a run of two
40-byte blocks; they merge into blocks of 184 and 112 bytes. -/
theorem C17_coalescer_merges_runs_witness :
    ((delayed_merge enc0 demoRuns).bind ledger).map regions =
      some [⟨0, 184, true⟩, ⟨216, 8, false⟩, ⟨256, 112, true⟩, ⟨400, 8, false⟩,
        ⟨440, 31456808, false⟩] ∧
    ledger demoRuns = some ((ledger demoRuns).getD []) ∧
    ChainIntegrity ((ledger demoRuns).getD []) ∧
    ∃ h1 L1, delayed_merge enc0 demoRuns = some h1 ∧ ledger h1 = some L1 ∧
      regions L1 = coalesce (regions ((ledger demoRuns).getD [])) ∧
      NoAdjFree (regions L1) ∧ Merged (regions ((ledger demoRuns).getD [])) (regions L1) ∧
      (regions L1).filter (fun r => !r.free) =
        (regions ((ledger demoRuns).getD [])).filter (fun r => !r.free) ∧
      (L1.map fun ob => ob.2.size + BLOCK_SIZE).sum =
        (((ledger demoRuns).getD []).map fun ob => ob.2.size + BLOCK_SIZE).sum ∧
      (NoAdjFree (regions ((ledger demoRuns).getD [])) → L1 = (ledger demoRuns).getD []) ∧
      (∃ h2, delayed_merge enc0 h1 = some h2 ∧ ledger h2 = some L1) :=
  ⟨by decide, by decide, ledger_chain_integrity enc0 demoRuns _ demoRuns_reachable (by decide),
    C17_coalescer_merges_runs enc0 demoRuns _ (by decide)
      (ledger_chain_integrity enc0 demoRuns _ demoRuns_reachable (by decide))⟩

/-! ### The fallback path of `_malloc` -/

theorem noAdjFree_cons (x : Region) (l : List Region) :
    NoAdjFree (x :: l) ↔
      (∀ y ∈ l.head?, ¬ (x.free = true ∧ y.free = true)) ∧ NoAdjFree l := by
  cases l with
  | nil => simp [NoAdjFree]
  | cons y l => simp [noAdjFree_cons_cons]

theorem noAdjFree_suffix (l2 l : List Region) (h : NoAdjFree (l2 ++ l)) : NoAdjFree l := by
  induction l2 with
  | nil => exact h
  | cons x l2 ih =>
    rw [List.cons_append, noAdjFree_cons] at h
    exact ih h.2

theorem noAdjFree_replace (l2 : List Region) (b c : Region) (l3 t : List Region)
    (h : NoAdjFree (l2 ++ b :: l3)) (hc : NoAdjFree (c :: t)) (hcf : c.free = false) :
    NoAdjFree (l2 ++ c :: t) := by
  induction l2 with
  | nil => exact hc
  | cons x l2 ih =>
    rw [List.cons_append, noAdjFree_cons] at h ⊢
    refine ⟨?_, ih h.2⟩
    cases l2 with
    | nil =>
      intro y hy
      simp only [List.nil_append, List.head?_cons, Option.mem_def, Option.some.injEq] at hy
      subst hy
      simp [hcf]
    | cons z l2 =>
      intro y hy
      exact h.1 y hy

theorem noAdjFree_take (size : Nat) (b : Region) (l2 l3 : List Region)
    (h : NoAdjFree (l2 ++ b :: l3)) (hb : b.free = true) :
    NoAdjFree (l2 ++ takeA size b ++ l3) := by
  have hs := noAdjFree_suffix l2 _ h
  rw [noAdjFree_cons] at hs
  have hnext : ∀ y ∈ l3.head?, y.free = false := by
    intro y hy
    have := hs.1 y hy
    simpa [hb] using this
  rw [List.append_assoc]
  unfold takeA
  split
  · simp only [List.cons_append, List.nil_append]
    refine noAdjFree_replace l2 b _ l3 _ h ?_ rfl
    rw [noAdjFree_cons, noAdjFree_cons]
    refine ⟨by simp, ?_, hs.2⟩
    intro y hy
    simp [hnext y hy]
  · simp only [List.cons_append, List.nil_append]
    refine noAdjFree_replace l2 b _ l3 _ h ?_ rfl
    rw [noAdjFree_cons]
    exact ⟨by simp, hs.2⟩

/-- C18: the fallback path is coalesce-then-first-fit. In a reachable state where no free
block has size at least `ALIGN n` (`n ≤ 2 ^ 64 - 8`), `_malloc n` works on the coalesced
ledger (every maximal run of free blocks merged into one): when it fails the new ledger is the
coalesced one; when it succeeds the chosen block is the free block of the coalesced ledger
with `ALIGN n ≤ size` at the lowest address, and the new ledger is the coalesced one with that
block replaced by `takeA (ALIGN n) b`. In both cases the new ledger has no two adjacent free
blocks. -/
theorem C18_fallback_first_fit (enc : Block → Int → Nat) (h : Heap) (n : Nat)
    (L : List (Int × Block)) (hr : Reachable enc h) (hL : ledger h = some L)
    (hn : n ≤ 2 ^ 64 - 8) (hnofit : ∀ r ∈ regions L, r.free = true → r.size < ALIGN n) :
    n ≤ ALIGN n ∧ Merged (regions L) (coalesce (regions L)) ∧
    ∃ h1 p L1, _malloc enc h n = some (h1, p) ∧ ledger h1 = some L1 ∧
      NoAdjFree (regions L1) ∧
      (p = none → regions L1 = coalesce (regions L) ∧
        ∀ r ∈ coalesce (regions L), r.free = true → r.size < ALIGN n) ∧
      (∀ q, p = some q → ∃ l2 b l3, coalesce (regions L) = l2 ++ b :: l3 ∧
        q = b.off + (BLOCK_SIZE : Int) ∧ b.free = true ∧ ALIGN n ≤ b.size ∧
        (∀ r ∈ coalesce (regions L), r.free = true → ALIGN n ≤ r.size → b.off ≤ r.off) ∧
        regions L1 = l2 ++ takeA (ALIGN n) b ++ l3) := by
  obtain ⟨l, hl⟩ := reachable_repr enc h hr
  have hreg := ledger_repr h l hl L hL
  rw [hreg] at hnofit ⊢
  obtain ⟨h1, l1, p, e1, e2, e3, _⟩ := malloc_spec enc h l n hl
  have hany : ¬ l.any (fits (ALIGN n)) = true := by
    simp only [List.any_eq_true, not_exists, not_and]
    intro r hr1 hfit
    simp only [fits, Bool.and_eq_true, decide_eq_true_eq] at hfit
    have := hnofit r hr1 hfit.1
    omega
  have hsl : searchLedger (ALIGN n) l = coalesce l := by
    unfold searchLedger; rw [if_neg hany]
  have hch : chooseA (ALIGN n) l = (coalesce l).find? (fits (ALIGN n)) := by
    unfold chooseA; rw [if_neg hany]
  refine ⟨(ALIGN_ge n hn).1, merged_coalesce l, h1, p, _, e1, repr_ledger _ _ e2, ?_, ?_, ?_⟩
  · rw [regions_hdrs]
    unfold MallocStep at e3
    cases hc : chooseA (ALIGN n) l with
    | none =>
      rw [hc] at e3
      rw [e3.1, hsl]
      exact noAdjFree_coalesce l
    | some b =>
      rw [hc, hsl] at e3
      obtain ⟨l2, l3, d1, d2, _⟩ := e3
      have hb := chooseA_fits _ _ _ hc
      simp only [fits, Bool.and_eq_true] at hb
      rw [d2]
      exact noAdjFree_take _ b l2 l3 (by rw [← d1]; exact noAdjFree_coalesce l) hb.1
  · intro hp
    have hc := (mallocStep_none_iff _ _ _ _ e3).1 hp
    unfold MallocStep at e3
    rw [hc] at e3
    rw [regions_hdrs, e3.1, hsl]
    exact ⟨rfl, (chooseA_none_iff _ _).1 hc⟩
  · intro q hq
    unfold MallocStep at e3
    cases hc : chooseA (ALIGN n) l with
    | none =>
      rw [hc] at e3
      rw [e3.2] at hq; cases hq
    | some b =>
      rw [hc, hsl] at e3
      obtain ⟨l2, l3, d1, d2, d3⟩ := e3
      rw [hq] at d3
      simp only [Option.some.injEq] at d3
      have hb := chooseA_fits _ _ _ hc
      simp only [fits, Bool.and_eq_true, decide_eq_true_eq] at hb
      refine ⟨l2, b, l3, d1, d3, hb.1, hb.2, ?_, by rw [regions_hdrs, d2]⟩
      intro r hr1 hr2 hr3
      rw [hch] at hc
      obtain ⟨_, a1, a2, ea, hpre⟩ := List.find?_eq_some.1 hc
      have hadj := adj_coalesce _ _ _ hl.adj
      rw [ea] at hr1 hadj
      rw [adj_append_cons] at hadj
      simp only [List.mem_append, List.mem_cons] at hr1
      rcases hr1 with hr1 | rfl | hr1
      · have := hpre r hr1
        simp [fits, hr2, hr3] at this
      · exact le_refl _
      · have := adj_mem _ _ _ hadj.2.2 r hr1
        omega

/-- C18, witness: in `demoRuns` no free block holds 100 bytes; the call coalesces the ledger
into free blocks of 184 and 112 bytes and takes the first one (pointer 32), although the
second is the smaller fit. -/
theorem C18_fallback_first_fit_witness :
    (ledger demoRuns).map regions =
      some [⟨0, 40, true⟩, ⟨72, 40, true⟩, ⟨144, 40, true⟩, ⟨216, 8, false⟩, ⟨256, 40, true⟩,
        ⟨328, 40, true⟩, ⟨400, 8, false⟩, ⟨440, 31456808, false⟩] ∧
    (_malloc enc0 demoRuns 100).map Prod.snd = some (some 32) ∧
    (ledger (exec_malloc enc0 demoRuns 100)).map regions =
      some [⟨0, 104, false⟩, ⟨136, 48, true⟩, ⟨216, 8, false⟩, ⟨256, 112, true⟩,
        ⟨400, 8, false⟩, ⟨440, 31456808, false⟩] ∧
    Reachable enc0 demoRuns ∧ ledger demoRuns = some ((ledger demoRuns).getD []) ∧
    100 ≤ 2 ^ 64 - 8 ∧
    (∀ r ∈ regions ((ledger demoRuns).getD []), r.free = true → r.size < ALIGN 100) ∧
    (100 ≤ ALIGN 100 ∧
    Merged (regions ((ledger demoRuns).getD []))
      (coalesce (regions ((ledger demoRuns).getD []))) ∧
    ∃ h1 p L1, _malloc enc0 demoRuns 100 = some (h1, p) ∧ ledger h1 = some L1 ∧
      NoAdjFree (regions L1) ∧
      (p = none → regions L1 = coalesce (regions ((ledger demoRuns).getD [])) ∧
        ∀ r ∈ coalesce (regions ((ledger demoRuns).getD [])),
          r.free = true → r.size < ALIGN 100) ∧
      (∀ q, p = some q → ∃ l2 b l3,
        coalesce (regions ((ledger demoRuns).getD [])) = l2 ++ b :: l3 ∧
        q = b.off + (BLOCK_SIZE : Int) ∧ b.free = true ∧ ALIGN 100 ≤ b.size ∧
        (∀ r ∈ coalesce (regions ((ledger demoRuns).getD [])),
          r.free = true → ALIGN 100 ≤ r.size → b.off ≤ r.off) ∧
        regions L1 = l2 ++ takeA (ALIGN 100) b ++ l3)) :=
  ⟨by decide, by decide, by decide, demoRuns_reachable, by decide, by norm_num, by decide,
    C18_fallback_first_fit enc0 demoRuns 100 _ demoRuns_reachable (by decide) (by norm_num)
      (by decide)⟩

/-! ### The free footprint -/

theorem freeFootprint_nil : freeFootprint [] = 0 := rfl

theorem freeFootprint_cons (a : Region) (l : List Region) :
    freeFootprint (a :: l) = (if a.free then a.size + 32 else 0) + freeFootprint l := by
  unfold freeFootprint
  rw [BLOCK_SIZE_eq]
  cases ha : a.free <;> simp [List.filter_cons, ha]

theorem freeFootprint_append (l1 l2 : List Region) :
    freeFootprint (l1 ++ l2) = freeFootprint l1 + freeFootprint l2 := by
  induction l1 with
  | nil => simp [freeFootprint_nil]
  | cons a l1 ih => rw [List.cons_append, freeFootprint_cons, freeFootprint_cons, ih]; omega

theorem freeFootprint_coalesce (l : List Region) :
    freeFootprint (coalesce l) = freeFootprint l := by
  induction l with
  | nil => rfl
  | cons a l ih =>
    rw [coalesce_cons, freeFootprint_cons, ← ih]
    cases hc : coalesce l with
    | nil => simp [freeFootprint_cons, freeFootprint_nil]
    | cons b l1 =>
      by_cases hf : (a.free && b.free) = true
      · simp only [hf, if_true]
        simp only [Bool.and_eq_true] at hf
        simp only [freeFootprint_cons, hf.1, hf.2, if_true]
        omega
      · simp only [hf, Bool.false_eq_true, if_false]
        rw [freeFootprint_cons]

theorem freeFootprint_take (size : Nat) (b : Region) (hb : b.free = true) :
    freeFootprint (takeA size b) + 32 ≤ b.size + 32 ∧
      freeFootprint (takeA size b) + 32 ≤ freeFootprint [b] := by
  have hB := BLOCK_SIZE_eq
  have hM := MIN_BLOCK_SIZE_eq
  have e : freeFootprint [b] = b.size + 32 := by
    rw [freeFootprint_cons, freeFootprint_nil, hb]; simp
  rw [e]
  unfold takeA
  split
  · simp only [freeFootprint_cons, freeFootprint_nil, Bool.false_eq_true, if_false, if_true]
    omega
  · simp only [freeFootprint_cons, freeFootprint_nil, Bool.false_eq_true, if_false]
    omega

theorem freeFootprint_searchLedger (size : Nat) (l : List Region) :
    freeFootprint (searchLedger size l) = freeFootprint l := by
  unfold searchLedger
  split
  · rfl
  · exact freeFootprint_coalesce l

theorem mallocStep_footprint (size : Nat) (l l1 : List Region) (p : Option Int)
    (h : MallocStep size l l1 p) :
    (p = none → freeFootprint l1 = freeFootprint l) ∧
    (p ≠ none → freeFootprint l1 + 32 ≤ freeFootprint l) := by
  unfold MallocStep at h
  cases hc : chooseA size l with
  | none =>
    rw [hc] at h
    refine ⟨fun _ => by rw [h.1, freeFootprint_searchLedger], fun hp => absurd h.2 hp⟩
  | some b =>
    rw [hc] at h
    obtain ⟨l2, l3, d1, d2, d3⟩ := h
    have hb := chooseA_fits _ _ _ hc
    simp only [fits, Bool.and_eq_true, decide_eq_true_eq] at hb
    refine ⟨fun hp => (by rw [d3] at hp; cases hp), fun _ => ?_⟩
    have h1 := freeFootprint_searchLedger size l
    rw [d1, freeFootprint_append] at h1
    have h2 : freeFootprint (b :: l3) = freeFootprint [b] + freeFootprint l3 := by
      rw [freeFootprint_cons, freeFootprint_cons, freeFootprint_nil]; omega
    have h3 := (freeFootprint_take size b hb.1).2
    rw [d2, freeFootprint_append, freeFootprint_append]
    omega

theorem freeFootprint_le_sum (l : List Region) :
    freeFootprint l ≤ (l.map fun r => r.size + BLOCK_SIZE).sum := by
  induction l with
  | nil => simp [freeFootprint_nil]
  | cons a l ih =>
    rw [freeFootprint_cons, List.map_cons, List.sum_cons, BLOCK_SIZE_eq] at *
    split <;> omega

theorem repr_footprint_le (h : Heap) (l : List Region) (hr : Repr h l) :
    freeFootprint l ≤ MEMORY_SIZE := by
  have h1 := sum_hdrs 0 _ none none l hr.adj
  rw [sum_regions, regions_hdrs] at h1
  have h2 := freeFootprint_le_sum l
  omega

theorem malloc_seq_spec (enc : Block → Int → Nat) (ns : List Nat) :
    ∀ (h : Heap) (l : List Region), Repr h l →
    ∃ h2 l2 k, malloc_seq enc h ns = some (h2, k) ∧ Repr h2 l2 ∧
      freeFootprint l2 + 32 * k ≤ freeFootprint l := by
  induction ns with
  | nil => intro h l hl; exact ⟨h, l, 0, rfl, hl, by omega⟩
  | cons n ns ih =>
    intro h l hl
    obtain ⟨h1, l1, p, e1, e2, e3, _⟩ := malloc_spec enc h l n hl
    obtain ⟨h2, l2, k, g1, g2, g3⟩ := ih h1 l1 e2
    have hf := mallocStep_footprint _ _ _ _ e3
    cases p with
    | none =>
      refine ⟨h2, l2, k, by simp only [malloc_seq, e1, g1], g2, ?_⟩
      have := hf.1 rfl
      omega
    | some q =>
      refine ⟨h2, l2, k + 1, by simp only [malloc_seq, e1, g1], g2, ?_⟩
      have := hf.2 (by simp)
      omega

/-- C19: repeated allocation exhausts the arena. In a reachable state, a successful
`_malloc` lowers the total free footprint by at least `BLOCK_SIZE` and a failed one does not
raise it; so a sequence of `_malloc` calls with nothing in between has at most
`MEMORY_SIZE / BLOCK_SIZE = 983040` successful calls, whatever the requested sizes. -/
theorem C19_allocation_exhausts_arena (enc : Block → Int → Nat) (h : Heap)
    (hr : Reachable enc h) :
    (∀ n, ∃ L h1 p L1, ledger h = some L ∧ _malloc enc h n = some (h1, p) ∧
      ledger h1 = some L1 ∧
      (p ≠ none → freeFootprint (regions L1) + BLOCK_SIZE ≤ freeFootprint (regions L)) ∧
      (p = none → freeFootprint (regions L1) ≤ freeFootprint (regions L))) ∧
    (∀ ns, ∃ h2 k, malloc_seq enc h ns = some (h2, k) ∧ k ≤ MEMORY_SIZE / BLOCK_SIZE) ∧
    MEMORY_SIZE / BLOCK_SIZE = 983040 := by
  obtain ⟨l, hl⟩ := reachable_repr enc h hr
  refine ⟨?_, ?_, by decide⟩
  · intro n
    obtain ⟨h1, l1, p, e1, e2, e3, _⟩ := malloc_spec enc h l n hl
    have hf := mallocStep_footprint _ _ _ _ e3
    refine ⟨_, h1, p, _, repr_ledger h l hl, e1, repr_ledger _ _ e2, ?_, ?_⟩
    · intro hp
      rw [regions_hdrs, regions_hdrs, BLOCK_SIZE_eq]
      exact hf.2 hp
    · intro hp
      rw [regions_hdrs, regions_hdrs]
      exact le_of_eq (hf.1 hp)
  · intro ns
    obtain ⟨h2, l2, k, g1, _, g3⟩ := malloc_seq_spec enc ns h l hl
    refine ⟨h2, k, g1, ?_⟩
    have := repr_footprint_le h l hl
    have e : MEMORY_SIZE / BLOCK_SIZE = 983040 := by decide
    rw [e]
    rw [MEMORY_SIZE_eq] at this
    omega

/-- C19, witness: the state `demo9`. -/
theorem C19_allocation_exhausts_arena_witness :
    Reachable enc0 demo9 ∧
    ((∀ n, ∃ L h1 p L1, ledger demo9 = some L ∧ _malloc enc0 demo9 n = some (h1, p) ∧
      ledger h1 = some L1 ∧
      (p ≠ none → freeFootprint (regions L1) + BLOCK_SIZE ≤ freeFootprint (regions L)) ∧
      (p = none → freeFootprint (regions L1) ≤ freeFootprint (regions L))) ∧
    (∀ ns, ∃ h2 k, malloc_seq enc0 demo9 ns = some (h2, k) ∧ k ≤ MEMORY_SIZE / BLOCK_SIZE) ∧
    MEMORY_SIZE / BLOCK_SIZE = 983040) :=
  ⟨demo9_reachable, C19_allocation_exhausts_arena enc0 demo9 demo9_reachable⟩

end HeapMem
